import Mathlib

/-! # linearbuffers: the schema compiler driver (`src/main.c`)

A shallow embedding of the command-line driver.  C strings are NUL-free
character sequences and are represented by `String`; the character-level
library routines work on `String.data`.

The C library routines the driver calls (`strcmp`, `strcasecmp`, `atoi`,
`getopt_long`) are embedded after their glibc behaviour in the "C" locale
(the driver never calls `setlocale`), with `POSIXLY_CORRECT` unset.

The functions of the repository that the driver calls but that are declared
only (`schema_parse_file`, `schema_set_namespace`, the `schema_generate_*`
emitters) and the file-system calls (`fopen`) are parameters of the model,
collected in `Env`.  Every call the driver makes to them, and every line it
prints itself, is recorded in order in a trace of `Event`s; the messages
`getopt_long` prints for options it does not recognise are not the driver's
own and are not recorded.
-/

namespace Linearbuffers

/-! ## C library: characters and strings -/

/-- The `tolower` of the "C" locale: only `A`..`Z` are mapped. -/
def tolower (c : Char) : Char :=
  if 'A'.toNat ≤ c.toNat ∧ c.toNat ≤ 'Z'.toNat then Char.ofNat (c.toNat + 32) else c

/-- The `isspace` of the "C" locale: space, `\t`, `\n`, `\v`, `\f`, `\r`. -/
def isspace (c : Char) : Bool :=
  c.toNat = 32 ∨ (9 ≤ c.toNat ∧ c.toNat ≤ 13)

/-- The `isdigit` test. -/
def isdigit (c : Char) : Bool :=
  '0'.toNat ≤ c.toNat ∧ c.toNat ≤ '9'.toNat

/-- Character-level `strcmp`: the sign (-1, 0 or 1) of the comparison of the
first pair of characters that differ, the end of a string being smaller than
every character; 0 when the strings are the same. -/
def strcmp_chars : List Char → List Char → Int
  | [], [] => 0
  | [], _ :: _ => -1
  | _ :: _, [] => 1
  | a :: as, b :: bs =>
    if a = b then strcmp_chars as bs else if a.toNat < b.toNat then -1 else 1

/-- The `strcmp` of the C library. -/
def strcmp (a b : String) : Int := strcmp_chars a.data b.data

/-- The `strcasecmp` of the C library: `strcmp` after `tolower` on both sides. -/
def strcasecmp (a b : String) : Int :=
  strcmp_chars (a.data.map tolower) (b.data.map tolower)

/-- The value of the leading run of decimal digits, accumulated left to right. -/
def digits_value : Nat → List Char → Nat
  | acc, [] => acc
  | acc, c :: cs => if isdigit c then digits_value (acc * 10 + (c.toNat - '0'.toNat)) cs else acc

def LONG_MAX : Int := 2 ^ 63 - 1
def LONG_MIN : Int := -(2 ^ 63)

/-- The `strtol (s, NULL, 10)` of the C library on a 64-bit `long`: leading
white space is skipped, one optional sign is read, then the leading decimal
digits; the result saturates at `LONG_MIN` / `LONG_MAX`. -/
def strtol (s : List Char) : Int :=
  match s.dropWhile isspace with
  | '-' :: t => max LONG_MIN (-(digits_value 0 t : Int))
  | '+' :: t => min LONG_MAX (digits_value 0 t : Int)
  | t => min LONG_MAX (digits_value 0 t : Int)

/-- Conversion of a `long` to a 32-bit `int`: reduction modulo `2 ^ 32` into
the signed range. -/
def long_to_int (x : Int) : Int := (x + 2 ^ 31) % 2 ^ 32 - 2 ^ 31

/-- The `atoi` of glibc: `(int) strtol (nptr, NULL, 10)`. -/
def atoi (s : String) : Int := long_to_int (strtol s.data)

/-! ## C library: `getopt_long` -/

/-- The `has_arg` field of a `struct option`. -/
inductive has_arg_kind where
  | no_argument
  | required_argument
  | optional_argument
  deriving DecidableEq, Repr

/-- A `struct option` of `getopt.h`.  The `flag` field is 0 in every entry of
the driver's table, so `getopt_long` returns `val`; the field is left out. -/
structure option where
  name : String
  has_arg : has_arg_kind
  val : Char
  deriving DecidableEq, Repr

/-- What one call of `getopt_long` hands to the caller when it does not
return -1: the returned character together with `optarg`, which is non-NULL
exactly for an option that came with an argument. -/
inductive getopt_ret where
  | flag (c : Char)
  | arg (c : Char) (optarg : String)
  deriving DecidableEq, Repr

/-- The return for an unrecognised, ambiguous or malformed option. -/
def getopt_error : getopt_ret := .flag '?'

/-- The return for a missing required argument: `:` when the option string
starts with a colon, `?` otherwise. -/
def getopt_missing (optstring : List Char) : getopt_ret :=
  match optstring with
  | ':' :: _ => .flag ':'
  | _ => .flag '?'

/-- The `strchr` of the C library, as the suffix starting at the first
occurrence. -/
def strchr : List Char → Char → Option (List Char)
  | [], _ => none
  | x :: xs, c => if x = c then some (x :: xs) else strchr xs c

/-- The test `strncmp (p->name, nextchar, namelen) == 0`, where `name` is the
first `namelen` characters of `nextchar`: `name` begins `pname`. -/
def strncmp_eq : (pname name : List Char) → Bool
  | _, [] => true
  | [], _ :: _ => false
  | a :: as, b :: bs => a = b ∧ strncmp_eq as bs

/-- The long-option lookup of glibc: an exact match wins; otherwise the
abbreviation matches are collected, and a second match that differs from the
first in `has_arg` or `val` makes the name ambiguous.  The outer `none` is
"ambiguous", `some none` is "not found". -/
def find_long_option (longopts : List option) (name : List Char) : Option (Option option) :=
  match longopts.find? (fun p => decide (p.name.data = name)) with
  | some p => some (some p)
  | none =>
    match longopts.filter (fun p => strncmp_eq p.name.data name) with
    | [] => some none
    | p :: ps =>
      if ps.any (fun q => decide (q.has_arg ≠ p.has_arg ∨ q.val ≠ p.val)) then none else some (some p)

/-- The treatment of an `argv` element `--nextchar` by glibc.  `next` is the
following `argv` element, if any; the Boolean tells whether it was consumed as
the option's argument. -/
def process_long_option (optstring : List Char) (longopts : List option)
    (nextchar : List Char) (next : Option String) : getopt_ret × Bool :=
  let name := nextchar.takeWhile (fun c => decide (c ≠ '='))
  let nameend := nextchar.dropWhile (fun c => decide (c ≠ '='))
  match find_long_option longopts name with
  | none => (getopt_error, false)
  | some none => (getopt_error, false)
  | some (some pfound) =>
    match nameend with
    | _ :: value =>
      if pfound.has_arg ≠ .no_argument then (.arg pfound.val (String.mk value), false)
      else (getopt_error, false)
    | [] =>
      if pfound.has_arg = .required_argument then
        match next with
        | some a => (.arg pfound.val a, true)
        | none => (getopt_missing optstring, false)
      else (.flag pfound.val, false)

/-- The short options of one `argv` element, read character by character
(`nextchar` is what is left of the element).  The result lists the successive
returns and tells whether the following `argv` element was consumed as an
argument.  The option string of the driver has no `W;` entry. -/
def scan_short_options (optstring : List Char) (next : Option String) :
    List Char → List getopt_ret × Bool
  | [] => ([], false)
  | c :: nextchar =>
    match strchr optstring c with
    | none => (getopt_error :: (scan_short_options optstring next nextchar).1,
               (scan_short_options optstring next nextchar).2)
    | some temp =>
      if c = ':' ∨ c = ';' then
        (getopt_error :: (scan_short_options optstring next nextchar).1,
         (scan_short_options optstring next nextchar).2)
      else
        match temp with
        | _ :: ':' :: ':' :: _ =>
          if nextchar ≠ [] then ([.arg c (String.mk nextchar)], false) else ([.flag c], false)
        | _ :: ':' :: _ =>
          if nextchar ≠ [] then ([.arg c (String.mk nextchar)], false)
          else
            match next with
            | none => ([getopt_missing optstring], false)
            | some a => ([.arg c a], true)
        | _ =>
          (.flag c :: (scan_short_options optstring next nextchar).1,
           (scan_short_options optstring next nextchar).2)

/-- The successive returns of `getopt_long (argc, argv, optstring, longopts, _)`
up to the call that returns -1, over the `argv` elements after `argv[0]`.
The Boolean tells that the first element has been consumed as the argument of
the option before it.  Elements that are not options (no leading `-`, or `-`
alone) are passed over, and `--` ends the scan. -/
def getopt_long (optstring : List Char) (longopts : List option) :
    Bool → List String → List getopt_ret
  | _, [] => []
  | true, _ :: rest => getopt_long optstring longopts false rest
  | false, a :: rest =>
    match a.data with
    | ['-', '-'] => []
    | '-' :: '-' :: nextchar =>
      (process_long_option optstring longopts nextchar rest.head?).1 ::
        getopt_long optstring longopts
          (process_long_option optstring longopts nextchar rest.head?).2 rest
    | '-' :: c :: nextchar =>
      (scan_short_options optstring rest.head? (c :: nextchar)).1 ++
        getopt_long optstring longopts
          (scan_short_options optstring rest.head? (c :: nextchar)).2 rest
    | _ => getopt_long optstring longopts false rest

/-! ## The driver: tables and option parsing -/

/-- The emitter functions the driver can call (declared in `main.c`, defined
elsewhere); a value of this type is the function pointer. -/
inductive emitter where
  | schema_generate_pretty
  | schema_generate_c_encoder
  | schema_generate_c_decoder
  | schema_generate_c_jsonify
  | schema_generate_js_encoder
  | schema_generate_js_decoder
  | schema_generate_js_jsonify
  deriving DecidableEq, Repr

/-- The `struct generator` of the driver. -/
structure generator where
  language : String
  encoder : emitter
  decoder : emitter
  jsonify : emitter
  deriving DecidableEq, Repr

/-- The `generators` table (without its terminating NULL). -/
def generators : List generator :=
  [ { language := "c",
      encoder := .schema_generate_c_encoder,
      decoder := .schema_generate_c_decoder,
      jsonify := .schema_generate_c_jsonify },
    { language := "js",
      encoder := .schema_generate_js_encoder,
      decoder := .schema_generate_js_decoder,
      jsonify := .schema_generate_js_jsonify } ]

/-- The `options` table handed to `getopt_long` (without its terminating
zero entry). -/
def options : List option :=
  [ ⟨"help", .no_argument, 'h'⟩,
    ⟨"schema", .required_argument, 's'⟩,
    ⟨"output", .required_argument, 'o'⟩,
    ⟨"pretty", .required_argument, 'p'⟩,
    ⟨"language", .required_argument, 'l'⟩,
    ⟨"encoder", .required_argument, 'e'⟩,
    ⟨"encoder-include-library", .required_argument, 'i'⟩,
    ⟨"decoder", .required_argument, 'd'⟩,
    ⟨"decoder-use-memcpy", .required_argument, 'm'⟩,
    ⟨"jsonify", .required_argument, 'j'⟩ ]

/-- The option string handed to `getopt_long`. -/
def optstring : String := "s:o:p:l:e:i:d:m:j:n:h"

/-- The `option_*` local variables of `main`; a NULL string is `none`. -/
structure Options where
  option_schema : Option String
  option_output : Option String
  option_pretty : Int
  option_language : String
  option_encoder : Int
  option_encoder_include_library : Int
  option_decoder : Int
  option_decoder_use_memcpy : Int
  option_jsonify : Int
  option_namespace : Option String
  deriving DecidableEq, Repr

/-- The `DEFAULT_*` values `main` starts from. -/
def default_options : Options :=
  { option_schema := none,
    option_output := none,
    option_pretty := 0,
    option_language := "c",
    option_encoder := 0,
    option_encoder_include_library := 0,
    option_decoder := 0,
    option_decoder_use_memcpy := 0,
    option_jsonify := 0,
    option_namespace := none }

/-- The value a Boolean option takes from its argument: the
`if / else if / else` chain that `main` repeats in each of the six Boolean
cases of its `switch`. -/
def bool_option (optarg : String) : Int :=
  if strcasecmp optarg "t" = 0 ∨ strcasecmp optarg "true" = 0 ∨
     strcasecmp optarg "y" = 0 ∨ strcasecmp optarg "yes" = 0 then 1
  else if strcasecmp optarg "f" = 0 ∨ strcasecmp optarg "false" = 0 ∨
          strcasecmp optarg "n" = 0 ∨ strcasecmp optarg "no" = 0 then 0
  else if atoi optarg ≠ 0 then 1 else 0

/-- The `switch (c)` of the option loop on one return of `getopt_long`;
`none` is the `goto out` of the help case.  A return that matches no case
label leaves the variables as they are.  (`getopt_long` returns a character
whose case reads `optarg` only together with an argument.) -/
def option_switch (o : Options) : getopt_ret → Option Options
  | .flag c => if c = 'h' then none else some o
  | .arg c optarg =>
    if c = 'h' then none
    else if c = 's' then some { o with option_schema := some optarg }
    else if c = 'o' then some { o with option_output := some optarg }
    else if c = 'p' then some { o with option_pretty := bool_option optarg }
    else if c = 'l' then some { o with option_language := optarg }
    else if c = 'e' then some { o with option_encoder := bool_option optarg }
    else if c = 'i' then some { o with option_encoder_include_library := bool_option optarg }
    else if c = 'd' then some { o with option_decoder := bool_option optarg }
    else if c = 'm' then some { o with option_decoder_use_memcpy := bool_option optarg }
    else if c = 'j' then some { o with option_jsonify := bool_option optarg }
    else if c = 'n' then some { o with option_namespace := some optarg }
    else some o

/-- The `while (1)` option loop over the successive returns of
`getopt_long`; `none` when the help case was taken. -/
def option_loop : Options → List getopt_ret → Option Options
  | o, [] => some o
  | o, r :: rs =>
    match option_switch o r with
    | none => none
    | some o1 => option_loop o1 rs

/-- The option variables at the end of the option loop of `main` for a given
`argv` (its first element is the program name); `none` when help was taken. -/
def parse_options (argv : List String) : Option Options :=
  option_loop default_options (getopt_long optstring.data options false argv.tail)

/-! ## The driver: environment, trace and `main` -/

/-- A `FILE *` the driver holds: one of the two standard streams, or the
stream `fopen (path, "w")` returned. -/
inductive FILE where
  | stdout
  | stderr
  | opened (path : String)
  deriving DecidableEq, Repr

/-- The functions `main` calls that are defined outside `main.c`, as
parameters.  `S` is what a `struct schema *` points to.  `main` calls each
of them at most once in a run with given arguments, so a function of the
arguments describes any behaviour of theirs in that run.
`schema_parse_file` returns NULL (`none`) or a schema;
`schema_set_namespace` changes the schema in place and returns a code, here
the code and the schema afterwards; `fopen path` tells whether
`fopen (path, "w")` returns a stream; `call f schema fp x` is the code the
emitter `f` returns on `(schema, fp)` and, for an encoder or a decoder, the
`int` argument `x`. -/
structure Env (S : Type) where
  schema_parse_file : String → Option S
  schema_set_namespace : S → String → Int × S
  fopen : String → Bool
  call : emitter → S → FILE → Option Int → Int

/-- One externally visible action of `main`, with what the call returned. -/
inductive Event (S : Type) where
  | print_help (name : Option String)
  | fprintf_stderr (format : String) (args : List String)
  | schema_parse_file (path : String) (ret : Option S)
  | schema_set_namespace (schema : S) (name : String) (rc : Int)
  | unlink (path : String)
  | fopen (path : String) (ok : Bool)
  | call (f : emitter) (schema : S) (fp : FILE) (x : Option Int) (rc : Int)
  | fclose (fp : FILE)
  | schema_destroy (schema : S)
  deriving DecidableEq, Repr

/-- The result of a run of `main`: the return value and the trace. -/
structure Run (S : Type) where
  rc : Int
  trace : List (Event S)
  deriving DecidableEq, Repr

/-- The test `output_file != stdout && output_file != stderr` on a `FILE *`
that may be NULL. -/
def not_standard : Option FILE → Bool
  | some .stdout => false
  | some .stderr => false
  | _ => true

/-- The code at the `bail` label, from the values of `output_file`,
`option_output` and `schema` at the jump. -/
def bail {S : Type} (output_file : Option FILE) (option_output : Option String)
    (schema : Option S) : List (Event S) :=
  (match output_file with
    | some fp => if not_standard (some fp) then [Event.fclose fp] else []
    | none => []) ++
  (match option_output with
    | some path => if not_standard output_file then [Event.unlink path] else []
    | none => []) ++
  (match schema with
    | some s => [Event.schema_destroy s]
    | none => [])

/-- The `for` loop over `generators` with `strcmp`: the first entry whose
language is the requested one, `none` when the loop runs into the NULL. -/
def find_generator : List generator → String → Option generator
  | [], _ => none
  | g :: gs, language => if strcmp g.language language = 0 then some g else find_generator gs language

/-- The end of a successful run: the stream is closed unless it is a standard
one, the schema is destroyed, and `main` returns 0. -/
def finish {S : Type} (schema : S) (fp : FILE) (t : List (Event S)) : Run S :=
  ⟨0, t ++ (if not_standard (some fp) then [Event.fclose fp] else []) ++
    [Event.schema_destroy schema]⟩

/-- A failed emission: the diagnostic, the code at `bail`, and -1. -/
def emit_failed {S : Type} (format : String) (output : String) (schema : S) (fp : FILE)
    (t : List (Event S)) : Run S :=
  ⟨-1, t ++ [Event.fprintf_stderr format [output]] ++
    bail (some fp) (some output) (some schema)⟩

/-- The block `if (option_jsonify) { ... }` and what follows it. -/
def emit_jsonify {S : Type} (env : Env S) (o : Options) (output : String) (schema : S)
    (fp : FILE) (g : generator) (t : List (Event S)) : Run S :=
  if o.option_jsonify ≠ 0 then
    if o.option_decoder = 0 then
      let rc := env.call g.decoder schema fp (some o.option_decoder_use_memcpy)
      let t1 := t ++ [Event.call g.decoder schema fp (some o.option_decoder_use_memcpy) rc]
      if rc ≠ 0 then
        emit_failed "can not generate decoder file: %s\n" output schema fp t1
      else
        let rc2 := env.call g.jsonify schema fp none
        let t2 := t1 ++ [Event.call g.jsonify schema fp none rc2]
        if rc2 ≠ 0 then
          emit_failed "can not generate jsonify file: %s\n" output schema fp t2
        else finish schema fp t2
    else
      let rc2 := env.call g.jsonify schema fp none
      let t2 := t ++ [Event.call g.jsonify schema fp none rc2]
      if rc2 ≠ 0 then
        emit_failed "can not generate jsonify file: %s\n" output schema fp t2
      else finish schema fp t2
  else finish schema fp t

/-- The block `if (option_decoder) { ... }` and what follows it. -/
def emit_decoder {S : Type} (env : Env S) (o : Options) (output : String) (schema : S)
    (fp : FILE) (g : generator) (t : List (Event S)) : Run S :=
  if o.option_decoder ≠ 0 then
    let rc := env.call g.decoder schema fp (some o.option_decoder_use_memcpy)
    let t1 := t ++ [Event.call g.decoder schema fp (some o.option_decoder_use_memcpy) rc]
    if rc ≠ 0 then
      emit_failed "can not generate decoder file: %s\n" output schema fp t1
    else emit_jsonify env o output schema fp g t1
  else emit_jsonify env o output schema fp g t

/-- The block `if (option_encoder) { ... }` and what follows it. -/
def emit_encoder {S : Type} (env : Env S) (o : Options) (output : String) (schema : S)
    (fp : FILE) (g : generator) (t : List (Event S)) : Run S :=
  if o.option_encoder ≠ 0 then
    let rc := env.call g.encoder schema fp (some o.option_encoder_include_library)
    let t1 := t ++ [Event.call g.encoder schema fp (some o.option_encoder_include_library) rc]
    if rc ≠ 0 then
      emit_failed "can not generate encoder file: %s\n" output schema fp t1
    else emit_decoder env o output schema fp g t1
  else emit_decoder env o output schema fp g t

/-- The block `if (option_pretty) { ... }` and what follows it: the emission
part of `main`. -/
def emit_pretty {S : Type} (env : Env S) (o : Options) (output : String) (schema : S)
    (fp : FILE) (g : generator) (t : List (Event S)) : Run S :=
  if o.option_pretty ≠ 0 then
    let rc := env.call .schema_generate_pretty schema fp none
    let t1 := t ++ [Event.call .schema_generate_pretty schema fp none rc]
    if rc ≠ 0 then
      emit_failed "can not generate schema file: %s\n" output schema fp t1
    else emit_encoder env o output schema fp g t1
  else emit_encoder env o output schema fp g t

/-- The choice of the output stream and what follows it. -/
def open_output {S : Type} (env : Env S) (o : Options) (output : String) (schema : S)
    (g : generator) (t : List (Event S)) : Run S :=
  if strcmp output "stdout" = 0 then emit_pretty env o output schema .stdout g t
  else if strcmp output "stderr" = 0 then emit_pretty env o output schema .stderr g t
  else
    let ok := env.fopen output
    let t1 := t ++ [Event.unlink output, Event.fopen output ok]
    if ok then emit_pretty env o output schema (.opened output) g t1
    else
      ⟨-1, t1 ++ [Event.fprintf_stderr "can not create file: %s\n" [output]] ++
        bail none (some output) (some schema)⟩

/-- The part of `main` after the option loop, on the option variables. -/
def main_body {S : Type} (env : Env S) (o : Options) : Run S :=
  match o.option_schema with
  | none => ⟨-1, [Event.fprintf_stderr "schema file is invalid\n" []] ++
      bail none o.option_output none⟩
  | some schema_path =>
  match o.option_output with
  | none => ⟨-1, [Event.fprintf_stderr "output file is invalid\n" []] ++ bail none none none⟩
  | some output =>
  if o.option_pretty = 0 ∧ o.option_encoder = 0 ∧ o.option_decoder = 0 ∧ o.option_jsonify = 0 then
    ⟨-1, [Event.fprintf_stderr "nothing to generate\n" []] ++ bail none (some output) none⟩
  else if o.option_pretty ≠ 0 ∧
      (o.option_encoder ≠ 0 ∨ o.option_decoder ≠ 0 ∨ o.option_jsonify ≠ 0) then
    ⟨-1, [Event.fprintf_stderr
        "pretty and (encoder | decoder | jsonify) are different things\n" []] ++
      bail none (some output) none⟩
  else
  match find_generator generators o.option_language with
  | none => ⟨-1, [Event.fprintf_stderr "language: %s is invalid\n" [o.option_language]] ++
      bail none (some output) none⟩
  | some g =>
  match env.schema_parse_file schema_path with
  | none => ⟨-1, [Event.schema_parse_file schema_path none,
        Event.fprintf_stderr "can not read schema file: %s\n" [schema_path]] ++
      bail none (some output) none⟩
  | some parsed =>
  let t0 : List (Event S) := [Event.schema_parse_file schema_path (some parsed)]
  match o.option_namespace with
  | some name =>
    let r := env.schema_set_namespace parsed name
    let t1 := t0 ++ [Event.schema_set_namespace parsed name r.1]
    if r.1 ≠ 0 then
      ⟨-1, t1 ++ [Event.fprintf_stderr "can not set schema namespace: %s\n" [name]] ++
        bail none (some output) (some r.2)⟩
    else open_output env o output r.2 g t1
  | none => open_output env o output parsed g t0

/-- The driver: `main (argc, argv)`.  `argv[0]` is the program name. -/
def main {S : Type} (env : Env S) (argv : List String) : Run S :=
  match parse_options argv with
  | none => ⟨0, [Event.print_help argv.head?]⟩
  | some o => main_body env o

/-! ## Reading a trace -/

/-- An emitter call as recorded in a trace. -/
structure Call (S : Type) where
  f : emitter
  schema : S
  fp : FILE
  x : Option Int
  rc : Int
  deriving DecidableEq, Repr

/-- The emitter call an event records, if it is one. -/
def Event.as_call {S : Type} : Event S → Option (Call S)
  | .call f schema fp x rc => some ⟨f, schema, fp, x, rc⟩
  | _ => none

/-- The emitter calls of a trace, in order. -/
def emitter_calls {S : Type} (t : List (Event S)) : List (Call S) :=
  t.filterMap Event.as_call

/-- The diagnostic line an event records, if it is one: the format and the
arguments of an `fprintf (stderr, ...)` of the driver. -/
def Event.as_diagnostic {S : Type} : Event S → Option (String × List String)
  | .fprintf_stderr format args => some (format, args)
  | _ => none

/-- The diagnostic lines of a trace, in order. -/
def diagnostics {S : Type} (t : List (Event S)) : List (String × List String) :=
  t.filterMap Event.as_diagnostic

/-- An environment for examples: a schema is represented by its namespace.
The schema file `a.lbs` parses to a schema with namespace `ns0` and no other
file parses; the empty namespace is refused; every path but `/` can be
opened; the emitters listed in `failing` return 1 and the others 0. -/
def sample_env (failing : List emitter) : Env String :=
  { schema_parse_file := fun path => if path = "a.lbs" then some "ns0" else none,
    schema_set_namespace := fun _ name => if name = "" then (-1, "ns0") else (0, name),
    fopen := fun path => decide (path ≠ "/"),
    call := fun f _ _ _ => if f ∈ failing then 1 else 0 }

/-- An invocation for examples: schema, output file, encoder and jsonify. -/
def sample_argv : List String :=
  ["prog", "-s", "a.lbs", "-o", "out.c", "-e", "1", "--jsonify", "yes"]

/-- The option variables `sample_argv` leads to. -/
def sample_options : Options :=
  { default_options with
    option_schema := some "a.lbs", option_output := some "out.c",
    option_encoder := 1, option_jsonify := 1 }

/-! ## The emission part as a list of steps

A second description of the emission part of `main`, used to reason about it:
the emitter calls the options ask for, in order, each with its `int`
argument and the format of the diagnostic printed when it fails, and the
execution of such a list up to the first call that returns non-zero.
`emit_pretty_eq_run_steps` shows that it describes the same runs. -/

/-- One emission step: the emitter, its `int` argument, and the format of
the diagnostic for its failure. -/
structure Step where
  f : emitter
  x : Option Int
  format : String
  deriving DecidableEq, Repr

/-- The steps of the `if (option_jsonify)` block. -/
def jsonify_steps (o : Options) (g : generator) : List Step :=
  if o.option_jsonify ≠ 0 then
    (if o.option_decoder = 0 then
      [⟨g.decoder, some o.option_decoder_use_memcpy, "can not generate decoder file: %s\n"⟩]
     else []) ++
    [⟨g.jsonify, none, "can not generate jsonify file: %s\n"⟩]
  else []

/-- The steps of the `if (option_decoder)` block. -/
def decoder_steps (o : Options) (g : generator) : List Step :=
  if o.option_decoder ≠ 0 then
    [⟨g.decoder, some o.option_decoder_use_memcpy, "can not generate decoder file: %s\n"⟩]
  else []

/-- The steps of the `if (option_encoder)` block. -/
def encoder_steps (o : Options) (g : generator) : List Step :=
  if o.option_encoder ≠ 0 then
    [⟨g.encoder, some o.option_encoder_include_library, "can not generate encoder file: %s\n"⟩]
  else []

/-- The steps of the `if (option_pretty)` block. -/
def pretty_steps (o : Options) : List Step :=
  if o.option_pretty ≠ 0 then
    [⟨.schema_generate_pretty, none, "can not generate schema file: %s\n"⟩]
  else []

/-- All emission steps of a run, in the order of the four blocks. -/
def emission_steps (o : Options) (g : generator) : List Step :=
  pretty_steps o ++ encoder_steps o g ++ decoder_steps o g ++ jsonify_steps o g

/-- The event of executing a step. -/
def Step.event {S : Type} (env : Env S) (schema : S) (fp : FILE) (st : Step) : Event S :=
  Event.call st.f schema fp st.x (env.call st.f schema fp st.x)

/-- Execution of a list of steps: each call is made and recorded; the first
one that returns non-zero ends the run through `emit_failed`, and when none
does the run ends through `finish`. -/
def run_steps {S : Type} (env : Env S) (output : String) (schema : S) (fp : FILE) :
    List Step → List (Event S) → Run S
  | [], t => finish schema fp t
  | st :: rest, t =>
    if env.call st.f schema fp st.x ≠ 0 then
      emit_failed st.format output schema fp (t ++ [st.event env schema fp])
    else run_steps env output schema fp rest (t ++ [st.event env schema fp])

/-- The first step of a list whose call returns non-zero, if any. -/
def first_failure {S : Type} (env : Env S) (schema : S) (fp : FILE) : List Step → Option Step
  | [] => none
  | st :: rest =>
    if env.call st.f schema fp st.x ≠ 0 then some st else first_failure env schema fp rest

/-- The steps of a list that are executed: those up to and including the
first one whose call returns non-zero. -/
def executed {S : Type} (env : Env S) (schema : S) (fp : FILE) : List Step → List Step
  | [] => []
  | st :: rest =>
    if env.call st.f schema fp st.x ≠ 0 then [st] else st :: executed env schema fp rest

/-! ## Spellings of a word -/

/-- Every way of writing a lower-case word with each character either as it
is or in upper case. -/
def case_spellings : List Char → List (List Char)
  | [] => [[]]
  | c :: cs => (case_spellings cs).flatMap (fun s => [c :: s, c.toUpper :: s])

/-! ## The paths through `main` -/

/-- The namespace step of a run whose schema parsed: without a namespace
option nothing is called and the schema is the parsed one; with one,
`schema_set_namespace` is called and (on this path) returns 0. -/
def namespace_step {S : Type} (env : Env S) (o : Options) (parsed schema : S)
    (t : List (Event S)) : Prop :=
  (o.option_namespace = none ∧ schema = parsed ∧ t = []) ∨
  (∃ name, o.option_namespace = some name ∧
    (env.schema_set_namespace parsed name).1 = 0 ∧
    schema = (env.schema_set_namespace parsed name).2 ∧
    t = [Event.schema_set_namespace parsed name 0])

/-- The choice of the stream on a path that reaches the emission. -/
def stream_step {S : Type} (env : Env S) (output : String) (fp : FILE)
    (t : List (Event S)) : Prop :=
  (output = "stdout" ∧ fp = .stdout ∧ t = []) ∨
  (output = "stderr" ∧ fp = .stderr ∧ t = []) ∨
  (output ≠ "stdout" ∧ output ≠ "stderr" ∧ env.fopen output = true ∧
    fp = .opened output ∧ t = [Event.unlink output, Event.fopen output true])

/-- The paths through the part of `main` after the option loop: one for each
`goto bail` before the emission, and one for the runs that reach the
emission, which continue as `run_steps`. -/
inductive Path {S : Type} (env : Env S) (o : Options) : Run S → Prop where
  | no_schema :
      o.option_schema = none →
      Path env o ⟨-1, [Event.fprintf_stderr "schema file is invalid\n" []] ++
        bail none o.option_output none⟩
  | no_output (schema_path : String) :
      o.option_schema = some schema_path → o.option_output = none →
      Path env o ⟨-1, [Event.fprintf_stderr "output file is invalid\n" []]⟩
  | nothing (schema_path output : String) :
      o.option_schema = some schema_path → o.option_output = some output →
      (o.option_pretty = 0 ∧ o.option_encoder = 0 ∧ o.option_decoder = 0 ∧
        o.option_jsonify = 0) →
      Path env o ⟨-1, [Event.fprintf_stderr "nothing to generate\n" [], Event.unlink output]⟩
  | mixed (schema_path output : String) :
      o.option_schema = some schema_path → o.option_output = some output →
      (o.option_pretty ≠ 0 ∧
        (o.option_encoder ≠ 0 ∨ o.option_decoder ≠ 0 ∨ o.option_jsonify ≠ 0)) →
      Path env o ⟨-1, [Event.fprintf_stderr
        "pretty and (encoder | decoder | jsonify) are different things\n" [],
        Event.unlink output]⟩
  | bad_language (schema_path output : String) :
      o.option_schema = some schema_path → o.option_output = some output →
      ¬ (o.option_pretty = 0 ∧ o.option_encoder = 0 ∧ o.option_decoder = 0 ∧
        o.option_jsonify = 0) →
      ¬ (o.option_pretty ≠ 0 ∧
        (o.option_encoder ≠ 0 ∨ o.option_decoder ≠ 0 ∨ o.option_jsonify ≠ 0)) →
      find_generator generators o.option_language = none →
      Path env o ⟨-1, [Event.fprintf_stderr "language: %s is invalid\n" [o.option_language],
        Event.unlink output]⟩
  | parse_failed (schema_path output : String) (g : generator) :
      o.option_schema = some schema_path → o.option_output = some output →
      ¬ (o.option_pretty = 0 ∧ o.option_encoder = 0 ∧ o.option_decoder = 0 ∧
        o.option_jsonify = 0) →
      ¬ (o.option_pretty ≠ 0 ∧
        (o.option_encoder ≠ 0 ∨ o.option_decoder ≠ 0 ∨ o.option_jsonify ≠ 0)) →
      find_generator generators o.option_language = some g →
      env.schema_parse_file schema_path = none →
      Path env o ⟨-1, [Event.schema_parse_file schema_path none,
        Event.fprintf_stderr "can not read schema file: %s\n" [schema_path],
        Event.unlink output]⟩
  | namespace_failed (schema_path output : String) (g : generator) (parsed : S)
      (name : String) :
      o.option_schema = some schema_path → o.option_output = some output →
      ¬ (o.option_pretty = 0 ∧ o.option_encoder = 0 ∧ o.option_decoder = 0 ∧
        o.option_jsonify = 0) →
      ¬ (o.option_pretty ≠ 0 ∧
        (o.option_encoder ≠ 0 ∨ o.option_decoder ≠ 0 ∨ o.option_jsonify ≠ 0)) →
      find_generator generators o.option_language = some g →
      env.schema_parse_file schema_path = some parsed →
      o.option_namespace = some name →
      (env.schema_set_namespace parsed name).1 ≠ 0 →
      Path env o ⟨-1, [Event.schema_parse_file schema_path (some parsed),
        Event.schema_set_namespace parsed name (env.schema_set_namespace parsed name).1,
        Event.fprintf_stderr "can not set schema namespace: %s\n" [name],
        Event.unlink output,
        Event.schema_destroy (env.schema_set_namespace parsed name).2]⟩
  | open_failed (schema_path output : String) (g : generator) (parsed schema : S)
      (tn : List (Event S)) :
      o.option_schema = some schema_path → o.option_output = some output →
      ¬ (o.option_pretty = 0 ∧ o.option_encoder = 0 ∧ o.option_decoder = 0 ∧
        o.option_jsonify = 0) →
      ¬ (o.option_pretty ≠ 0 ∧
        (o.option_encoder ≠ 0 ∨ o.option_decoder ≠ 0 ∨ o.option_jsonify ≠ 0)) →
      find_generator generators o.option_language = some g →
      env.schema_parse_file schema_path = some parsed →
      namespace_step env o parsed schema tn →
      output ≠ "stdout" → output ≠ "stderr" → env.fopen output = false →
      Path env o ⟨-1, [Event.schema_parse_file schema_path (some parsed)] ++ tn ++
        [Event.unlink output, Event.fopen output false,
          Event.fprintf_stderr "can not create file: %s\n" [output],
          Event.unlink output, Event.schema_destroy schema]⟩
  | emission (schema_path output : String) (g : generator) (parsed schema : S)
      (fp : FILE) (tn tf : List (Event S)) :
      o.option_schema = some schema_path → o.option_output = some output →
      ¬ (o.option_pretty = 0 ∧ o.option_encoder = 0 ∧ o.option_decoder = 0 ∧
        o.option_jsonify = 0) →
      ¬ (o.option_pretty ≠ 0 ∧
        (o.option_encoder ≠ 0 ∨ o.option_decoder ≠ 0 ∨ o.option_jsonify ≠ 0)) →
      find_generator generators o.option_language = some g →
      env.schema_parse_file schema_path = some parsed →
      namespace_step env o parsed schema tn →
      stream_step env output fp tf →
      Path env o (run_steps env output schema fp (emission_steps o g)
        ([Event.schema_parse_file schema_path (some parsed)] ++ tn ++ tf))

/-- A run reaches the emission part of `main`: both paths were supplied, the
argument checks and the language lookup pass, the schema parses, the
namespace (when supplied) is set, and the output stream is there. -/
def reaches_emission {S : Type} (env : Env S) (o : Options) : Prop :=
  ∃ schema_path output parsed,
    o.option_schema = some schema_path ∧ o.option_output = some output ∧
    (o.option_pretty ≠ 0 ∨ o.option_encoder ≠ 0 ∨ o.option_decoder ≠ 0 ∨
      o.option_jsonify ≠ 0) ∧
    ¬ (o.option_pretty ≠ 0 ∧
      (o.option_encoder ≠ 0 ∨ o.option_decoder ≠ 0 ∨ o.option_jsonify ≠ 0)) ∧
    (∃ g ∈ generators, g.language = o.option_language) ∧
    env.schema_parse_file schema_path = some parsed ∧
    (∀ name, o.option_namespace = some name →
      (env.schema_set_namespace parsed name).1 = 0) ∧
    (output = "stdout" ∨ output = "stderr" ∨ env.fopen output = true)

/-- The four argument checks at the head of `main` pass: both paths were
supplied, something is to be generated, and pretty is not combined with the
encoder, the decoder or jsonify. -/
def arguments_pass (o : Options) (schema_path output : String) : Prop :=
  o.option_schema = some schema_path ∧ o.option_output = some output ∧
  ¬ (o.option_pretty = 0 ∧ o.option_encoder = 0 ∧ o.option_decoder = 0 ∧
    o.option_jsonify = 0) ∧
  ¬ (o.option_pretty ≠ 0 ∧
    (o.option_encoder ≠ 0 ∨ o.option_decoder ≠ 0 ∨ o.option_jsonify ≠ 0))

/-! ## The usage text -/

/-- The lines `print_help (name)` writes to the standard output.  The
defaults of the schema, the output and the namespace are NULL and print as
`(null)`. -/
def print_help (name : String) : List String :=
  [ name ++ ":\n",
    "\n",
    "options:\n",
    "  -s, --schema   : schema file (default: (null))\n",
    "  -o, --output   : output file (default: (null))\n",
    "  -p, --pretty   : generate pretty (values: \x7b 0, 1 \x7d, default: 0)\n",
    "  -l, --language : generate language (values: \x7b c, js \x7d, default: c)\n",
    "  -e, --encoder: generate encoder (values: \x7b 0, 1 \x7d, default: 0)\n",
    "  -i, --encoder-include-library: generate encoder with builtin library(values: \x7b 0, 1 \x7d, default: 0)\n",
    "  -d, --decoder  : generate decoder (values: \x7b 0, 1 \x7d, default: 0)\n",
    "  -m, --decoder-use-memcpy: decode using memcpy, rather than casting (values: \x7b 0, 1 \x7d, default: 0)\n",
    "  -j, --jsonify  : generate jsonify (values: \x7b 0, 1 \x7d, default: 0)\n",
    "  -n, --namespace: namespace (default: (null))\n",
    "  -h, --help     : this text\n" ]

/-- The lines a run of `main` writes itself to the standard output: the
usage text of each `print_help` call of the trace. -/
def stdout_lines {S : Type} : List (Event S) → List String
  | [] => []
  | Event.print_help (some name) :: t => print_help name ++ stdout_lines t
  | _ :: t => stdout_lines t

/-! ## The logger (`src/debug.c`) -/

/-- A value of `enum linearbuffers_debug_level` (the enumeration is declared
in `debug.h`): one of its six enumerators, or a value that is none of
them. -/
inductive linearbuffers_debug_level where
  | silent
  | error
  | warning
  | notice
  | info
  | debug
  | other (value : Int)
  deriving DecidableEq, Repr

/-- The name of a level; `unknown` for a value that is no enumerator. -/
def linearbuffers_debug_level_to_string : linearbuffers_debug_level → String
  | .silent => "silent"
  | .error => "error"
  | .warning => "warning"
  | .notice => "notice"
  | .info => "info"
  | .debug => "debug"
  | .other _ => "unknown"

/-- The level a string names; `none` is the NULL pointer. -/
def linearbuffers_debug_level_from_string : Option String → linearbuffers_debug_level
  | none => .error
  | some string =>
    if strcmp string "silent" = 0 ∨ strcmp string "s" = 0 then .silent
    else if strcmp string "error" = 0 ∨ strcmp string "e" = 0 then .error
    else if strcmp string "warning" = 0 ∨ strcmp string "w" = 0 then .warning
    else if strcmp string "notice" = 0 ∨ strcmp string "n" = 0 then .notice
    else if strcmp string "info" = 0 ∨ strcmp string "i" = 0 then .info
    else if strcmp string "debug" = 0 ∨ strcmp string "d" = 0 then .debug
    else .error

/-! ### The arithmetic of `double`

`linearbuffers_debug_printf` computes the millisecond field in `double`.
The type is taken to be IEEE 754 binary64 with rounding to nearest, ties to
even (as on x86-64 and aarch64); numbers are rationals, and overflow to
infinity is left out (it cannot occur below 2^1024). -/

/-- The integer nearest to `x`, the even one of the two when `x` lies half
way between two integers. -/
def round_half_even (x : ℚ) : Int :=
  if x - ⌊x⌋ < 1 / 2 then ⌊x⌋
  else if 1 / 2 < x - ⌊x⌋ then ⌊x⌋ + 1
  else if ⌊x⌋ % 2 = 0 then ⌊x⌋
  else ⌊x⌋ + 1

/-- The exponent of the spacing of the binary64 numbers around `x`: 52 below
the exponent of `x` (53 significant bits), and -1074 in the subnormal
range. -/
def binary64_ulp_exponent (x : ℚ) : Int := max (Int.log 2 |x|) (-1022) - 52

/-- The binary64 number nearest to `x` (ties to even): the result of a
`double` operation whose exact result is `x`. -/
def binary64_round (x : ℚ) : ℚ :=
  round_half_even (x / 2 ^ binary64_ulp_exponent x) * 2 ^ binary64_ulp_exponent x

/-- The conversion `(int) x` of a `double`: the fractional part is dropped
(rounding toward zero). -/
def double_to_int (x : ℚ) : Int := if 0 ≤ x then ⌊x⌋ else ⌈x⌉

/-! ### `linearbuffers_debug_printf` -/

/-- The millisecond field before the carry:
`(int) ((timeval.tv_usec / 1000.0) + 0.5)`, with `tv_usec` converted to
`double`, the division and the addition in `double`. -/
def debug_milliseconds (tv_usec : Int) : Int :=
  double_to_int (binary64_round (binary64_round (binary64_round (tv_usec : ℚ) / 1000) + 1 / 2))

/-- The seconds and the millisecond field after the carry
(`if (milliseconds >= 1000)`). -/
def debug_timestamp (tv_sec tv_usec : Int) : Int × Int :=
  if 1000 ≤ debug_milliseconds tv_usec then (tv_sec + 1, debug_milliseconds tv_usec - 1000)
  else (tv_sec, debug_milliseconds tv_usec)

/-- The conversion `%d` of `printf`. -/
def format_d (n : Int) : String := toString n

/-- The conversion `%03d` of `printf`: at least three characters, padded
with zeros after the sign. -/
def format_03d (n : Int) : String :=
  if 0 ≤ n then "".pushn '0' (3 - (toString n.natAbs).length) ++ toString n.natAbs
  else "-" ++ "".pushn '0' (2 - (toString n.natAbs).length) ++ toString n.natAbs

/-- What `linearbuffers_debug_printf` calls, in call order.  `localtime`
carries the seconds it is given, `fprintf_stderr` the text written to the
standard error stream, `free` the string freed. -/
inductive debug_event where
  | va_start
  | lock
  | unlock
  | vasprintf (fmt : String)
  | gettimeofday
  | localtime (tv_sec : Int)
  | strftime
  | fprintf_stderr (text : String)
  | va_end
  | free (str : String)
  deriving DecidableEq, Repr

/-- The functions `linearbuffers_debug_printf` calls, as oracles, over the
type `A` of variable argument lists: `vasprintf` gives its return value and
the pointer it leaves in `str` (`none` is NULL); `gettimeofday` gives
`tv_sec` and `tv_usec`; `date` is what `localtime` and `strftime` with the
format `%x-%H:%M:%S` put into `date` for the seconds given. -/
structure DebugEnv (A : Type) where
  vasprintf : String → A → Int × Option String
  gettimeofday : Int × Int
  date : Int → String

/-- A run of `linearbuffers_debug_printf`: the value returned and the calls
made. -/
structure DebugRun where
  rc : Int
  trace : List debug_event
  deriving DecidableEq, Repr

/-- The call of `free` on `str` when it is not NULL. -/
def free_str : Option String → List debug_event
  | none => []
  | some str => [.free str]

/-- The line written by the `fprintf` call of `linearbuffers_debug_printf`. -/
def debug_line (date : String) (milliseconds : Int) (name : String)
    (level : linearbuffers_debug_level) (str function file : String) (line : Int) : String :=
  "linearbuffers:" ++ date ++ "." ++ format_03d milliseconds ++ ":" ++ name ++ ":" ++
    linearbuffers_debug_level_to_string level ++ ": " ++ str ++ " (" ++ function ++ " " ++
    file ++ ":" ++ format_d line ++ ")\n"

/-- The function `linearbuffers_debug_printf`.  The strings `name`,
`function` and `file` are not NULL.  When `vasprintf` succeeds `str` is the
string it allocated (for a NULL pointer `%s` writes `(null)`). -/
def linearbuffers_debug_printf {A : Type} (env : DebugEnv A)
    (level : linearbuffers_debug_level) (name function file : String) (line : Int)
    (fmt : String) (ap : A) : DebugRun :=
  let formatted := env.vasprintf fmt ap
  if formatted.1 < 0 then
    { rc := -1,
      trace := [.va_start, .lock, .vasprintf fmt, .unlock, .va_end] ++ free_str formatted.2 }
  else
    let stamp := debug_timestamp env.gettimeofday.1 env.gettimeofday.2
    { rc := 0,
      trace := [.va_start, .lock, .vasprintf fmt, .gettimeofday, .localtime stamp.1, .strftime,
        .fprintf_stderr (debug_line (env.date stamp.1) stamp.2 name level
          (formatted.2.getD "(null)") function file line),
        .unlock, .va_end] ++ free_str formatted.2 }

/-- Whether the mutex is held after the calls of a trace, when it was held
or not (`held`) before them. -/
def mutex_held : Bool → List debug_event → Bool
  | held, [] => held
  | _, .lock :: t => mutex_held true t
  | _, .unlock :: t => mutex_held false t
  | held, _ :: t => mutex_held held t

/-- Whether every `vasprintf` and every `fprintf` call of a trace is made
while the mutex is held, when it was held or not (`held`) before the
trace. -/
def guarded : Bool → List debug_event → Bool
  | _, [] => true
  | _, .lock :: t => guarded true t
  | _, .unlock :: t => guarded false t
  | held, .vasprintf _ :: t => held && guarded held t
  | held, .fprintf_stderr _ :: t => held && guarded held t
  | held, _ :: t => guarded held t

/-- The texts written to the standard error stream in a trace. -/
def stderr_writes : List debug_event → List String
  | [] => []
  | .fprintf_stderr text :: t => text :: stderr_writes t
  | _ :: t => stderr_writes t

/-- A sample environment: formatting gives the format itself and fails on
the empty format; the time is 12.9996 s. -/
def sample_debug_env : DebugEnv Unit :=
  { vasprintf := fun fmt _ => if fmt = "" then (-1, none) else (fmt.length, some fmt),
    gettimeofday := (12, 999600),
    date := fun tv_sec => toString tv_sec }

/-! ## The encoder and decoder runtimes (modelled from the specification) -/

namespace Runtime

/-! ### The wire format

The runtime library and the generated encoder and decoder wrappers that the
tests `test/09.c` and `test/10.c` call are not among the source files; they
are modelled from the specification (sections 3, 4.C, 4.D and 4.E).  A buffer
is a list of bytes (natural numbers below 256). -/


/-- Modelled from the spec: the integer scalar types of a schema (section 3:
signed/unsigned integers of 1/2/4/8 bytes); the schema model is not under
`src/`. -/
inductive scalar_type where
  | int8 | int16 | int32 | int64 | uint8 | uint16 | uint32 | uint64
  deriving DecidableEq, Repr

/-- Modelled from the spec: the width in bytes of a scalar type (section 4.C,
slot bytes K/8). -/
def scalar_type.width : scalar_type → Nat
  | .int8 => 1 | .int16 => 2 | .int32 => 4 | .int64 => 8
  | .uint8 => 1 | .uint16 => 2 | .uint32 => 4 | .uint64 => 8

/-- Modelled from the spec: whether a scalar type is signed. -/
def scalar_type.signed : scalar_type → Bool
  | .int8 => true | .int16 => true | .int32 => true | .int64 => true
  | _ => false

/-- Modelled from the spec: what a field or a vector element can be (section
3): a scalar, an enum (given by its integer base type), a string, or a table
(given by its index in the list of tables of the schema). -/
inductive element_type where
  | scalar (k : scalar_type)
  | enum (base : scalar_type)
  | string
  | table (t : Nat)
  deriving DecidableEq, Repr

/-- Modelled from the spec: the type of a field with its cardinality (single
or vector; no nested vectors). -/
inductive field_type where
  | single (e : element_type)
  | vector (e : element_type)
  deriving DecidableEq, Repr

/-- Modelled from the spec: a table definition is its ordered list of
fields; the position of a field is its index for the presence bitmap. -/
abbrev table_def := List field_type

/-- Modelled from the spec: a schema as far as the wire format needs it: the
ordered list of table definitions and the root table (the output). -/
structure schema where
  tables : List table_def
  root : Nat
  deriving DecidableEq, Repr

/-- Modelled from the spec: the slot bytes of a field (table of section
4.C). -/
def slot_size : field_type → Nat
  | .single (.scalar k) => k.width
  | .single (.enum base) => base.width
  | .single .string => 8
  | .single (.table _) => 8
  | .vector _ => 8

/-- Modelled from the spec: the presence bitmap of a table with `n` fields
has ceil(n/8) bytes. -/
def bitmap_size (n : Nat) : Nat := (n + 7) / 8

/-- Modelled from the spec: the offset of slot `f` inside a table encoding:
the bitmap, then the slots before it in schema order. -/
def slot_offset (T : table_def) (f : Nat) : Nat :=
  bitmap_size T.length + ((T.take f).map slot_size).sum

/-- Modelled from the spec: the total size of a table encoding. -/
def table_size (T : table_def) : Nat :=
  bitmap_size T.length + (T.map slot_size).sum

/-- Modelled from the spec: the `w` little-endian bytes of a natural number
(section 4.C: all integers little-endian). -/
def le_bytes : Nat → Nat → List Nat
  | 0, _ => []
  | w + 1, v => v % 256 :: le_bytes w (v / 256)

/-- Modelled from the spec: the number a list of little-endian bytes
stands for. -/
def le_value : List Nat → Nat
  | [] => 0
  | b :: bs => b + 256 * le_value bs

/-- Modelled from the spec: an unsigned 64-bit integer on the wire (offsets,
counts, lengths). -/
def u64 (v : Nat) : List Nat := le_bytes 8 v

/-- Modelled from the spec: the bytes of a scalar of type `k`, twos
complement for the signed types. -/
def encode_scalar (k : scalar_type) (v : Int) : List Nat :=
  le_bytes k.width (v % 2 ^ (8 * k.width)).toNat

/-- Modelled from the spec: the scalar of type `k` that bytes stand for. -/
def decode_scalar (k : scalar_type) (bytes : List Nat) : Int :=
  if k.signed ∧ 2 ^ (8 * k.width - 1) ≤ le_value bytes then
    (le_value bytes : Int) - 2 ^ (8 * k.width)
  else (le_value bytes : Int)

/-- Modelled from the spec: the values a scalar type can hold. -/
def in_range (k : scalar_type) (v : Int) : Prop :=
  if k.signed then -(2 ^ (8 * k.width - 1)) ≤ v ∧ v < 2 ^ (8 * k.width - 1)
  else 0 ≤ v ∧ v < 2 ^ (8 * k.width)

/-- Modelled from the spec: a String on the wire: `u64 length; then length
bytes`, no terminator. -/
def encode_string (s : List Nat) : List Nat := u64 s.length ++ s

/-- Modelled from the spec: the scalar type whose width an element of a
scalar or enum vector has; `none` for strings and tables. -/
def element_type.scalar_type : element_type → Option scalar_type
  | .scalar k => some k
  | .enum base => some base
  | _ => none

/-- Modelled from the spec: the bytes one element of a vector takes in the
vector: the element width for scalars and enums, 8 (an offset) for strings
and tables. -/
def element_width : element_type → Nat
  | .scalar k => k.width
  | .enum base => base.width
  | .string => 8
  | .table _ => 8

/-- Modelled from the spec: the header of a vector of `count` elements:
`u64 count; u64 length_bytes` for scalar, enum and string vectors, and
`u64 count` for table vectors. -/
def vector_header (e : element_type) (count : Nat) : List Nat :=
  match e with
  | .table _ => u64 count
  | _ => u64 count ++ u64 (count * element_width e)

/-- The `len` bytes of a buffer from offset `off` on (fewer where the buffer
ends before). -/
def read_bytes (buffer : List Nat) (off len : Nat) : List Nat :=
  (buffer.drop off).take len

/-- The buffer with `bytes` stored at offset `off`. -/
def write_bytes (buffer : List Nat) (off : Nat) (bytes : List Nat) : List Nat :=
  buffer.take off ++ bytes ++ buffer.drop (off + bytes.length)

/-- The unsigned 64-bit integer at offset `off`. -/
def read_u64 (buffer : List Nat) (off : Nat) : Nat := le_value (read_bytes buffer off 8)

/-- Modelled from the spec: bit `f` of the presence bitmap of the table at
`pos` (least significant bit first within a byte). -/
def test_presence (buffer : List Nat) (pos f : Nat) : Bool :=
  (buffer.getD (pos + f / 8) 0).testBit (f % 8)

/-- Modelled from the spec: the buffer with presence bit `f` of the table at
`pos` set. -/
def set_presence (buffer : List Nat) (pos f : Nat) : List Nat :=
  write_bytes buffer (pos + f / 8) [buffer.getD (pos + f / 8) 0 ||| 2 ^ (f % 8)]

/-! ### The encoder -/

/-- Modelled from the spec: what the end of a scope binds its offset to: the
root table is bound to nothing; a scope started on its own hands its offset
to the caller only; a scope started for field `f` of the enclosing table is
bound to that slot; a table built in place as an element of the enclosing
table vector is bound to that vector. -/
inductive binding where
  | root
  | standalone
  | field (f : Nat)
  | element
  deriving DecidableEq, Repr

/-- Modelled from the spec: an open scope of the encoder (section 4.D,
State): a table scope records the table and the buffer position of its
header; a vector scope records the element type, the buffer position at its
start, and the elements gathered so far (each as its bytes in the vector). -/
inductive scope where
  | table (t : Nat) (position : Nat) (bound : binding)
  | vector (e : element_type) (position : Nat) (elements : List (List Nat)) (bound : binding)
  deriving DecidableEq, Repr

/-- Modelled from the spec: the failures of the encoder (section 4.D,
Failures).  Allocation never fails in this model, so `OutOfMemory` does not
occur. -/
inductive failure where
  | OutOfMemory
  | EncoderMisuse
  | VectorOverflow
  | OffsetOverflow
  deriving DecidableEq, Repr

/-- Modelled from the spec: the encoder: the schema of the generated
wrappers, the output byte region, the stack of open scopes (innermost
first), and the first failure recorded. -/
structure encoder where
  schema : schema
  buffer : List Nat
  stack : List scope
  error : Option failure
  deriving DecidableEq, Repr

/-- Modelled from the spec: `linearbuffers_encoder_create`: an idle encoder
with an empty output region. -/
def encoder_create (s : schema) : encoder :=
  { schema := s, buffer := [], stack := [], error := none }

/-- Modelled from the spec: the return code of the call that led to `e`:
0, or non-zero once a failure is recorded. -/
def encoder.rc (e : encoder) : Int := if e.error = none then 0 else -1

/-- Modelled from the spec: recording a failure; the output region and the
stack are left as they are. -/
def encoder.fail (e : encoder) (f : failure) : encoder := { e with error := some f }

/-- Modelled from the spec: appending bytes to the output region;
`OffsetOverflow` when the region would grow past the offsets an unsigned
64-bit integer can hold. -/
def encoder.append (e : encoder) (bytes : List Nat) : encoder :=
  if 2 ^ 64 ≤ e.buffer.length + bytes.length then e.fail .OffsetOverflow
  else { e with buffer := e.buffer ++ bytes }

/-- The definition of table `t` of a schema (empty when there is none). -/
def schema.table (s : schema) (t : Nat) : table_def := s.tables.getD t []

/-- Modelled from the spec: storing `bytes` in slot `f` of the table `t` at
`pos` and setting presence bit `f`. -/
def encoder.store_slot (e : encoder) (t pos f : Nat) (bytes : List Nat) : encoder :=
  let written := write_bytes e.buffer (pos + slot_offset (e.schema.table t) f) bytes
  { e with buffer := set_presence written pos f }

/-- Modelled from the spec: whether a scope with the given binding may be
started for a table `t` on the current stack: the root table from the idle
state with an empty region; a table on its own inside a table or inside a
vector of such tables; a table for field `f` of the enclosing table when
that field is a single table `t`; a table in place inside a vector of
tables `t`. -/
def table_start_legal (e : encoder) (t : Nat) : binding → Bool
  | .root => e.stack = [] ∧ e.buffer = [] ∧ t = e.schema.root
  | .standalone =>
    match e.stack with
    | .table _ _ _ :: _ => true
    | .vector (.table t1) _ _ _ :: _ => t1 = t
    | _ => false
  | .field f =>
    match e.stack with
    | .table tp _ _ :: _ => (e.schema.table tp)[f]? = some (.single (.table t))
    | _ => false
  | .element =>
    match e.stack with
    | .vector (.table t1) _ _ _ :: _ => t1 = t
    | _ => false

/-- Modelled from the spec: `T_start`: pushes an open table scope and
allocates bitmap and slots, zero-filled, at the current append position. -/
def table_start (t : Nat) (b : binding) (e : encoder) : encoder :=
  if e.error ≠ none then e
  else if ¬ (t < e.schema.tables.length ∧ table_start_legal e t b) then e.fail .EncoderMisuse
  else
    let e1 := e.append (List.replicate (table_size (e.schema.table t)) 0)
    if e1.error ≠ none then e1
    else { e1 with stack := .table t e.buffer.length b :: e.stack }

/-- Modelled from the spec: `T_f_set` for a scalar or enum field: writes the
value into the slot and sets the presence bit. -/
def field_set (f : Nat) (v : Int) (e : encoder) : encoder :=
  if e.error ≠ none then e
  else
    match e.stack with
    | .table t pos _ :: _ =>
      match (e.schema.table t)[f]? with
      | some (.single (.scalar k)) => e.store_slot t pos f (encode_scalar k v)
      | some (.single (.enum base)) => e.store_slot t pos f (encode_scalar base v)
      | _ => e.fail .EncoderMisuse
    | _ => e.fail .EncoderMisuse

/-- Modelled from the spec: `T_f_create` for a string field: writes a String
at the current append position, places its offset in the slot and sets the
presence bit. -/
def field_create (f : Nat) (s : List Nat) (e : encoder) : encoder :=
  if e.error ≠ none then e
  else
    match e.stack with
    | .table t pos _ :: _ =>
      match (e.schema.table t)[f]? with
      | some (.single .string) =>
        let e1 := e.append (encode_string s)
        if e1.error ≠ none then e1
        else e1.store_slot t pos f (u64 e.buffer.length)
      | _ => e.fail .EncoderMisuse
    | _ => e.fail .EncoderMisuse

/-- Modelled from the spec: `T_f_set` with an offset, for a string, table or
vector field: places an offset returned by a matching `end` in the slot and
sets the presence bit. -/
def field_set_offset (f : Nat) (off : Nat) (e : encoder) : encoder :=
  if e.error ≠ none then e
  else
    match e.stack with
    | .table t pos _ :: _ =>
      match (e.schema.table t)[f]? with
      | some (.single .string) => e.store_slot t pos f (u64 off)
      | some (.single (.table _)) => e.store_slot t pos f (u64 off)
      | some (.vector _) => e.store_slot t pos f (u64 off)
      | _ => e.fail .EncoderMisuse
    | _ => e.fail .EncoderMisuse

/-- Modelled from the spec: binding the offset of a scope that ends to what
started it: nothing for the root and for a scope on its own; the slot of
field `f` of the enclosing table; one more element of the enclosing
vector. -/
def encoder.bind (e : encoder) (off : Nat) : binding → encoder
  | .root => e
  | .standalone => e
  | .field f =>
    match e.stack with
    | .table t pos _ :: _ => e.store_slot t pos f (u64 off)
    | _ => e.fail .EncoderMisuse
  | .element =>
    match e.stack with
    | .vector el pos elements b :: rest =>
      { e with stack := .vector el pos (elements ++ [u64 off]) b :: rest }
    | _ => e.fail .EncoderMisuse

/-- Modelled from the spec: `T_end`: pops the open table scope; the table
sits in place; its offset is bound to what started it. -/
def table_end (e : encoder) : encoder :=
  if e.error ≠ none then e
  else
    match e.stack with
    | .table _ pos b :: rest => encoder.bind { e with stack := rest } pos b
    | _ => e.fail .EncoderMisuse

/-- Modelled from the spec: the offset `T_end` returns: the header offset of
the open table scope. -/
def table_end_offset (e : encoder) : Nat :=
  match e.stack with
  | .table _ pos _ :: _ => pos
  | _ => 0

/-- Modelled from the spec: `T_cancel`: pops the open table scope and rolls
the output region back to the position recorded at `T_start`. -/
def table_cancel (e : encoder) : encoder :=
  if e.error ≠ none then e
  else
    match e.stack with
    | .table _ pos _ :: rest => { e with stack := rest, buffer := e.buffer.take pos }
    | _ => e.fail .EncoderMisuse

/-- Modelled from the spec: `V_start` for the vector field `f` of the open
table: pushes a vector scope with an empty element buffer. -/
def field_vector_start (f : Nat) (e : encoder) : encoder :=
  if e.error ≠ none then e
  else
    match e.stack with
    | .table t _ _ :: _ =>
      match (e.schema.table t)[f]? with
      | some (.vector el) =>
        { e with stack := .vector el e.buffer.length [] (.field f) :: e.stack }
      | _ => e.fail .EncoderMisuse
    | _ => e.fail .EncoderMisuse

/-- Modelled from the spec: `V_start` for a vector on its own, whose offset
`V_end` hands to the caller: pushes a vector scope inside the open table. -/
def vector_start (el : element_type) (e : encoder) : encoder :=
  if e.error ≠ none then e
  else
    match e.stack with
    | .table _ _ _ :: _ =>
      { e with stack := .vector el e.buffer.length [] .standalone :: e.stack }
    | _ => e.fail .EncoderMisuse

/-- Modelled from the spec: `V_push` by value, for a vector of scalars or
enums: appends one element. -/
def vector_push (v : Int) (e : encoder) : encoder :=
  if e.error ≠ none then e
  else
    match e.stack with
    | .vector el pos elements b :: rest =>
      match el.scalar_type with
      | some k => { e with stack := .vector el pos (elements ++ [encode_scalar k v]) b :: rest }
      | none => e.fail .EncoderMisuse
    | _ => e.fail .EncoderMisuse

/-- Modelled from the spec: `V_push` of a string given by its bytes, for a
vector of strings: writes the String at the current append position and
appends its offset as one element. -/
def vector_push_string (s : List Nat) (e : encoder) : encoder :=
  if e.error ≠ none then e
  else
    match e.stack with
    | .vector .string pos elements b :: rest =>
      let e1 := e.append (encode_string s)
      if e1.error ≠ none then e1
      else { e1 with stack := .vector .string pos (elements ++ [u64 e.buffer.length]) b :: rest }
    | _ => e.fail .EncoderMisuse

/-- Modelled from the spec: `V_push` by offset, for a vector of strings or
tables: appends one element. -/
def vector_push_offset (off : Nat) (e : encoder) : encoder :=
  if e.error ≠ none then e
  else
    match e.stack with
    | .vector .string pos elements b :: rest =>
      { e with stack := .vector .string pos (elements ++ [u64 off]) b :: rest }
    | .vector (.table t) pos elements b :: rest =>
      { e with stack := .vector (.table t) pos (elements ++ [u64 off]) b :: rest }
    | _ => e.fail .EncoderMisuse

/-- Modelled from the spec: `V_end`: writes the vector, header (count,
length) and elements, at the current append position, pops the scope and
binds the start offset of the vector to what started it; `VectorOverflow` when
the byte length does not fit an unsigned 64-bit integer.  The spec lets
`V_start` reserve the header; the strings and tables a vector of offsets
refers to are appended while the vector is open, so the vector itself is
written here, where its scope closes (for a vector of scalars nothing is
appended in between and the bytes are the same either way). -/
def vector_end (e : encoder) : encoder :=
  if e.error ≠ none then e
  else
    match e.stack with
    | .vector el _ elements b :: rest =>
      if 2 ^ 64 ≤ elements.length * element_width el then e.fail .VectorOverflow
      else
        let e1 := e.append (vector_header el elements.length ++ elements.flatten)
        if e1.error ≠ none then e1
        else encoder.bind { e1 with stack := rest } e.buffer.length b
    | _ => e.fail .EncoderMisuse

/-- Modelled from the spec: the offset `V_end` returns: the start offset of
the vector it writes. -/
def vector_end_offset (e : encoder) : Nat :=
  match e.stack with
  | .vector _ _ _ _ :: _ => e.buffer.length
  | _ => 0

/-- Modelled from the spec: `V_cancel`: pops the vector scope and rolls the
output region back to the position recorded at `V_start`. -/
def vector_cancel (e : encoder) : encoder :=
  if e.error ≠ none then e
  else
    match e.stack with
    | .vector _ pos _ _ :: rest => { e with stack := rest, buffer := e.buffer.take pos }
    | _ => e.fail .EncoderMisuse

/-- Modelled from the spec: a run of `V_push` calls by value. -/
def vector_push_all (vs : List Int) (e : encoder) : encoder :=
  vs.foldl (fun e v => vector_push v e) e

/-- Modelled from the spec: a run of `V_push` calls with strings. -/
def vector_push_strings (ss : List (List Nat)) (e : encoder) : encoder :=
  ss.foldl (fun e s => vector_push_string s e) e

/-- Modelled from the spec: the bulk form `V_create` for the scalar or enum
vector field `f`: the whole vector at once, as `V_start; push x n; V_end`. -/
def field_vector_create (f : Nat) (vs : List Int) (e : encoder) : encoder :=
  vector_end (vector_push_all vs (field_vector_start f e))

/-- Modelled from the spec: the bulk form for the string vector field `f`. -/
def field_strings_create (f : Nat) (ss : List (List Nat)) (e : encoder) : encoder :=
  vector_end (vector_push_strings ss (field_vector_start f e))

/-- Modelled from the spec: `output_start`: the root table scope from the
idle state. -/
def output_start (e : encoder) : encoder := table_start e.schema.root .root e

/-- Modelled from the spec: `output_end` / `output_finish`: the end of the
root table scope, back to the idle state. -/
def output_finish (e : encoder) : encoder :=
  if e.error ≠ none then e
  else
    match e.stack with
    | [.table _ _ .root] => table_end e
    | _ => e.fail .EncoderMisuse

/-- Modelled from the spec: `linearbuffers_encoder_linearized`: the finished
buffer, once the stack has returned to idle without a failure; NULL
(`none`) otherwise. -/
def linearized (e : encoder) : Option (List Nat) :=
  if e.error = none ∧ e.stack = [] then some e.buffer else none

/-! ### The decoder -/

/-- Modelled from the spec: a decoded view: the buffer, and the table and
the offset the view is anchored at. -/
structure view where
  schema : schema
  buffer : List Nat
  t : Nat
  position : Nat
  deriving DecidableEq, Repr

/-- Modelled from the spec: `T_decode` for the root: the view anchored at
offset 0, when the buffer is long enough for the root table. -/
def output_decode (s : schema) (buffer : List Nat) : Option view :=
  if table_size (s.table s.root) ≤ buffer.length then
    some { schema := s, buffer := buffer, t := s.root, position := 0 }
  else none

/-- The definition of the table a view is anchored at. -/
def view.table (v : view) : table_def := v.schema.table v.t

/-- Modelled from the spec: `T_f_present`: bit `f` of the presence bitmap. -/
def view.present (v : view) (f : Nat) : Bool := test_presence v.buffer v.position f

/-- The offset of slot `f` of the table of a view. -/
def view.slot (v : view) (f : Nat) : Nat := v.position + slot_offset v.table f

/-- Modelled from the spec: `T_f_get` for a scalar or enum field of type
`k`: the slot value, or the default 0 when the field is absent. -/
def view.get_scalar (v : view) (f : Nat) (k : scalar_type) : Int :=
  if v.present f then decode_scalar k (read_bytes v.buffer (v.slot f) k.width) else 0

/-- Modelled from the spec: the offset in slot `f` of a string, table or
vector field; the sentinel 0 when the field is absent. -/
def view.get_offset (v : view) (f : Nat) : Nat :=
  if v.present f then read_u64 v.buffer (v.slot f) else 0

/-- Modelled from the spec: the bytes of the String at offset `off`. -/
def string_at (buffer : List Nat) (off : Nat) : List Nat :=
  read_bytes buffer (off + 8) (read_u64 buffer off)

/-- Modelled from the spec: `T_f_get` for a string field: the referenced
String bytes, empty when the field is absent. -/
def view.get_string (v : view) (f : Nat) : List Nat :=
  if v.present f then string_at v.buffer (v.get_offset f) else []

/-- Modelled from the spec: `T_f_get_count` of a vector field: the count in
the vector header, 0 when the field is absent. -/
def view.get_count (v : view) (f : Nat) : Nat :=
  if v.present f then read_u64 v.buffer (v.get_offset f) else 0

/-- Modelled from the spec: `T_f_get_length` of a scalar, enum or string
vector field: the byte length in the vector header. -/
def view.get_length (v : view) (f : Nat) : Nat :=
  if v.present f then read_u64 v.buffer (v.get_offset f + 8) else 0

/-- Modelled from the spec: `T_f_get_values` of a scalar or enum vector
field: the element bytes in the buffer, as many as the length in the header. -/
def view.get_values (v : view) (f : Nat) : List Nat :=
  if v.present f then read_bytes v.buffer (v.get_offset f + 16) (v.get_length f) else []

/-- Modelled from the spec: `T_f_get_at (i)` of a vector field of scalars or
enums of type `k`. -/
def view.get_at (v : view) (f : Nat) (k : scalar_type) (i : Nat) : Int :=
  decode_scalar k (read_bytes v.buffer (v.get_offset f + 16 + i * k.width) k.width)

/-- Modelled from the spec: `T_f_get_at (i)` of a string vector field: the
String the `i`-th offset points to. -/
def view.get_string_at (v : view) (f : Nat) (i : Nat) : List Nat :=
  string_at v.buffer (read_u64 v.buffer (v.get_offset f + 16 + i * 8))

/-- Modelled from the spec: `T_f_get_at (i)` of a vector field of tables
`t`: the view of the table the `i`-th offset points to. -/
def view.get_table_at (v : view) (f : Nat) (t : Nat) (i : Nat) : view :=
  { v with t := t, position := read_u64 v.buffer (v.get_offset f + 8 + i * 8) }

/-! ### Encoding sessions

The call sequences of the tests, over any schema and any values. -/

/-- A value given to a field of an element table: a scalar or enum value, or
the bytes of a string. -/
inductive element_value where
  | scalar (x : Int)
  | string (s : List Nat)
  deriving DecidableEq, Repr

/-- Modelled from the spec: one field call inside an open table: `T_f_set`
for a scalar or enum value, `T_f_create` for a string. -/
def run_write (w : Nat × element_value) (e : encoder) : encoder :=
  match w.2 with
  | .scalar x => field_set w.1 x e
  | .string s => field_create w.1 s e

/-- Modelled from the spec: a run of field calls inside an open table. -/
def run_writes (ws : List (Nat × element_value)) (e : encoder) : encoder :=
  ws.foldl (fun e w => run_write w e) e

/-- One element of a table vector as the caller builds it: the field calls
in call order, and whether the element is ended or cancelled. -/
structure element_build where
  writes : List (Nat × element_value)
  ended : Bool
  deriving DecidableEq, Repr

/-- Modelled from the spec: building one element of a vector of tables `t`.
In place (`test/10.c`): `T_start` inside the vector, the field calls, then
`T_end`, which binds the element to the vector, or `T_cancel`.  On its own
(`test/09.c`): `T_start`, the field calls, then `V_push (T_end)`, or
`T_cancel`. -/
def run_element (t : Nat) (in_place : Bool) (el : element_build) (e : encoder) : encoder :=
  let e1 := table_start t (if in_place then .element else .standalone) e
  let e2 := run_writes el.writes e1
  if el.ended then
    if in_place then table_end e2
    else vector_push_offset (table_end_offset e2) (table_end e2)
  else table_cancel e2

/-- What a caller puts into one vector field of the output: scalar or enum
values, strings, or elements of a vector of tables `t`, built in place or on
their own. -/
inductive content where
  | scalars (vs : List Int)
  | strings (ss : List (List Nat))
  | tables (t : Nat) (in_place : Bool) (elements : List element_build)
  deriving DecidableEq, Repr

/-- One start ... end or start ... cancel block on a vector field of the
output. -/
structure block where
  field : Nat
  content : content
  ended : Bool
  deriving DecidableEq, Repr

/-- Modelled from the spec: the pushes of a block. -/
def run_content : content → encoder → encoder
  | .scalars vs, e => vector_push_all vs e
  | .strings ss, e => vector_push_strings ss e
  | .tables t in_place elements, e => elements.foldl (fun e el => run_element t in_place el e) e

/-- Modelled from the spec: one block on a vector field of the output:
`V_start`, the pushes, then `V_end` or `V_cancel`.  A vector of tables built
on its own (`test/09.c`) is started on its own and the offset `V_end`
returns is given to the field with `T_f_set`. -/
def run_block (b : block) (e : encoder) : encoder :=
  match b.content with
  | .tables t false elements =>
    let e2 := run_content (.tables t false elements) (vector_start (.table t) e)
    if b.ended then field_set_offset b.field (vector_end_offset e2) (vector_end e2)
    else vector_cancel e2
  | c =>
    let e2 := run_content c (field_vector_start b.field e)
    if b.ended then vector_end e2 else vector_cancel e2

/-- Modelled from the spec: an encoding session: `output_start`, the blocks
in order, `output_finish` (or `output_end`). -/
def session (s : schema) (blocks : List block) : encoder :=
  output_finish (blocks.foldl (fun e b => run_block b e) (output_start (encoder_create s)))

instance (k : scalar_type) (v : Int) : Decidable (in_range k v) :=
  inferInstanceAs (Decidable (if k.signed then
    -(2 ^ (8 * k.width - 1)) ≤ v ∧ v < 2 ^ (8 * k.width - 1) else 0 ≤ v ∧ v < 2 ^ (8 * k.width)))

/-- Whether a field call fits the table definition `T`: a scalar value in
the range of the scalar or enum field, or a string for a string field. -/
def write_valid (T : table_def) (w : Nat × element_value) : Bool :=
  match T[w.1]?, w.2 with
  | some (.single (.scalar k)), .scalar x => decide (in_range k x)
  | some (.single (.enum k)), .scalar x => decide (in_range k x)
  | some (.single .string), .string _ => true
  | _, _ => false

/-- Whether a block fits the schema: the field of the output is a vector of
what the block pushes, and the values are in the range of the element
type. -/
def block_valid (s : schema) (b : block) : Bool :=
  match (s.table s.root)[b.field]?, b.content with
  | some (.vector (.scalar k)), .scalars vs => vs.all (fun v => decide (in_range k v))
  | some (.vector (.enum k)), .scalars vs => vs.all (fun v => decide (in_range k v))
  | some (.vector .string), .strings _ => true
  | some (.vector (.table t1)), .tables t _ elements =>
    decide (t1 = t) && decide (t < s.tables.length) &&
      elements.all (fun el => el.writes.all (write_valid (s.table t)))
  | _, _ => false

/-- Whether the content `c` can be pushed into a vector whose elements are
`el`. -/
def content_fits (s : schema) (el : element_type) : content → Prop
  | .scalars _ => ∃ k, el.scalar_type = some k
  | .strings _ => el = .string
  | .tables t _ elements => el = .table t ∧ t < s.tables.length ∧
      ∀ x ∈ elements, ∀ w ∈ x.writes, write_valid (s.table t) w = true

/-- The value a run of field calls leaves in field `g`: that of the last
call on `g`. -/
def record_of (ws : List (Nat × element_value)) (g : Nat) : Option element_value :=
  ws.foldl (fun r w => if w.1 = g then some w.2 else r) none

/-- The content a run of blocks leaves in field `f` of the output: that of
the last block on `f` that was ended. -/
def built (blocks : List block) (f : Nat) : Option content :=
  blocks.foldl (fun r b => if b.ended = true ∧ b.field = f then some b.content else r) none

/-- The elements of a table vector that were ended, in order. -/
def ended_elements (elements : List element_build) : List element_build :=
  elements.filter (fun el => el.ended)

/-- The bytes a run of field calls appends to the output region: a String
for every string given. -/
def writes_bytes : List (Nat × element_value) → Nat
  | [] => 0
  | (_, .scalar _) :: ws => writes_bytes ws
  | (_, .string x) :: ws => 8 + x.length + writes_bytes ws

/-- The bytes the pushes of a block append to the output region at most:
nothing for scalars, the Strings for strings, and for tables every element
(also a cancelled one, until it is cancelled) with its strings. -/
def content_bytes (s : schema) : content → Nat
  | .scalars _ => 0
  | .strings ss => (ss.map (fun x => 8 + x.length)).sum
  | .tables t _ elements =>
    (elements.map (fun el => table_size (s.table t) + writes_bytes el.writes)).sum

/-- The bytes of the vector that the end of a block writes: the header and
the elements. -/
def vector_bytes (el : element_type) : content → Nat
  | .scalars vs => 16 + vs.length * element_width el
  | .strings ss => 16 + ss.length * 8
  | .tables _ _ elements => 8 + (ended_elements elements).length * 8

/-- The bytes a block appends to the output region at most. -/
def block_bytes (s : schema) (b : block) : Nat :=
  content_bytes s b.content +
    match (s.table s.root)[b.field]? with
    | some (.vector el) => vector_bytes el b.content
    | _ => 0

/-- The bytes an encoding session appends to the output region at most: the
output table and every block. -/
def session_bytes (s : schema) (blocks : List block) : Nat :=
  table_size (s.table s.root) + (blocks.map (block_bytes s)).sum

/-! ### What a buffer holds

Predicates on buffers used to follow an encoding session: which bytes are
stored where, inside a region `[lo, hi)` of the buffer. -/

/-- The buffer after `bytes` are stored in slot `f` of the table `T` at `pos`
and presence bit `f` is set. -/
def store (buffer : List Nat) (T : table_def) (pos f : Nat) (bytes : List Nat) : List Nat :=
  set_presence (write_bytes buffer (pos + slot_offset T f) bytes) pos f

/-- The bytes `x` are stored in the buffer from offset `off` on. -/
def stored (buffer : List Nat) (off : Nat) (x : List Nat) : Prop :=
  ∀ i, i < x.length → buffer[off + i]? = x[i]?

/-- Two buffers hold the same bytes in the region `[lo, hi)`. -/
def agree (lo hi : Nat) (b1 b2 : List Nat) : Prop :=
  ∀ j, lo ≤ j → j < hi → b2[j]? = b1[j]?

/-- The bytes `x` are stored at `off`, inside the region `[lo, hi)`. -/
def stored_in (lo hi : Nat) (buffer : List Nat) (off : Nat) (x : List Nat) : Prop :=
  lo ≤ off ∧ off + x.length ≤ hi ∧ stored buffer off x

/-- The String `s` sits at `off`, inside the region. -/
def is_string_in (lo hi : Nat) (buffer : List Nat) (off : Nat) (s : List Nat) : Prop :=
  stored_in lo hi buffer off (encode_string s)

/-- Field `g` of the table `T` at `pos` holds the value `x` (or nothing),
with the string it refers to inside the region. -/
def slot_holds (lo hi : Nat) (buffer : List Nat) (T : table_def) (pos g : Nat) :
    Option element_value → Prop
  | none => test_presence buffer pos g = false
  | some (.scalar x) => test_presence buffer pos g = true ∧
      ∃ k, (T[g]? = some (.single (.scalar k)) ∨ T[g]? = some (.single (.enum k))) ∧
        stored buffer (pos + slot_offset T g) (encode_scalar k x)
  | some (.string x) => test_presence buffer pos g = true ∧ T[g]? = some (.single .string) ∧
      ∃ off, stored buffer (pos + slot_offset T g) (u64 off) ∧ is_string_in lo hi buffer off x

/-- The table `T` sits at `pos` inside the region `[lo, hi)`, its fields
hold the record `r`, and the strings they refer to sit behind the table. -/
def is_table_in (lo hi : Nat) (buffer : List Nat) (T : table_def) (pos : Nat)
    (r : Nat → Option element_value) : Prop :=
  lo ≤ pos ∧ pos + table_size T ≤ hi ∧
    ∀ g, g < T.length → slot_holds (pos + table_size T) hi buffer T pos g (r g)

/-- The vector with the content `c` sits at `off` inside the region,
together with the strings and tables it refers to. -/
def is_vector_in (s : schema) (lo hi : Nat) (buffer : List Nat) (el : element_type) (off : Nat) :
    content → Prop
  | .scalars vs => ∃ k, el.scalar_type = some k ∧
      stored_in lo hi buffer off
        (vector_header el vs.length ++ (vs.map (encode_scalar k)).flatten)
  | .strings ss => el = .string ∧ ∃ offs : List Nat,
      List.Forall₂ (fun o x => is_string_in lo hi buffer o x) offs ss ∧
      stored_in lo hi buffer off (vector_header el ss.length ++ (offs.map u64).flatten)
  | .tables t _ elements => el = .table t ∧ ∃ offs : List Nat,
      List.Forall₂ (fun o (x : element_build) =>
        is_table_in lo hi buffer (s.table t) o (record_of x.writes)) offs (ended_elements elements) ∧
      stored_in lo hi buffer off
        (vector_header el (ended_elements elements).length ++ (offs.map u64).flatten)

/-- Field `f` of the output table holds the vector with content `c` (or
nothing); the vector sits behind the output table. -/
def output_holds (s : schema) (buffer : List Nat) (f : Nat) : Option content → Prop
  | none => test_presence buffer 0 f = false
  | some c => test_presence buffer 0 f = true ∧
      ∃ el off, (s.table s.root)[f]? = some (.vector el) ∧
        stored buffer (slot_offset (s.table s.root) f) (u64 off) ∧
        is_vector_in s (table_size (s.table s.root)) buffer.length buffer el off c

/-! ### What the decoder must return -/

/-- The accessors of the decoder on a table view return for field `g` the
value `x` the field was given (or report the field absent). -/
def field_decodes (v : view) (g : Nat) : Option element_value → Prop
  | none => v.present g = false
  | some (.scalar x) => v.present g = true ∧
      ∀ k, (v.table[g]? = some (.single (.scalar k)) ∨ v.table[g]? = some (.single (.enum k))) →
        v.get_scalar g k = x
  | some (.string x) => v.present g = true ∧ v.get_string g = x

/-- The accessors of the decoder on the output view return for the vector
field `f` the content `c` that was pushed: the count, for scalars and enums
the byte length, the element bytes and every element, for strings every
string, for tables what every ended element was given. -/
def vector_decodes (v : view) (f : Nat) : content → Prop
  | .scalars vs => v.get_count f = vs.length ∧
      ∀ el k, v.table[f]? = some (.vector el) → el.scalar_type = some k →
        v.get_length f = vs.length * k.width ∧
        v.get_values f = (vs.map (encode_scalar k)).flatten ∧
        ∀ i (h : i < vs.length), v.get_at f k i = vs.get ⟨i, h⟩
  | .strings ss => v.get_count f = ss.length ∧ v.get_length f = ss.length * 8 ∧
      ∀ i (h : i < ss.length), v.get_string_at f i = ss.get ⟨i, h⟩
  | .tables t _ elements => v.get_count f = (ended_elements elements).length ∧
      ∀ i (h : i < (ended_elements elements).length) g, g < (v.schema.table t).length →
        field_decodes (v.get_table_at f t i) g
          (record_of ((ended_elements elements).get ⟨i, h⟩).writes g)

/-! ### A sample schema and sample sessions

The schema file of the tests is not among the sources.  The sample schema
has the fields the tests name, in the order the tests use them; the base
type of the enum is taken to be `uint8`. -/

/-- Modelled from the spec: the schema of the tests, which is not among the
sources: the output table (eleven vector fields) and the table `a_table`
(ten fields). -/
def sample_schema : schema :=
  { root := 0,
    tables := [
      [.vector (.scalar .int8), .vector (.scalar .int16), .vector (.scalar .int32),
       .vector (.scalar .int64), .vector (.scalar .uint8), .vector (.scalar .uint16),
       .vector (.scalar .uint32), .vector (.scalar .uint64), .vector .string,
       .vector (.enum .uint8), .vector (.table 1)],
      [.single (.scalar .int8), .single (.scalar .int16), .single (.scalar .int32),
       .single (.scalar .int64), .single (.scalar .uint8), .single (.scalar .uint16),
       .single (.scalar .uint32), .single (.scalar .uint64), .single .string,
       .single (.enum .uint8)]] }

/-- The field calls of the tests on the `i`-th element table: one set per
scalar and enum field, and the string. -/
def sample_writes (i : Nat) : List (Nat × element_value) :=
  [(0, .scalar (i : Int)), (1, .scalar (-(i : Int))), (2, .scalar (i : Int)),
   (3, .scalar (-(i : Int))), (4, .scalar (i : Int)), (5, .scalar (i : Int)),
   (6, .scalar (i : Int)), (7, .scalar (i : Int)), (8, .string [115, 48 + i]),
   (9, .scalar (i : Int))]

/-- The session of `test/10.c` on four values per field: every other vector
is cancelled, and every other element of the table vector is cancelled. -/
def sample_blocks_10 : List block :=
  [⟨0, .scalars [0, -1, 2, -3], false⟩, ⟨1, .scalars [0, -1, 2, -3], true⟩,
   ⟨2, .scalars [0, 1, 2, 3], false⟩, ⟨3, .scalars [0, -1, 2, -3], true⟩,
   ⟨4, .scalars [0, 1, 2, 3], false⟩, ⟨5, .scalars [0, 1, 2, 3], true⟩,
   ⟨6, .scalars [0, 1, 2, 3], false⟩, ⟨7, .scalars [0, 1, 2, 3], true⟩,
   ⟨8, .strings [[48], [49], [50], [51]], false⟩, ⟨9, .scalars [0, 1, 2, 3], true⟩,
   ⟨10, .tables 1 true
     [⟨sample_writes 0, true⟩, ⟨sample_writes 1, false⟩, ⟨sample_writes 2, true⟩,
      ⟨sample_writes 3, false⟩], true⟩]

/-- The table part of the session of `test/09.c` on four tables: built on
their own, pushed by offset, the vector given to the field. -/
def sample_tables_09 : List (List (Nat × element_value)) :=
  [sample_writes 0, sample_writes 1, sample_writes 2, sample_writes 3]

/-- The session of `test/09.c` on four values per field. -/
def sample_blocks_09 : List block :=
  [⟨0, .scalars [0, -1, 2, -3], true⟩, ⟨1, .scalars [0, -1, 2, -3], true⟩,
   ⟨2, .scalars [0, 1, 2, 3], true⟩, ⟨3, .scalars [0, -1, 2, -3], true⟩,
   ⟨4, .scalars [0, 1, 2, 3], true⟩, ⟨5, .scalars [0, 1, 2, 3], true⟩,
   ⟨6, .scalars [0, 1, 2, 3], true⟩, ⟨7, .scalars [0, 1, 2, 3], true⟩,
   ⟨8, .strings [[48], [49], [50], [51]], true⟩, ⟨9, .scalars [0, 1, 2, 3], true⟩,
   ⟨10, .tables 1 false (sample_tables_09.map (fun ws => ⟨ws, true⟩)), true⟩]

end Runtime

/-! ## Lemmas on the library routines -/

theorem strcmp_chars_eq_zero (a b : List Char) : strcmp_chars a b = 0 ↔ a = b := by
  induction a generalizing b with
  | nil => cases b <;> simp [strcmp_chars]
  | cons x xs ih =>
    cases b with
    | nil => simp [strcmp_chars]
    | cons y ys =>
      simp only [strcmp_chars]
      by_cases hxy : x = y
      · subst hxy; simp [ih]
      · simp only [hxy, if_false, List.cons.injEq, false_and, iff_false]
        split <;> decide

theorem strcmp_eq_zero (a b : String) : strcmp a b = 0 ↔ a = b := by
  unfold strcmp
  rw [strcmp_chars_eq_zero]
  constructor
  · intro h; exact String.ext h
  · intro h; rw [h]

theorem strcasecmp_eq_zero (a b : String) :
    strcasecmp a b = 0 ↔ a.data.map tolower = b.data.map tolower := by
  unfold strcasecmp
  exact strcmp_chars_eq_zero _ _

theorem find_generator_some (language : String) (g : generator) :
    find_generator generators language = some g ↔ g ∈ generators ∧ g.language = language := by
  simp only [generators, find_generator, strcmp_eq_zero]
  constructor
  · intro h
    split_ifs at h with h1 h2
    · cases h; simp [h1]
    · cases h; simp [h2]
  · rintro ⟨hg, hl⟩
    simp only [List.mem_cons, List.mem_singleton, List.not_mem_nil, or_false] at hg
    rcases hg with rfl | rfl
    · simp [← hl]
    · subst hl; simp

theorem find_generator_none (language : String) :
    find_generator generators language = none ↔ language ≠ "c" ∧ language ≠ "js" := by
  simp only [generators, find_generator, strcmp_eq_zero]
  constructor
  · intro h
    split_ifs at h with h1 h2
    exact ⟨fun e => h1 e.symm, fun e => h2 e.symm⟩
  · rintro ⟨h1, h2⟩
    simp [Ne.symm h1, Ne.symm h2]

/-! ## Lemmas on traces -/

section
variable {S : Type}

@[simp] theorem emitter_calls_append (a b : List (Event S)) :
    emitter_calls (a ++ b) = emitter_calls a ++ emitter_calls b := by
  simp [emitter_calls, List.filterMap_append]

@[simp] theorem emitter_calls_nil : emitter_calls ([] : List (Event S)) = [] := rfl

@[simp] theorem emitter_calls_cons (e : Event S) (t : List (Event S)) :
    emitter_calls (e :: t) = (e.as_call).toList ++ emitter_calls t := by
  cases h : e.as_call <;> simp [emitter_calls, List.filterMap_cons, h]

@[simp] theorem emitter_calls_bail (a : Option FILE) (b : Option String) (c : Option S) :
    emitter_calls (bail a b c) = [] := by
  unfold bail
  cases a <;> cases b <;> cases c <;> simp [Event.as_call] <;> split <;> simp [Event.as_call]

end

/-! ## The emission part and its steps -/

section
variable {S : Type}

theorem run_steps_append (env : Env S) (output : String) (schema : S) (fp : FILE)
    (p q : List Step) (t : List (Event S)) :
    run_steps env output schema fp (p ++ q) t =
      if ∀ st ∈ p, env.call st.f schema fp st.x = 0 then
        run_steps env output schema fp q (t ++ p.map (Step.event env schema fp))
      else run_steps env output schema fp p t := by
  induction p generalizing t with
  | nil => simp
  | cons st rest ih =>
    rw [List.cons_append]
    simp only [run_steps, List.mem_cons, forall_eq_or_imp, List.map_cons]
    by_cases h : env.call st.f schema fp st.x = 0
    · simp only [h, ne_eq, not_true_eq_false, if_false, true_and]
      rw [ih]
      split_ifs <;> simp
    · simp [h]

theorem emit_jsonify_eq (env : Env S) (o : Options) (output : String) (schema : S)
    (fp : FILE) (g : generator) (t : List (Event S)) :
    emit_jsonify env o output schema fp g t =
      run_steps env output schema fp (jsonify_steps o g) t := by
  unfold emit_jsonify jsonify_steps
  split_ifs <;> simp [run_steps, Step.event]

theorem emit_decoder_eq (env : Env S) (o : Options) (output : String) (schema : S)
    (fp : FILE) (g : generator) (t : List (Event S)) :
    emit_decoder env o output schema fp g t =
      run_steps env output schema fp (decoder_steps o g ++ jsonify_steps o g) t := by
  unfold emit_decoder decoder_steps
  split_ifs <;> simp [run_steps, Step.event, emit_jsonify_eq]

theorem emit_encoder_eq (env : Env S) (o : Options) (output : String) (schema : S)
    (fp : FILE) (g : generator) (t : List (Event S)) :
    emit_encoder env o output schema fp g t =
      run_steps env output schema fp
        (encoder_steps o g ++ decoder_steps o g ++ jsonify_steps o g) t := by
  unfold emit_encoder encoder_steps
  split_ifs <;> simp [run_steps, Step.event, emit_decoder_eq]

theorem run_steps_rc (env : Env S) (output : String) (schema : S) (fp : FILE)
    (p : List Step) (t : List (Event S)) :
    (run_steps env output schema fp p t).rc = 0 ∨
      (run_steps env output schema fp p t).rc = -1 := by
  induction p generalizing t with
  | nil => simp [run_steps, finish]
  | cons st rest ih =>
    simp only [run_steps]
    split_ifs
    · simp [emit_failed]
    · exact ih _

theorem run_steps_rc_zero_iff (env : Env S) (output : String) (schema : S) (fp : FILE)
    (p : List Step) (t : List (Event S)) (ht : ∀ c ∈ emitter_calls t, c.rc = 0) :
    (run_steps env output schema fp p t).rc = 0 ↔
      ∀ c ∈ emitter_calls (run_steps env output schema fp p t).trace, c.rc = 0 := by
  induction p generalizing t with
  | nil =>
    simp only [run_steps, finish, true_iff]
    intro c hc
    apply ht
    split_ifs at hc <;> simpa [Event.as_call] using hc
  | cons st rest ih =>
    simp only [run_steps]
    split_ifs with h
    · simp only [emit_failed]
      constructor
      · intro h0; simp at h0
      · intro hall
        exfalso
        apply h
        exact hall ⟨st.f, schema, fp, st.x, env.call st.f schema fp st.x⟩
          (by simp [Step.event, Event.as_call])
    · apply ih
      intro c hc
      simp only [emitter_calls_append, emitter_calls_cons, emitter_calls_nil, Step.event,
        Event.as_call, Option.toList, List.mem_append, List.mem_singleton, List.append_nil] at hc
      rcases hc with hc | hc
      · exact ht c hc
      · subst hc; simpa using h

/-- The run of a list of steps in closed form. -/
theorem run_steps_eq (env : Env S) (output : String) (schema : S) (fp : FILE)
    (p : List Step) (t : List (Event S)) :
    run_steps env output schema fp p t =
      match first_failure env schema fp p with
      | none => finish schema fp (t ++ (executed env schema fp p).map (Step.event env schema fp))
      | some st => emit_failed st.format output schema fp
          (t ++ (executed env schema fp p).map (Step.event env schema fp)) := by
  induction p generalizing t with
  | nil => simp [run_steps, first_failure, executed]
  | cons st rest ih =>
    simp only [run_steps, first_failure, executed]
    split_ifs with h
    · simp
    · rw [ih]
      simp

theorem first_failure_none_iff (env : Env S) (schema : S) (fp : FILE) (p : List Step) :
    first_failure env schema fp p = none ↔ ∀ st ∈ p, env.call st.f schema fp st.x = 0 := by
  induction p with
  | nil => simp [first_failure]
  | cons st rest ih =>
    simp only [first_failure, List.mem_cons, forall_eq_or_imp]
    split_ifs with h1
    · simp [h1]
    · simp only [ne_eq, not_not] at h1
      simp [h1, ih]

/-- When a step fails, the executed steps are a run of steps that return 0
followed by the failing step, and they begin the list. -/
theorem executed_of_failure (env : Env S) (schema : S) (fp : FILE) (p : List Step)
    (st : Step) (h : first_failure env schema fp p = some st) :
    ∃ before after, p = before ++ st :: after ∧
      executed env schema fp p = before ++ [st] ∧
      (∀ s ∈ before, env.call s.f schema fp s.x = 0) ∧
      env.call st.f schema fp st.x ≠ 0 := by
  induction p with
  | nil => simp [first_failure] at h
  | cons s rest ih =>
    simp only [first_failure, executed] at h ⊢
    split_ifs at h ⊢ with h1
    · cases h
      exact ⟨[], rest, rfl, rfl, by simp, h1⟩
    · obtain ⟨before, after, e1, e2, e3, e4⟩ := ih h
      refine ⟨s :: before, after, by simp [e1], by simp [e2], ?_, e4⟩
      intro x hx
      simp only [List.mem_cons] at hx
      rcases hx with rfl | hx
      · simpa using h1
      · exact e3 x hx

theorem mem_bail_iff (e : Event S) (a : Option FILE) (b : Option String) (c : Option S) :
    e ∈ bail a b c ↔
      (∃ fp, a = some fp ∧ not_standard a = true ∧ e = Event.fclose fp) ∨
      (∃ p, b = some p ∧ not_standard a = true ∧ e = Event.unlink p) ∨
      (∃ s, c = some s ∧ e = Event.schema_destroy s) := by
  unfold bail
  cases a <;> cases b <;> cases c <;> simp only [List.mem_append] <;>
    (try split_ifs) <;> simp_all [or_assoc]

theorem fopen_not_mem_bail (path : String) (ok : Bool) (a : Option FILE) (b : Option String)
    (c : Option S) : Event.fopen path ok ∉ bail a b c := by
  simp [mem_bail_iff]

theorem fopen_not_mem_steps (env : Env S) (schema : S) (fp : FILE) (path : String) (ok : Bool)
    (p : List Step) : Event.fopen path ok ∉ p.map (Step.event env schema fp) := by
  simp [Step.event]

@[simp] theorem diagnostics_append (a b : List (Event S)) :
    diagnostics (a ++ b) = diagnostics a ++ diagnostics b := by
  simp [diagnostics, List.filterMap_append]

@[simp] theorem diagnostics_nil : diagnostics ([] : List (Event S)) = [] := rfl

@[simp] theorem diagnostics_cons (e : Event S) (t : List (Event S)) :
    diagnostics (e :: t) = (e.as_diagnostic).toList ++ diagnostics t := by
  cases h : e.as_diagnostic <;> simp [diagnostics, List.filterMap_cons, h]

@[simp] theorem diagnostics_bail (a : Option FILE) (b : Option String) (c : Option S) :
    diagnostics (bail a b c) = [] := by
  unfold bail
  cases a <;> cases b <;> cases c <;> simp [Event.as_diagnostic] <;> split <;>
    simp [Event.as_diagnostic]

@[simp] theorem diagnostics_steps (env : Env S) (schema : S) (fp : FILE) (p : List Step) :
    diagnostics (p.map (Step.event env schema fp)) = [] := by
  induction p with
  | nil => rfl
  | cons st rest ih => simp [Step.event, Event.as_diagnostic, ih]

theorem emitter_calls_steps (env : Env S) (schema : S) (fp : FILE) (p : List Step) :
    emitter_calls (p.map (Step.event env schema fp)) =
      p.map (fun st => ⟨st.f, schema, fp, st.x, env.call st.f schema fp st.x⟩) := by
  induction p with
  | nil => rfl
  | cons st rest ih => simp [Step.event, Event.as_call, ih]

/-- The diagnostics of the run of a list of steps: those before it, and one
more exactly when a step fails, with the format of that step and the output
path. -/
theorem diagnostics_run_steps (env : Env S) (output : String) (schema : S) (fp : FILE)
    (p : List Step) (t : List (Event S)) :
    diagnostics (run_steps env output schema fp p t).trace =
      diagnostics t ++
        (match first_failure env schema fp p with
          | none => []
          | some st => [(st.format, [output])]) := by
  rw [run_steps_eq]
  cases first_failure env schema fp p with
  | none => simp only [finish]; split_ifs <;> simp [Event.as_diagnostic]
  | some st => simp [emit_failed, Event.as_diagnostic]

/-- The emitter calls of the run of a list of steps: those before it and the
executed steps. -/
theorem emitter_calls_run_steps (env : Env S) (output : String) (schema : S) (fp : FILE)
    (p : List Step) (t : List (Event S)) :
    emitter_calls (run_steps env output schema fp p t).trace =
      emitter_calls t ++
        (executed env schema fp p).map
          (fun st => ⟨st.f, schema, fp, st.x, env.call st.f schema fp st.x⟩) := by
  rw [run_steps_eq]
  cases first_failure env schema fp p with
  | none => simp only [finish]; split_ifs <;> simp [Event.as_call, emitter_calls_steps]
  | some st => simp [emit_failed, Event.as_call, emitter_calls_steps]

/-- The emission part of `main` is the execution of its list of steps. -/
theorem emit_pretty_eq_run_steps (env : Env S) (o : Options) (output : String) (schema : S)
    (fp : FILE) (g : generator) (t : List (Event S)) :
    emit_pretty env o output schema fp g t =
      run_steps env output schema fp (emission_steps o g) t := by
  unfold emit_pretty emission_steps pretty_steps
  split_ifs <;> simp [run_steps, Step.event, emit_encoder_eq]

end

/-! ## Return value of the driver -/

section
variable {S : Type}

theorem open_output_rc (env : Env S) (o : Options) (output : String) (schema : S)
    (g : generator) (t : List (Event S)) :
    (open_output env o output schema g t).rc = 0 ∨
      (open_output env o output schema g t).rc = -1 := by
  unfold open_output
  simp only [emit_pretty_eq_run_steps]
  split_ifs <;> first | exact run_steps_rc _ _ _ _ _ _ | simp

theorem open_output_rc_zero_iff (env : Env S) (o : Options) (output : String) (schema : S)
    (g : generator) (t : List (Event S)) (ht : ∀ c ∈ emitter_calls t, c.rc = 0) :
    (open_output env o output schema g t).rc = 0 ↔
      (output = "stdout" ∨ output = "stderr" ∨ env.fopen output = true) ∧
        ∀ c ∈ emitter_calls (open_output env o output schema g t).trace, c.rc = 0 := by
  unfold open_output
  simp only [emit_pretty_eq_run_steps, strcmp_eq_zero]
  split_ifs with h1 h2 h3
  · simp only [h1, true_or, true_and]
    exact run_steps_rc_zero_iff _ _ _ _ _ _ ht
  · simp only [h2, true_or, or_true, true_and]
    exact run_steps_rc_zero_iff _ _ _ _ _ _ ht
  · simp only [h3, or_true, true_and]
    apply run_steps_rc_zero_iff
    simpa [Event.as_call] using ht
  · simp [h1, h2, h3]

theorem main_body_rc (env : Env S) (o : Options) :
    (main_body env o).rc = 0 ∨ (main_body env o).rc = -1 := by
  unfold main_body
  split
  · simp
  · split
    · simp
    · split_ifs
      · simp
      · simp
      · split
        · simp
        · split
          · simp
          · split
            · simp only []
              split_ifs
              · simp
              · exact open_output_rc _ _ _ _ _ _
            · exact open_output_rc _ _ _ _ _ _

end

/-! ## Every run follows one of the paths -/

section
variable {S : Type}

theorem open_output_path (env : Env S) (o : Options) (schema_path output : String)
    (g : generator) (parsed schema : S) (tn : List (Event S))
    (hs : o.option_schema = some schema_path) (ho : o.option_output = some output)
    (h1 : ¬ (o.option_pretty = 0 ∧ o.option_encoder = 0 ∧ o.option_decoder = 0 ∧
      o.option_jsonify = 0))
    (h2 : ¬ (o.option_pretty ≠ 0 ∧
      (o.option_encoder ≠ 0 ∨ o.option_decoder ≠ 0 ∨ o.option_jsonify ≠ 0)))
    (hg : find_generator generators o.option_language = some g)
    (hp : env.schema_parse_file schema_path = some parsed)
    (hn : namespace_step env o parsed schema tn) :
    Path env o (open_output env o output schema g
      ([Event.schema_parse_file schema_path (some parsed)] ++ tn)) := by
  unfold open_output
  simp only [emit_pretty_eq_run_steps, strcmp_eq_zero]
  split_ifs with e1 e2 e3
  · have := Path.emission schema_path output g parsed schema .stdout tn [] hs ho h1 h2 hg hp hn
      (Or.inl ⟨e1, rfl, rfl⟩)
    simpa using this
  · have := Path.emission schema_path output g parsed schema .stderr tn [] hs ho h1 h2 hg hp hn
      (Or.inr (Or.inl ⟨e2, rfl, rfl⟩))
    simpa using this
  · have := Path.emission schema_path output g parsed schema (.opened output) tn
      [Event.unlink output, Event.fopen output true] hs ho h1 h2 hg hp hn
      (Or.inr (Or.inr ⟨e1, e2, e3, rfl, rfl⟩))
    simpa [e3] using this
  · have := Path.open_failed schema_path output g parsed schema tn hs ho h1 h2 hg hp hn
      e1 e2 (by simpa using e3)
    simpa [bail, not_standard, e3] using this

/-- Every run of the part of `main` after the option loop follows one of the
paths. -/
theorem main_body_path (env : Env S) (o : Options) : Path env o (main_body env o) := by
  unfold main_body
  cases hs : o.option_schema with
  | none => simpa [hs] using @Path.no_schema S env o hs
  | some schema_path =>
  cases ho : o.option_output with
  | none => simpa [bail] using @Path.no_output S env o schema_path hs ho
  | some output =>
  simp only []
  by_cases h1 : o.option_pretty = 0 ∧ o.option_encoder = 0 ∧ o.option_decoder = 0 ∧
      o.option_jsonify = 0
  · rw [if_pos h1]
    simpa [bail, not_standard] using @Path.nothing S env o schema_path output hs ho h1
  rw [if_neg h1]
  by_cases h2 : o.option_pretty ≠ 0 ∧
      (o.option_encoder ≠ 0 ∨ o.option_decoder ≠ 0 ∨ o.option_jsonify ≠ 0)
  · rw [if_pos h2]
    simpa [bail, not_standard] using @Path.mixed S env o schema_path output hs ho h2
  rw [if_neg h2]
  cases hg : find_generator generators o.option_language with
  | none =>
    simpa [bail, not_standard] using
      @Path.bad_language S env o schema_path output hs ho h1 h2 hg
  | some g =>
  cases hp : env.schema_parse_file schema_path with
  | none =>
    simpa [bail, not_standard] using
      @Path.parse_failed S env o schema_path output g hs ho h1 h2 hg hp
  | some parsed =>
  cases hn : o.option_namespace with
  | none =>
    simp only []
    have := open_output_path env o schema_path output g parsed parsed [] hs ho h1 h2 hg hp
      (Or.inl ⟨hn, rfl, rfl⟩)
    simpa using this
  | some name =>
    simp only []
    by_cases hrc : (env.schema_set_namespace parsed name).1 = 0
    · rw [if_neg (by simpa using hrc)]
      have := open_output_path env o schema_path output g parsed
        (env.schema_set_namespace parsed name).2
        [Event.schema_set_namespace parsed name 0] hs ho h1 h2 hg hp
        (Or.inr ⟨name, hn, hrc, rfl, rfl⟩)
      simpa [hrc] using this
    · rw [if_pos (by simpa using hrc)]
      simpa [bail, not_standard] using
        @Path.namespace_failed S env o schema_path output g parsed name hs ho h1 h2 hg hp
          hn hrc

end

/-! ## Runs that reach the emission -/

section
variable {S : Type}

/-- A run that reaches the emission is the run of the emission steps of the
selected generator after the trace of the steps before. -/
theorem main_body_of_reaches_emission (env : Env S) (o : Options)
    (h : reaches_emission env o) :
    ∃ schema_path output g parsed schema fp tn tf,
      o.option_schema = some schema_path ∧ o.option_output = some output ∧
      (g ∈ generators ∧ g.language = o.option_language) ∧
      env.schema_parse_file schema_path = some parsed ∧
      namespace_step env o parsed schema tn ∧
      stream_step env output fp tf ∧
      main_body env o = run_steps env output schema fp (emission_steps o g)
        ([Event.schema_parse_file schema_path (some parsed)] ++ tn ++ tf) := by
  obtain ⟨sp0, out0, parsed0, hs0, ho0, hsome, hmix, ⟨g0, hg0, hl0⟩, hp0, hn0, hopen0⟩ := h
  have hp := main_body_path env o
  generalize hr : main_body env o = r at hp
  cases hp with
  | no_schema hs => rw [hs0] at hs; cases hs
  | no_output sp hs ho => rw [ho0] at ho; cases ho
  | nothing sp out hs ho h1 =>
    exfalso
    obtain ⟨a, b, c, d⟩ := h1
    rcases hsome with h | h | h | h
    · exact h a
    · exact h b
    · exact h c
    · exact h d
  | mixed sp out hs ho h2 => exact absurd h2 hmix
  | bad_language sp out hs ho h1 h2 hg =>
    exfalso
    have := (find_generator_some o.option_language g0).2 ⟨hg0, hl0⟩
    rw [hg] at this
    cases this
  | parse_failed sp out g hs ho h1 h2 hg hpf =>
    rw [hs0] at hs; cases hs
    rw [hp0] at hpf; cases hpf
  | namespace_failed sp out g parsed name hs ho h1 h2 hg hpf hn hrc =>
    rw [hs0] at hs; cases hs
    rw [hp0] at hpf; cases hpf
    exact absurd (hn0 name hn) hrc
  | open_failed sp out g parsed schema tn hs ho h1 h2 hg hpf hn e1 e2 e3 =>
    rw [ho0] at ho; cases ho
    rcases hopen0 with h | h | h
    · exact absurd h e1
    · exact absurd h e2
    · rw [e3] at h; cases h
  | emission sp out g parsed schema fp tn tf hs ho h1 h2 hg hpf hn hst =>
    exact ⟨sp, out, g, parsed, schema, fp, tn, tf, hs, ho, (find_generator_some _ _).1 hg,
      hpf, hn, hst, rfl⟩

/-- The entries of the generator table are told apart by their language. -/
theorem generator_unique (g g' : generator) (language : String)
    (h : g ∈ generators ∧ g.language = language)
    (h' : g' ∈ generators ∧ g'.language = language) : g = g' := by
  have a := (find_generator_some language g).2 h
  have b := (find_generator_some language g').2 h'
  rw [a] at b
  exact Option.some.inj b

theorem emitter_calls_prelude (env : Env S) (o : Options) (schema_path output : String)
    (parsed schema : S) (fp : FILE) (tn tf : List (Event S))
    (hn : namespace_step env o parsed schema tn) (hst : stream_step env output fp tf) :
    emitter_calls ([Event.schema_parse_file schema_path (some parsed)] ++ tn ++ tf) = [] := by
  rcases hn with ⟨_, _, rfl⟩ | ⟨name, _, _, _, rfl⟩ <;>
    rcases hst with ⟨_, _, rfl⟩ | ⟨_, _, rfl⟩ | ⟨_, _, _, _, rfl⟩ <;>
    simp [Event.as_call]

end

section
variable {S : Type}

/-- The trace of the run of a list of steps: the trace before, then emitter
calls on the schema and stream of the run, one diagnostic when the run
fails, and the closing actions. -/
theorem run_steps_trace (env : Env S) (output : String) (schema : S) (fp : FILE)
    (p : List Step) (t : List (Event S)) :
    ∃ calls closing,
      (run_steps env output schema fp p t).trace = t ++ calls ++ closing ∧
      (∀ e ∈ calls, ∃ f x rc, e = Event.call f schema fp x rc) ∧
      (((run_steps env output schema fp p t).rc = 0 ∧
          closing = (if not_standard (some fp) then [Event.fclose fp] else []) ++
            [Event.schema_destroy schema]) ∨
        ((run_steps env output schema fp p t).rc = -1 ∧
          ∃ format, closing = [Event.fprintf_stderr format [output]] ++
            (if not_standard (some fp) then [Event.fclose fp, Event.unlink output] else []) ++
            [Event.schema_destroy schema])) := by
  rw [run_steps_eq]
  refine ⟨(executed env schema fp p).map (Step.event env schema fp), ?_⟩
  have hcalls : ∀ e ∈ (executed env schema fp p).map (Step.event env schema fp),
      ∃ f x rc, e = Event.call f schema fp x rc := by
    intro e he
    simp only [List.mem_map] at he
    obtain ⟨st, _, rfl⟩ := he
    exact ⟨st.f, st.x, _, rfl⟩
  cases first_failure env schema fp p with
  | none =>
    exact ⟨_, by simp [finish], hcalls, Or.inl ⟨rfl, rfl⟩⟩
  | some st =>
    refine ⟨_, by simp only [emit_failed, List.append_assoc]; rfl, hcalls, Or.inr ⟨rfl, st.format, ?_⟩⟩
    cases fp <;> simp [bail, not_standard]

theorem diagnostics_prelude (env : Env S) (o : Options) (schema_path output : String)
    (parsed schema : S) (fp : FILE) (tn tf : List (Event S))
    (hn : namespace_step env o parsed schema tn) (hst : stream_step env output fp tf) :
    diagnostics ([Event.schema_parse_file schema_path (some parsed)] ++ tn ++ tf) = [] := by
  rcases hn with ⟨_, _, rfl⟩ | ⟨name, _, _, _, rfl⟩ <;>
    rcases hst with ⟨_, _, rfl⟩ | ⟨_, _, rfl⟩ | ⟨_, _, _, _, rfl⟩ <;>
    simp [Event.as_diagnostic]

end

/-! ## Lemmas for the help case, early failures, the order of the emitters -/

section
variable {S : Type}

theorem option_loop_help (rs : List getopt_ret) (o : Options)
    (h : getopt_ret.flag 'h' ∈ rs) : option_loop o rs = none := by
  induction rs generalizing o with
  | nil => simp at h
  | cons r rest ih =>
    simp only [option_loop]
    cases hsw : option_switch o r with
    | none => rfl
    | some o1 =>
      simp only []
      apply ih
      simp only [List.mem_cons] at h
      rcases h with h | h
      · subst h
        simp [option_switch] at hsw
      · exact h

/-- A run that does not reach the emission and has an output path calls
`unlink` on that path. -/
theorem unlink_of_not_reaches_emission (env : Env S) (o : Options) (output : String)
    (ho : o.option_output = some output) (hne : ¬ reaches_emission env o) :
    Event.unlink output ∈ (main_body env o).trace := by
  have hp := main_body_path env o
  generalize main_body env o = r at hp
  cases hp with
  | no_schema hs => simp [bail, ho, not_standard]
  | no_output sp hs ho' => rw [ho] at ho'; cases ho'
  | nothing sp out hs ho' h1 => rw [ho] at ho'; cases ho'; simp
  | mixed sp out hs ho' h2 => rw [ho] at ho'; cases ho'; simp
  | bad_language sp out hs ho' h1 h2 hg => rw [ho] at ho'; cases ho'; simp
  | parse_failed sp out g hs ho' h1 h2 hg hpf => rw [ho] at ho'; cases ho'; simp
  | namespace_failed sp out g parsed name hs ho' h1 h2 hg hpf hn hrc =>
    rw [ho] at ho'; cases ho'; simp
  | open_failed sp out g parsed schema tn hs ho' h1 h2 hg hpf hn e1 e2 e3 =>
    rw [ho] at ho'; cases ho'; simp
  | emission sp out g parsed schema fp tn tf hs ho' h1 h2 hg hpf hn hst =>
    exfalso
    apply hne
    refine ⟨sp, out, parsed, hs, ho', ?_, h2, ⟨g, (find_generator_some _ _).1 hg⟩, hpf, ?_, ?_⟩
    · by_contra hc
      apply h1
      simp only [not_or, not_not] at hc
      exact hc
    · intro name hname
      rcases hn with ⟨hn, _, _⟩ | ⟨name', hn, hz, _, _⟩
      · rw [hn] at hname; cases hname
      · rw [hn] at hname; cases hname; exact hz
    · rcases hst with ⟨e, _, _⟩ | ⟨e, _, _⟩ | ⟨_, _, e, _, _⟩
      · exact Or.inl e
      · exact Or.inr (Or.inl e)
      · exact Or.inr (Or.inr e)

theorem executed_sublist (env : Env S) (schema : S) (fp : FILE) (p : List Step) :
    (executed env schema fp p).Sublist p := by
  induction p with
  | nil => simp [executed]
  | cons s rest ih =>
    simp only [executed]
    split_ifs
    · simp
    · exact ih.cons₂ s

theorem executed_stops_at_failure (env : Env S) (schema : S) (fp : FILE) (p : List Step)
    (pre post : List (Call S)) (c : Call S)
    (h : (executed env schema fp p).map
      (fun st => (⟨st.f, schema, fp, st.x, env.call st.f schema fp st.x⟩ : Call S)) =
        pre ++ c :: post)
    (hc : c.rc ≠ 0) : post = [] := by
  induction p generalizing pre with
  | nil => simp [executed] at h
  | cons s rest ih =>
    simp only [executed] at h
    split_ifs at h with hs
    · cases pre with
      | nil => simp at h; exact h.2
      | cons a pre => simp at h
    · cases pre with
      | nil =>
        simp only [List.map_cons, List.nil_append, List.cons.injEq] at h
        exfalso
        apply hc
        rw [← h.1]
        simpa using hs
      | cons a pre =>
        simp only [List.map_cons, List.cons_append, List.cons.injEq] at h
        exact ih pre h.2

theorem emission_steps_sublist (o : Options) (g : generator) (hg : g ∈ generators) :
    ((emission_steps o g).map Step.f).Sublist
      [.schema_generate_pretty, g.encoder, g.decoder, g.jsonify] := by
  simp only [generators, List.mem_cons, List.mem_singleton, List.not_mem_nil, or_false] at hg
  simp only [emission_steps, pretty_steps, encoder_steps, decoder_steps, jsonify_steps]
  rcases hg with rfl | rfl <;>
    by_cases a : o.option_pretty = 0 <;> by_cases b : o.option_encoder = 0 <;>
    by_cases c : o.option_decoder = 0 <;> by_cases d : o.option_jsonify = 0 <;>
    simp [a, b, c, d]

end

theorem tolower_eq_lower (c x : Char) (hx : 97 ≤ x.toNat ∧ x.toNat ≤ 122)
    (h : tolower c = x) : c = x ∨ c = x.toUpper := by
  unfold tolower at h
  split_ifs at h with hc
  · right
    have hc' : c = Char.ofNat c.toNat := (Char.ofNat_toNat c).symm
    have h1 : 65 ≤ c.toNat := hc.1
    have h2 : c.toNat ≤ 90 := hc.2
    generalize c.toNat = n at hc' h h1 h2
    subst hc'
    subst h
    interval_cases n <;> decide
  · left; exact h

theorem mem_case_spellings_of_map_tolower (w l : List Char)
    (hw : ∀ x ∈ w, 97 ≤ x.toNat ∧ x.toNat ≤ 122) (h : l.map tolower = w) :
    l ∈ case_spellings w := by
  induction w generalizing l with
  | nil =>
    simp only [List.map_eq_nil_iff] at h
    subst h
    simp [case_spellings]
  | cons x w ih =>
    cases l with
    | nil => simp at h
    | cons c l =>
      simp only [List.map_cons, List.cons.injEq] at h
      have hl := ih l (fun y hy => hw y (List.mem_cons_of_mem _ hy)) h.2
      have hc := tolower_eq_lower c x (hw x (List.mem_cons_self _ _)) h.1
      simp only [case_spellings, List.mem_flatMap, List.mem_cons, List.mem_singleton,
        List.not_mem_nil, or_false]
      refine ⟨l, hl, ?_⟩
      rcases hc with rfl | rfl
      · left; rfl
      · right; rfl

theorem strcasecmp_ne_zero_of_not_spelling (a w : String)
    (hw : ∀ x ∈ w.data, 97 ≤ x.toNat ∧ x.toNat ≤ 122)
    (hlow : w.data.map tolower = w.data)
    (h : a.data ∉ case_spellings w.data) : strcasecmp a w ≠ 0 := by
  intro h0
  rw [strcasecmp_eq_zero, hlow] at h0
  exact h (mem_case_spellings_of_map_tolower w.data a.data hw h0)

theorem bool_option_of_no_word (a : String)
    (h : ∀ w ∈ ["t", "true", "y", "yes", "f", "false", "n", "no"],
      a.data ∉ case_spellings w.data) :
    bool_option a = if atoi a ≠ 0 then 1 else 0 := by
  have key : ∀ w ∈ ["t", "true", "y", "yes", "f", "false", "n", "no"],
      strcasecmp a w ≠ 0 := by
    intro w hw
    have h1 : (∀ x ∈ w.data, 97 ≤ x.toNat ∧ x.toNat ≤ 122) ∧
        w.data.map tolower = w.data := by
      revert w
      decide
    exact strcasecmp_ne_zero_of_not_spelling a w h1.1 h1.2 (h w hw)
  unfold bool_option
  rw [if_neg, if_neg]
  · simp only [not_or]
    exact ⟨key "f" (by decide), key "false" (by decide), key "n" (by decide),
      key "no" (by decide)⟩
  · simp only [not_or]
    exact ⟨key "t" (by decide), key "true" (by decide), key "y" (by decide),
      key "yes" (by decide)⟩

/-! ## Lemmas on the diagnostic of a failed emission -/

section
variable {S : Type}

theorem emission_steps_emitter (o : Options) (g : generator) (st : Step)
    (h : st ∈ emission_steps o g) :
    (st.f = .schema_generate_pretty ∧ st.format = "can not generate schema file: %s\n") ∨
    (st.f = g.encoder ∧ st.format = "can not generate encoder file: %s\n") ∨
    (st.f = g.decoder ∧ st.format = "can not generate decoder file: %s\n") ∨
    (st.f = g.jsonify ∧ st.format = "can not generate jsonify file: %s\n") := by
  simp only [emission_steps, pretty_steps, encoder_steps, decoder_steps, jsonify_steps,
    List.mem_append] at h
  rcases h with ((h | h) | h) | h
  · split_ifs at h <;> simp_all
  · split_ifs at h <;> simp_all
  · split_ifs at h <;> simp_all
  · split_ifs at h
    · simp only [List.append_nil, List.cons_append, List.nil_append, List.mem_cons,
        List.mem_singleton, List.not_mem_nil, or_false] at h
      rcases h with h | h <;> simp [h]
    · simp only [List.nil_append, List.mem_singleton] at h
      simp [h]
    · simp at h

/-- The last emitter call of a run of steps in which a step fails is the
call of that step. -/
theorem last_call_of_failure (env : Env S) (output : String) (schema : S) (fp : FILE)
    (p : List Step) (t : List (Event S)) (st : Step) (ht : emitter_calls t = [])
    (h : first_failure env schema fp p = some st) :
    (emitter_calls (run_steps env output schema fp p t).trace).getLast? =
      some ⟨st.f, schema, fp, st.x, env.call st.f schema fp st.x⟩ := by
  obtain ⟨before, after, _, e2, _, _⟩ := executed_of_failure env schema fp p st h
  rw [emitter_calls_run_steps, ht, e2]
  simp

end

/-! ## The Boolean words -/

set_option maxRecDepth 100000 in
theorem bool_option_true_words :
    ∀ w ∈ ["t", "true", "y", "yes", "1"], ∀ s ∈ case_spellings w.data,
      bool_option (String.mk s) = 1 := by
  decide

set_option maxRecDepth 100000 in
theorem bool_option_false_words :
    ∀ w ∈ ["f", "false", "n", "no", "0"], ∀ s ∈ case_spellings w.data,
      bool_option (String.mk s) = 0 := by
  decide

/-! ## Lemmas on the encoder and decoder runtimes -/

namespace Runtime

/-! ## Lemmas on bytes and buffers -/

theorem le_bytes_length (w v : Nat) : (le_bytes w v).length = w := by
  induction w generalizing v with
  | zero => rfl
  | succ w ih => simp [le_bytes, ih]

theorem le_value_le_bytes (w v : Nat) : le_value (le_bytes w v) = v % 256 ^ w := by
  induction w generalizing v with
  | zero => simp [le_bytes, le_value, Nat.mod_one]
  | succ w ih =>
    simp only [le_bytes, le_value, ih]
    rw [pow_succ, Nat.mul_comm (256 ^ w) 256, Nat.mod_mul]

theorem u64_length (v : Nat) : (u64 v).length = 8 := le_bytes_length 8 v

theorem le_value_u64 (v : Nat) (h : v < 2 ^ 64) : le_value (u64 v) = v := by
  rw [u64, le_value_le_bytes]
  exact Nat.mod_eq_of_lt (by norm_num at h ⊢; exact h)

theorem encode_scalar_length (k : scalar_type) (v : Int) :
    (encode_scalar k v).length = k.width := le_bytes_length _ _

theorem encode_string_length (s : List Nat) : (encode_string s).length = 8 + s.length := by
  simp [encode_string, u64_length]

theorem width_pos (k : scalar_type) : 1 ≤ k.width := by cases k <;> decide

theorem decode_encode_scalar (k : scalar_type) (v : Int) (h : in_range k v) :
    decode_scalar k (encode_scalar k v) = v := by
  unfold decode_scalar encode_scalar
  rw [le_value_le_bytes]
  cases k <;>
    simp only [in_range, scalar_type.signed, scalar_type.width, if_true, Bool.false_eq_true,
      if_false, true_and, false_and] at h ⊢ <;>
    norm_num at h ⊢ <;>
    omega

theorem read_bytes_getElem? (b : List Nat) (off len i : Nat) :
    (read_bytes b off len)[i]? = if i < len then b[off + i]? else none := by
  unfold read_bytes
  rw [List.getElem?_take]
  split
  · rw [List.getElem?_drop]
  · rfl

theorem read_bytes_of_stored {b : List Nat} {off : Nat} {x : List Nat} (h : stored b off x) :
    read_bytes b off x.length = x := by
  apply List.ext_getElem?
  intro i
  rw [read_bytes_getElem?]
  split
  · exact h i (by assumption)
  · rw [List.getElem?_eq_none]; omega

theorem read_u64_of_stored {b : List Nat} {off v : Nat} (h : stored b off (u64 v))
    (hv : v < 2 ^ 64) : read_u64 b off = v := by
  unfold read_u64
  have := read_bytes_of_stored h
  rw [u64_length] at this
  rw [this, le_value_u64 v hv]

theorem stored_append_iff (b : List Nat) (off : Nat) (x y : List Nat) :
    stored b off (x ++ y) ↔ stored b off x ∧ stored b (off + x.length) y := by
  constructor
  · intro h
    constructor
    · intro i hi
      have := h i (by simp; omega)
      rw [this, List.getElem?_append_left hi]
    · intro i hi
      have := h (x.length + i) (by simp; omega)
      rw [Nat.add_assoc, this, List.getElem?_append_right (by omega)]
      simp
  · rintro ⟨h1, h2⟩ i hi
    by_cases hx : i < x.length
    · rw [h1 i hx, List.getElem?_append_left hx]
    · have := h2 (i - x.length) (by simp at hi; omega)
      rw [List.getElem?_append_right (by omega), ← this]
      congr 1; omega

theorem stored_congr {lo hi : Nat} {b1 b2 : List Nat} (h : agree lo hi b1 b2) {off : Nat}
    {x : List Nat} (hlo : lo ≤ off) (hhi : off + x.length ≤ hi) (hs : stored b1 off x) :
    stored b2 off x := by
  intro i hi
  rw [h (off + i) (by omega) (by omega)]
  exact hs i hi

theorem stored_in_congr {lo hi : Nat} {b1 b2 : List Nat} (h : agree lo hi b1 b2) {off : Nat}
    {x : List Nat} (hs : stored_in lo hi b1 off x) : stored_in lo hi b2 off x :=
  ⟨hs.1, hs.2.1, stored_congr h hs.1 hs.2.1 hs.2.2⟩

theorem stored_in_mono {lo hi lo1 hi1 : Nat} {b : List Nat} {off : Nat} {x : List Nat}
    (hs : stored_in lo hi b off x) (h1 : lo1 ≤ lo) (h2 : hi ≤ hi1) : stored_in lo1 hi1 b off x :=
  ⟨by have := hs.1; omega, by have := hs.2.1; omega, hs.2.2⟩

theorem agree_refl (lo hi : Nat) (b : List Nat) : agree lo hi b b := fun _ _ _ => rfl

theorem agree_trans {lo hi : Nat} {b1 b2 b3 : List Nat} (h1 : agree lo hi b1 b2)
    (h2 : agree lo hi b2 b3) : agree lo hi b1 b3 := fun j hl hh => by
  rw [h2 j hl hh, h1 j hl hh]

theorem agree_mono {lo hi lo1 hi1 : Nat} {b1 b2 : List Nat} (h : agree lo hi b1 b2)
    (h1 : lo ≤ lo1) (h2 : hi1 ≤ hi) : agree lo1 hi1 b1 b2 := fun j hl hh =>
  h j (by omega) (by omega)

theorem agree_append (lo : Nat) (b x : List Nat) : agree lo b.length b (b ++ x) := fun _ _ hh =>
  List.getElem?_append_left hh

theorem write_bytes_length (b : List Nat) (p : Nat) (y : List Nat) (h : p + y.length ≤ b.length) :
    (write_bytes b p y).length = b.length := by
  simp [write_bytes]; omega

theorem write_bytes_getElem? (b : List Nat) (p : Nat) (y : List Nat) (h : p + y.length ≤ b.length)
    (j : Nat) :
    (write_bytes b p y)[j]? = if p ≤ j ∧ j < p + y.length then y[j - p]? else b[j]? := by
  unfold write_bytes
  have hp : (List.take p b).length = p := by simp; omega
  by_cases h1 : j < p
  · rw [if_neg (by omega), List.append_assoc, List.getElem?_append_left (by omega),
      List.getElem?_take]
    simp [h1]
  · by_cases h2 : j < p + y.length
    · rw [if_pos (by omega), List.getElem?_append_left (by simp; omega),
        List.getElem?_append_right (by omega), hp]
    · rw [if_neg (by omega), List.getElem?_append_right (by simp; omega), List.getElem?_drop]
      congr 1
      simp; omega

theorem agree_write (lo hi : Nat) (b : List Nat) (p : Nat) (y : List Nat)
    (h : p + y.length ≤ b.length) (hd : p + y.length ≤ lo ∨ hi ≤ p) :
    agree lo hi b (write_bytes b p y) := fun j hl hh => by
  rw [write_bytes_getElem? b p y h]
  rw [if_neg]; omega

theorem stored_write (b : List Nat) (p : Nat) (y : List Nat) (h : p + y.length ≤ b.length) :
    stored (write_bytes b p y) p y := fun i hi => by
  rw [write_bytes_getElem? b p y h, if_pos (by omega)]
  congr 1; omega

theorem stored_append_right (b x : List Nat) : stored (b ++ x) b.length x := fun i _ => by
  rw [List.getElem?_append_right (by omega)]
  congr 1; omega

theorem set_presence_length (b : List Nat) (pos f : Nat) (h : pos + f / 8 < b.length) :
    (set_presence b pos f).length = b.length := by
  unfold set_presence
  rw [write_bytes_length]; simpa using h

theorem agree_set_presence (lo hi : Nat) (b : List Nat) (pos f : Nat)
    (h : pos + f / 8 < b.length) (hd : pos + f / 8 < lo ∨ hi ≤ pos + f / 8) :
    agree lo hi b (set_presence b pos f) := by
  unfold set_presence
  apply agree_write
  · simpa using h
  · simp; omega

theorem test_presence_congr {b1 b2 : List Nat} {pos g : Nat}
    (h : b2[pos + g / 8]? = b1[pos + g / 8]?) : test_presence b2 pos g = test_presence b1 pos g := by
  unfold test_presence
  rw [List.getD_eq_getElem?_getD, List.getD_eq_getElem?_getD, h]

theorem test_presence_agree {lo hi : Nat} {b1 b2 : List Nat} (h : agree lo hi b1 b2) {pos g : Nat}
    (hl : lo ≤ pos + g / 8) (hh : pos + g / 8 < hi) :
    test_presence b2 pos g = test_presence b1 pos g :=
  test_presence_congr (h _ hl hh)

theorem test_presence_set_same (b : List Nat) (pos f : Nat) (h : pos + f / 8 < b.length) :
    test_presence (set_presence b pos f) pos f = true := by
  unfold test_presence set_presence
  rw [List.getD_eq_getElem?_getD, write_bytes_getElem? _ _ _ (by simpa using h)]
  simp [Nat.testBit_lor]

theorem test_presence_set_other (b : List Nat) (pos f g : Nat) (h : pos + f / 8 < b.length)
    (hg : g ≠ f) : test_presence (set_presence b pos f) pos g = test_presence b pos g := by
  unfold test_presence set_presence
  simp only [List.getD_eq_getElem?_getD]
  rw [write_bytes_getElem? _ _ _ (by simpa using h)]
  by_cases h8 : g / 8 = f / 8
  · have hm : f % 8 ≠ g % 8 := by omega
    simp [h8, Nat.testBit_lor, Nat.testBit_two_pow, hm]
  · rw [if_neg (by simp; omega)]

theorem test_presence_zeros (b : List Nat) (n g : Nat) :
    test_presence (b ++ List.replicate n 0) b.length g = false := by
  unfold test_presence
  rw [List.getD_eq_getElem?_getD, List.getElem?_append_right (by omega)]
  by_cases h : g / 8 < n
  · simp [List.getElem?_replicate, h]
  · simp [List.getElem?_replicate, h]

theorem flatten_length_of {w : Nat} :
    ∀ (L : List (List Nat)), (∀ x ∈ L, x.length = w) → L.flatten.length = L.length * w := by
  intro L
  induction L with
  | nil => intro _; simp
  | cons x L ih =>
    intro hw
    rw [List.flatten_cons, List.length_append, ih (fun y hy => hw y (List.mem_cons_of_mem _ hy)),
      hw x (List.mem_cons_self _ _), List.length_cons]
    ring

theorem header_of_scalar {el : element_type} {k : scalar_type} (hk : el.scalar_type = some k)
    (n : Nat) : vector_header el n = u64 n ++ u64 (n * k.width) ∧ element_width el = k.width := by
  cases el with
  | scalar k1 => cases hk; exact ⟨rfl, rfl⟩
  | enum k1 => cases hk; exact ⟨rfl, rfl⟩
  | string => cases hk
  | table t => cases hk

theorem vector_header_length_scalar {el : element_type} {k : scalar_type}
    (hk : el.scalar_type = some k) (n : Nat) : (vector_header el n).length = 16 := by
  rw [(header_of_scalar hk n).1]; simp [u64_length]

/-! ## Lemmas on the layout of a table -/

theorem sum_take_succ_le (L : List Nat) (i j : Nat) (x : Nat) (hx : L[i]? = some x)
    (h : i < j) : (L.take i).sum + x ≤ (L.take j).sum := by
  induction L generalizing i j with
  | nil => simp at hx
  | cons a L ih =>
    cases j with
    | zero => omega
    | succ j =>
      cases i with
      | zero => simp at hx; subst hx; simp
      | succ i =>
        have := ih i j (by simpa using hx) (by omega)
        simp; omega

theorem slot_offset_eq (T : table_def) (f : Nat) :
    slot_offset T f = bitmap_size T.length + ((T.map slot_size).take f).sum := by
  simp [slot_offset, List.map_take]

theorem slot_end_le {T : table_def} {g : Nat} {ft : field_type} (h : T[g]? = some ft) :
    slot_offset T g + slot_size ft ≤ table_size T := by
  rw [slot_offset_eq, table_size]
  have h1 : (T.map slot_size)[g]? = some (slot_size ft) := by simp [h]
  have := sum_take_succ_le (T.map slot_size) g (T.map slot_size).length _ h1 (by
    have := (List.getElem?_eq_some_iff.mp h1).1
    exact this)
  simp only [List.take_length] at this
  omega

theorem slot_disjoint {T : table_def} {f g : Nat} {ff fg : field_type} (hf : T[f]? = some ff)
    (hg : T[g]? = some fg) (hne : g ≠ f) :
    slot_offset T g + slot_size fg ≤ slot_offset T f ∨
      slot_offset T f + slot_size ff ≤ slot_offset T g := by
  rw [slot_offset_eq, slot_offset_eq]
  have h1 : (T.map slot_size)[g]? = some (slot_size fg) := by simp [hg]
  have h2 : (T.map slot_size)[f]? = some (slot_size ff) := by simp [hf]
  rcases Nat.lt_or_gt_of_ne hne with h | h
  · left
    have := sum_take_succ_le (T.map slot_size) g f _ h1 h
    omega
  · right
    have := sum_take_succ_le (T.map slot_size) f g _ h2 h
    omega

theorem bitmap_le_slot (T : table_def) (g : Nat) : bitmap_size T.length ≤ slot_offset T g := by
  unfold slot_offset; omega

theorem bit_lt_bitmap {T : table_def} {g : Nat} (h : g < T.length) :
    g / 8 < bitmap_size T.length := by
  unfold bitmap_size; omega

theorem bitmap_le_table (T : table_def) : bitmap_size T.length ≤ table_size T := by
  unfold table_size; omega

theorem lt_length_of_getElem? {T : table_def} {g : Nat} {ft : field_type} (h : T[g]? = some ft) :
    g < T.length := (List.getElem?_eq_some_iff.mp h).1

/-! ## Lemmas on storing into a slot -/

section
variable (b : List Nat) (T : table_def) (pos f : Nat) (x : List Nat) {ft : field_type}
  (hf : T[f]? = some ft) (hx : x.length = slot_size ft) (hb : pos + table_size T ≤ b.length)
include hf hx hb

theorem store_length : (store b T pos f x).length = b.length := by
  have h1 := slot_end_le hf
  have h2 := bit_lt_bitmap (lt_length_of_getElem? hf)
  have h3 := bitmap_le_table T
  unfold store
  rw [set_presence_length, write_bytes_length] <;> try rw [write_bytes_length]
  all_goals omega

theorem agree_store (lo hi : Nat) (hd : hi ≤ pos ∨ pos + table_size T ≤ lo) :
    agree lo hi b (store b T pos f x) := by
  have h1 := slot_end_le hf
  have h2 := bit_lt_bitmap (lt_length_of_getElem? hf)
  have h3 := bitmap_le_table T
  have h4 := bitmap_le_slot T f
  unfold store
  refine agree_trans (agree_write lo hi b (pos + slot_offset T f) x (by omega) (by omega)) ?_
  apply agree_set_presence
  · rw [write_bytes_length] <;> omega
  · omega

theorem test_presence_store_same : test_presence (store b T pos f x) pos f = true := by
  have h1 := slot_end_le hf
  have h2 := bit_lt_bitmap (lt_length_of_getElem? hf)
  have h3 := bitmap_le_table T
  unfold store
  apply test_presence_set_same
  rw [write_bytes_length] <;> omega

theorem test_presence_store_other (g : Nat) (hg : g ≠ f) (hgl : g < T.length) :
    test_presence (store b T pos f x) pos g = test_presence b pos g := by
  have h1 := slot_end_le hf
  have h2 := bit_lt_bitmap (lt_length_of_getElem? hf)
  have h3 := bitmap_le_table T
  have h4 := bitmap_le_slot T f
  have h5 := bit_lt_bitmap hgl
  unfold store
  rw [test_presence_set_other _ _ _ _ (by rw [write_bytes_length] <;> omega) hg]
  apply test_presence_congr
  rw [write_bytes_getElem? _ _ _ (by omega), if_neg (by omega)]

theorem stored_store_same : stored (store b T pos f x) (pos + slot_offset T f) x := by
  have h1 := slot_end_le hf
  have h2 := bit_lt_bitmap (lt_length_of_getElem? hf)
  have h3 := bitmap_le_table T
  have h4 := bitmap_le_slot T f
  unfold store
  refine stored_congr (agree_set_presence (pos + slot_offset T f) (pos + slot_offset T f + x.length)
    _ pos f ?_ ?_) (le_refl _) (le_refl _) (stored_write b (pos + slot_offset T f) x (by omega))
  · rw [write_bytes_length] <;> omega
  · omega

theorem stored_store_other (g : Nat) {fg : field_type} (hg : T[g]? = some fg) (hne : g ≠ f)
    (y : List Nat) (hy : y.length = slot_size fg) (hs : stored b (pos + slot_offset T g) y) :
    stored (store b T pos f x) (pos + slot_offset T g) y := by
  have h1 := slot_end_le hf
  have h2 := bit_lt_bitmap (lt_length_of_getElem? hf)
  have h3 := bitmap_le_table T
  have h4 := bitmap_le_slot T f
  have h5 := bitmap_le_slot T g
  have h6 := slot_disjoint hf hg hne
  unfold store
  refine stored_congr (agree_trans
    (agree_write (pos + slot_offset T g) (pos + slot_offset T g + y.length) b
      (pos + slot_offset T f) x (by omega)
      (by omega))
    (agree_set_presence (pos + slot_offset T g) (pos + slot_offset T g + y.length)
      _ pos f ?_ ?_)) (le_refl _) (le_refl _) hs
  · rw [write_bytes_length] <;> omega
  · omega

end

/-! ## Lemmas on what a buffer holds -/

theorem slot_holds_congr {lo hi : Nat} {b1 b2 : List Nat} {T : table_def} {pos g : Nat}
    (hg : g < T.length) (ht : agree pos (pos + table_size T) b1 b2) (hs : agree lo hi b1 b2)
    {r : Option element_value} (h : slot_holds lo hi b1 T pos g r) :
    slot_holds lo hi b2 T pos g r := by
  have h2 := bit_lt_bitmap hg
  have h3 := bitmap_le_table T
  have hp : test_presence b2 pos g = test_presence b1 pos g :=
    test_presence_agree ht (by omega) (by omega)
  match r, h with
  | none, h => exact hp.trans h
  | some (.scalar x), ⟨h1, k, hk, hst⟩ =>
    refine ⟨hp.trans h1, k, hk, ?_⟩
    have hk1 : ∃ ft, T[g]? = some ft ∧ slot_size ft = k.width := by
      rcases hk with hk | hk
      · exact ⟨_, hk, rfl⟩
      · exact ⟨_, hk, rfl⟩
    obtain ⟨ft, hft, hsz⟩ := hk1
    have := slot_end_le hft
    exact stored_congr ht (by omega) (by rw [encode_scalar_length]; omega) hst
  | some (.string x), ⟨h1, hk, off, hst, hstr⟩ =>
    refine ⟨hp.trans h1, hk, off, ?_, stored_in_congr hs hstr⟩
    have := slot_end_le hk
    simp only [slot_size] at this
    exact stored_congr ht (by omega) (by rw [u64_length]; omega) hst

theorem slot_holds_mono {lo hi hi1 : Nat} {b : List Nat} {T : table_def} {pos g : Nat}
    (hh : hi ≤ hi1) {r : Option element_value} (h : slot_holds lo hi b T pos g r) :
    slot_holds lo hi1 b T pos g r := by
  match r, h with
  | none, h => exact h
  | some (.scalar x), h => exact h
  | some (.string x), ⟨h1, hk, off, hst, hstr⟩ =>
    exact ⟨h1, hk, off, hst, stored_in_mono hstr (le_refl _) hh⟩

theorem is_table_in_congr {lo hi : Nat} {b1 b2 : List Nat} (ha : agree lo hi b1 b2)
    {T : table_def} {pos : Nat} {r : Nat → Option element_value}
    (h : is_table_in lo hi b1 T pos r) : is_table_in lo hi b2 T pos r := by
  obtain ⟨h1, h2, h3⟩ := h
  refine ⟨h1, h2, fun g hg => ?_⟩
  exact slot_holds_congr hg (agree_mono ha h1 h2) (agree_mono ha (by omega) (le_refl _)) (h3 g hg)

theorem is_table_in_mono {lo hi lo1 hi1 : Nat} {b : List Nat} {T : table_def} {pos : Nat}
    {r : Nat → Option element_value} (h : is_table_in lo hi b T pos r) (hl : lo1 ≤ lo)
    (hh : hi ≤ hi1) : is_table_in lo1 hi1 b T pos r := by
  obtain ⟨h1, h2, h3⟩ := h
  exact ⟨by omega, by omega, fun g hg => slot_holds_mono hh (h3 g hg)⟩

theorem is_vector_in_congr {s : schema} {lo hi : Nat} {b1 b2 : List Nat} (ha : agree lo hi b1 b2)
    {el : element_type} {off : Nat} {c : content} (h : is_vector_in s lo hi b1 el off c) :
    is_vector_in s lo hi b2 el off c := by
  match c, h with
  | .scalars vs, ⟨k, hk, hs⟩ => exact ⟨k, hk, stored_in_congr ha hs⟩
  | .strings ss, ⟨he, offs, hf, hs⟩ =>
    exact ⟨he, offs, hf.imp (fun _ _ h => stored_in_congr ha h), stored_in_congr ha hs⟩
  | .tables t ip els, ⟨he, offs, hf, hs⟩ =>
    exact ⟨he, offs, hf.imp (fun _ _ h => is_table_in_congr ha h), stored_in_congr ha hs⟩

theorem is_vector_in_mono {s : schema} {lo hi lo1 hi1 : Nat} {b : List Nat}
    {el : element_type} {off : Nat} {c : content} (h : is_vector_in s lo hi b el off c)
    (hl : lo1 ≤ lo) (hh : hi ≤ hi1) : is_vector_in s lo1 hi1 b el off c := by
  match c, h with
  | .scalars vs, ⟨k, hk, hs⟩ => exact ⟨k, hk, stored_in_mono hs hl hh⟩
  | .strings ss, ⟨he, offs, hf, hs⟩ =>
    exact ⟨he, offs, hf.imp (fun _ _ h => stored_in_mono h hl hh), stored_in_mono hs hl hh⟩
  | .tables t ip els, ⟨he, offs, hf, hs⟩ =>
    exact ⟨he, offs, hf.imp (fun _ _ h => is_table_in_mono h hl hh), stored_in_mono hs hl hh⟩

/-- A buffer that keeps the bytes below `b.length` and is at least as long
holds in the fields of the output what `b` holds. -/
theorem output_holds_extend {s : schema} {b b1 : List Nat} {f : Nat}
    (hf : f < (s.table s.root).length) (hz : table_size (s.table s.root) ≤ b.length)
    (ha : agree 0 b.length b b1) (hl : b.length ≤ b1.length) {c : Option content}
    (h : output_holds s b f c) : output_holds s b1 f c := by
  have h2 := bit_lt_bitmap hf
  have h3 := bitmap_le_table (s.table s.root)
  have hp : test_presence b1 0 f = test_presence b 0 f :=
    test_presence_agree ha (by omega) (by omega)
  match c, h with
  | none, h => exact hp.trans h
  | some c, ⟨h1, el, off, hel, hst, hv⟩ =>
    refine ⟨hp.trans h1, el, off, hel, ?_, ?_⟩
    · have := slot_end_le hel
      simp only [slot_size] at this
      exact stored_congr ha (by omega) (by rw [u64_length]; omega) hst
    · exact is_vector_in_mono (is_vector_in_congr (agree_mono ha (by omega) (le_refl _)) hv)
        (le_refl _) hl

/-- Storing into the slot of another field of the output keeps what a field
holds. -/
theorem output_holds_store {s : schema} {b : List Nat} {f g : Nat} {ft : field_type}
    (hft : (s.table s.root)[f]? = some ft) (x : List Nat) (hx : x.length = slot_size ft)
    (hg : g < (s.table s.root).length) (hne : g ≠ f)
    (hz : table_size (s.table s.root) ≤ b.length) {c : Option content}
    (h : output_holds s b g c) : output_holds s (store b (s.table s.root) 0 f x) g c := by
  have hz0 : 0 + table_size (s.table s.root) ≤ b.length := by omega
  have hp := test_presence_store_other b (s.table s.root) 0 f x hft hx hz0 g hne hg
  have hlen := store_length b (s.table s.root) 0 f x hft hx hz0
  match c, h with
  | none, h => exact hp.trans h
  | some c, ⟨h1, el, off, hel, hst, hv⟩ =>
    refine ⟨hp.trans h1, el, off, hel, ?_, ?_⟩
    · have := stored_store_other b (s.table s.root) 0 f x hft hx hz0 g hel hne (u64 off)
        (by rw [u64_length]; rfl) (by simpa using hst)
      simpa using this
    · rw [hlen]
      exact is_vector_in_congr (agree_store b (s.table s.root) 0 f x hft hx hz0 _ _
        (Or.inr (by omega))) hv

theorem take_eq_of_agree {b b1 : List Nat} (ha : agree 0 b.length b b1) :
    b1.take b.length = b := by
  apply List.ext_getElem?
  intro i
  rw [List.getElem?_take]
  split
  · exact ha i (Nat.zero_le _) (by assumption)
  · rw [List.getElem?_eq_none]; omega

/-! ## Lemmas on the calls of the encoder -/

/-! ### A recorded failure stays -/

theorem table_start_error {t : Nat} {bnd : binding} {e : encoder} (h : e.error ≠ none) :
    table_start t bnd e = e := by simp [table_start, h]

theorem field_set_error {f : Nat} {v : Int} {e : encoder} (h : e.error ≠ none) :
    field_set f v e = e := by simp [field_set, h]

theorem field_create_error {f : Nat} {x : List Nat} {e : encoder} (h : e.error ≠ none) :
    field_create f x e = e := by simp [field_create, h]

theorem field_set_offset_error {f off : Nat} {e : encoder} (h : e.error ≠ none) :
    field_set_offset f off e = e := by simp [field_set_offset, h]

theorem table_end_error {e : encoder} (h : e.error ≠ none) : table_end e = e := by
  simp [table_end, h]

theorem table_cancel_error {e : encoder} (h : e.error ≠ none) : table_cancel e = e := by
  simp [table_cancel, h]

theorem field_vector_start_error {f : Nat} {e : encoder} (h : e.error ≠ none) :
    field_vector_start f e = e := by simp [field_vector_start, h]

theorem vector_start_error {el : element_type} {e : encoder} (h : e.error ≠ none) :
    vector_start el e = e := by simp [vector_start, h]

theorem vector_push_error {v : Int} {e : encoder} (h : e.error ≠ none) :
    vector_push v e = e := by simp [vector_push, h]

theorem vector_push_string_error {x : List Nat} {e : encoder} (h : e.error ≠ none) :
    vector_push_string x e = e := by simp [vector_push_string, h]

theorem vector_push_offset_error {off : Nat} {e : encoder} (h : e.error ≠ none) :
    vector_push_offset off e = e := by simp [vector_push_offset, h]

theorem vector_end_error {e : encoder} (h : e.error ≠ none) : vector_end e = e := by
  simp [vector_end, h]

theorem vector_cancel_error {e : encoder} (h : e.error ≠ none) : vector_cancel e = e := by
  simp [vector_cancel, h]

theorem output_finish_error {e : encoder} (h : e.error ≠ none) : output_finish e = e := by
  simp [output_finish, h]

theorem foldl_error {α : Type} (step : encoder → α → encoder)
    (hstep : ∀ x e, e.error ≠ none → step e x = e) (l : List α) {e : encoder}
    (h : e.error ≠ none) : l.foldl step e = e := by
  induction l with
  | nil => rfl
  | cons x l ih => rw [List.foldl_cons, hstep x e h, ih]

theorem run_write_error {w : Nat × element_value} {e : encoder} (h : e.error ≠ none) :
    run_write w e = e := by
  unfold run_write
  split
  · exact field_set_error h
  · exact field_create_error h

theorem run_writes_error {ws : List (Nat × element_value)} {e : encoder} (h : e.error ≠ none) :
    run_writes ws e = e :=
  foldl_error _ (fun _ _ h => run_write_error h) ws h

theorem run_element_error {t : Nat} {ip : Bool} {el : element_build} {e : encoder}
    (h : e.error ≠ none) : run_element t ip el e = e := by
  unfold run_element
  simp only [table_start_error h, run_writes_error h, table_end_error h, table_cancel_error h,
    vector_push_offset_error h, ite_self]

theorem vector_push_all_error {vs : List Int} {e : encoder} (h : e.error ≠ none) :
    vector_push_all vs e = e :=
  foldl_error _ (fun _ _ h => vector_push_error h) vs h

theorem vector_push_strings_error {ss : List (List Nat)} {e : encoder} (h : e.error ≠ none) :
    vector_push_strings ss e = e :=
  foldl_error _ (fun _ _ h => vector_push_string_error h) ss h

theorem run_content_error {c : content} {e : encoder} (h : e.error ≠ none) :
    run_content c e = e := by
  cases c with
  | scalars vs => exact vector_push_all_error h
  | strings ss => exact vector_push_strings_error h
  | tables t ip els => exact foldl_error _ (fun _ _ h => run_element_error h) els h

theorem run_block_error {b : block} {e : encoder} (h : e.error ≠ none) : run_block b e = e := by
  unfold run_block
  split
  · simp only [vector_start_error h, run_content_error h, vector_end_error h,
      vector_cancel_error h, field_set_offset_error h, ite_self]
  · simp only [field_vector_start_error h, run_content_error h, vector_end_error h,
      vector_cancel_error h, ite_self]

/-- A call that leaves a failed encoder as it is can only end without a
failure when it started without one. -/
theorem error_none_of {op : encoder → encoder} (hop : ∀ e, e.error ≠ none → op e = e)
    {e : encoder} (h : (op e).error = none) : e.error = none := by
  by_contra hc
  rw [hop e hc] at h
  exact hc h

/-! ### The calls on an encoder without a failure -/

section
variable (s : schema) (b : List Nat) (st : List scope)

theorem append_eq (x : List Nat) (h : ((encoder.mk s b st none).append x).error = none) :
    (encoder.mk s b st none).append x = encoder.mk s (b ++ x) st none ∧
      b.length + x.length < 2 ^ 64 := by
  unfold encoder.append at h ⊢
  dsimp only at h ⊢
  by_cases hc : 2 ^ 64 ≤ b.length + x.length
  · rw [if_pos hc] at h; cases h
  · rw [if_neg hc]; exact ⟨rfl, by omega⟩

theorem table_start_eq (t : Nat) (bnd : binding) (ht : t < s.tables.length)
    (hl : table_start_legal (encoder.mk s b st none) t bnd = true)
    (h : (table_start t bnd (encoder.mk s b st none)).error = none) :
    table_start t bnd (encoder.mk s b st none) =
        encoder.mk s (b ++ List.replicate (table_size (s.table t)) 0)
          (.table t b.length bnd :: st) none ∧
      b.length + table_size (s.table t) < 2 ^ 64 := by
  unfold table_start at h ⊢
  simp only [ne_eq, not_true_eq_false, if_false, ht, hl, and_self] at h ⊢
  by_cases hc : ((encoder.mk s b st none).append
      (List.replicate (table_size (s.table t)) 0)).error = none
  · obtain ⟨h1, h2⟩ := append_eq s b st _ hc
    simp only [List.length_replicate] at h2
    refine ⟨?_, h2⟩
    simp [h1]
  · simp [hc] at h

theorem field_set_eq (t pos : Nat) (bnd : binding) (f : Nat) (v : Int) (k : scalar_type)
    (hk : (s.table t)[f]? = some (.single (.scalar k)) ∨
      (s.table t)[f]? = some (.single (.enum k))) :
    field_set f v (encoder.mk s b (.table t pos bnd :: st) none) =
      encoder.mk s (store b (s.table t) pos f (encode_scalar k v))
        (.table t pos bnd :: st) none := by
  unfold field_set
  rcases hk with hk | hk <;> simp [hk, encoder.store_slot, store]

theorem field_create_eq (t pos : Nat) (bnd : binding) (f : Nat) (x : List Nat)
    (hk : (s.table t)[f]? = some (.single .string))
    (h : (field_create f x (encoder.mk s b (.table t pos bnd :: st) none)).error = none) :
    field_create f x (encoder.mk s b (.table t pos bnd :: st) none) =
        encoder.mk s (store (b ++ encode_string x) (s.table t) pos f (u64 b.length))
          (.table t pos bnd :: st) none ∧
      b.length + (8 + x.length) < 2 ^ 64 := by
  unfold field_create at h ⊢
  simp only [ne_eq, not_true_eq_false, if_false, hk] at h ⊢
  by_cases hc : ((encoder.mk s b (.table t pos bnd :: st) none).append
      (encode_string x)).error = none
  · obtain ⟨h1, h2⟩ := append_eq s b _ _ hc
    rw [encode_string_length] at h2
    refine ⟨?_, h2⟩
    simp [h1, encoder.store_slot, store]
  · simp [hc] at h

theorem field_set_offset_eq (t pos : Nat) (bnd : binding) (f off : Nat) (el : element_type)
    (hk : (s.table t)[f]? = some (.vector el)) :
    field_set_offset f off (encoder.mk s b (.table t pos bnd :: st) none) =
      encoder.mk s (store b (s.table t) pos f (u64 off)) (.table t pos bnd :: st) none := by
  unfold field_set_offset
  simp [hk, encoder.store_slot, store]

theorem table_cancel_eq (t pos : Nat) (bnd : binding) :
    table_cancel (encoder.mk s b (.table t pos bnd :: st) none) =
      encoder.mk s (b.take pos) st none := by
  simp [table_cancel]

theorem table_end_element_eq (t pos : Nat) (el : element_type) (p : Nat)
    (els : List (List Nat)) (bnd : binding) :
    table_end (encoder.mk s b (.table t pos .element :: .vector el p els bnd :: st) none) =
      encoder.mk s b (.vector el p (els ++ [u64 pos]) bnd :: st) none := by
  simp [table_end, encoder.bind]

theorem table_end_standalone_eq (t pos : Nat) :
    table_end (encoder.mk s b (.table t pos .standalone :: st) none) =
      encoder.mk s b st none := by
  simp [table_end, encoder.bind]

theorem vector_push_offset_eq (t p off : Nat) (els : List (List Nat)) (bnd : binding) :
    vector_push_offset off (encoder.mk s b (.vector (.table t) p els bnd :: st) none) =
      encoder.mk s b (.vector (.table t) p (els ++ [u64 off]) bnd :: st) none := by
  simp [vector_push_offset]

theorem field_vector_start_eq (t pos : Nat) (bnd : binding) (f : Nat) (el : element_type)
    (hk : (s.table t)[f]? = some (.vector el)) :
    field_vector_start f (encoder.mk s b (.table t pos bnd :: st) none) =
      encoder.mk s b (.vector el b.length [] (.field f) :: .table t pos bnd :: st) none := by
  simp [field_vector_start, hk]

theorem vector_start_eq (t pos : Nat) (bnd : binding) (el : element_type) :
    vector_start el (encoder.mk s b (.table t pos bnd :: st) none) =
      encoder.mk s b (.vector el b.length [] .standalone :: .table t pos bnd :: st) none := by
  simp [vector_start]

theorem vector_push_eq (el : element_type) (k : scalar_type) (hk : el.scalar_type = some k)
    (p : Nat) (els : List (List Nat)) (bnd : binding) (v : Int) :
    vector_push v (encoder.mk s b (.vector el p els bnd :: st) none) =
      encoder.mk s b (.vector el p (els ++ [encode_scalar k v]) bnd :: st) none := by
  simp [vector_push, hk]

theorem vector_push_string_eq (p : Nat) (els : List (List Nat)) (bnd : binding) (x : List Nat)
    (h : (vector_push_string x
      (encoder.mk s b (.vector .string p els bnd :: st) none)).error = none) :
    vector_push_string x (encoder.mk s b (.vector .string p els bnd :: st) none) =
        encoder.mk s (b ++ encode_string x)
          (.vector .string p (els ++ [u64 b.length]) bnd :: st) none ∧
      b.length + (8 + x.length) < 2 ^ 64 := by
  unfold vector_push_string at h ⊢
  simp only [ne_eq, not_true_eq_false, if_false] at h ⊢
  by_cases hc : ((encoder.mk s b (.vector .string p els bnd :: st) none).append
      (encode_string x)).error = none
  · obtain ⟨h1, h2⟩ := append_eq s b _ _ hc
    rw [encode_string_length] at h2
    refine ⟨?_, h2⟩
    simp [h1]
  · simp [hc] at h

theorem vector_cancel_eq (el : element_type) (p : Nat) (els : List (List Nat)) (bnd : binding) :
    vector_cancel (encoder.mk s b (.vector el p els bnd :: st) none) =
      encoder.mk s (b.take p) st none := by
  simp [vector_cancel]

theorem vector_end_field_eq (el : element_type) (p : Nat) (els : List (List Nat)) (f : Nat)
    (t pos : Nat) (bnd : binding)
    (h : (vector_end (encoder.mk s b
      (.vector el p els (.field f) :: .table t pos bnd :: st) none)).error = none) :
    vector_end (encoder.mk s b (.vector el p els (.field f) :: .table t pos bnd :: st) none) =
        encoder.mk s (store (b ++ (vector_header el els.length ++ els.flatten)) (s.table t) pos f
          (u64 b.length)) (.table t pos bnd :: st) none ∧
      b.length + (vector_header el els.length ++ els.flatten).length < 2 ^ 64 ∧
      els.length * element_width el < 2 ^ 64 := by
  unfold vector_end at h ⊢
  simp only [ne_eq, not_true_eq_false, if_false] at h ⊢
  by_cases hv : 2 ^ 64 ≤ els.length * element_width el
  · rw [if_pos hv] at h; cases h
  · rw [if_neg hv] at h ⊢
    by_cases hc : ((encoder.mk s b
        (.vector el p els (.field f) :: .table t pos bnd :: st) none).append
        (vector_header el els.length ++ els.flatten)).error = none
    · obtain ⟨h1, h2⟩ := append_eq s b _ _ hc
      simp only [h1, not_true_eq_false, if_false]
      exact ⟨by simp [encoder.bind, encoder.store_slot, store], h2, by omega⟩
    · simp [hc] at h

theorem vector_end_standalone_eq (el : element_type) (p : Nat) (els : List (List Nat))
    (h : (vector_end (encoder.mk s b (.vector el p els .standalone :: st) none)).error = none) :
    vector_end (encoder.mk s b (.vector el p els .standalone :: st) none) =
        encoder.mk s (b ++ (vector_header el els.length ++ els.flatten)) st none ∧
      b.length + (vector_header el els.length ++ els.flatten).length < 2 ^ 64 ∧
      els.length * element_width el < 2 ^ 64 := by
  unfold vector_end at h ⊢
  simp only [ne_eq, not_true_eq_false, if_false] at h ⊢
  by_cases hv : 2 ^ 64 ≤ els.length * element_width el
  · rw [if_pos hv] at h; cases h
  · rw [if_neg hv] at h ⊢
    by_cases hc : ((encoder.mk s b (.vector el p els .standalone :: st) none).append
        (vector_header el els.length ++ els.flatten)).error = none
    · obtain ⟨h1, h2⟩ := append_eq s b _ _ hc
      simp only [h1, not_true_eq_false, if_false]
      exact ⟨by simp [encoder.bind], h2, by omega⟩
    · simp [hc] at h

end

/-! ## Lemmas on building a table -/

theorem slot_holds_store_other {b : List Nat} {T : table_def} {pos f g hi : Nat} {x : List Nat}
    {ft : field_type} (hf : T[f]? = some ft) (hx : x.length = slot_size ft)
    (hb : pos + table_size T ≤ b.length) (hg : g < T.length) (hne : g ≠ f)
    {r : Option element_value} (h : slot_holds (pos + table_size T) hi b T pos g r) :
    slot_holds (pos + table_size T) hi (store b T pos f x) T pos g r := by
  have hp := test_presence_store_other b T pos f x hf hx hb g hne hg
  match r, h with
  | none, h => exact hp.trans h
  | some (.scalar y), ⟨h1, k, hk, hst⟩ =>
    refine ⟨hp.trans h1, k, hk, ?_⟩
    rcases hk with hk | hk
    · exact stored_store_other b T pos f x hf hx hb g hk hne _ (encode_scalar_length k y) hst
    · exact stored_store_other b T pos f x hf hx hb g hk hne _ (encode_scalar_length k y) hst
  | some (.string y), ⟨h1, hk, off, hst, hstr⟩ =>
    refine ⟨hp.trans h1, hk, off, ?_, ?_⟩
    · exact stored_store_other b T pos f x hf hx hb g hk hne _ (u64_length off) hst
    · exact stored_in_congr (agree_store b T pos f x hf hx hb _ _ (Or.inr (le_refl _))) hstr

/-- Storing a value in field `f` of a table: the other fields keep what they
hold. -/
theorem is_table_in_store {b : List Nat} {T : table_def} {pos f : Nat} {x : List Nat}
    {ft : field_type} (hf : T[f]? = some ft) (hx : x.length = slot_size ft)
    (hb : pos + table_size T ≤ b.length) {r : Nat → Option element_value}
    (h : is_table_in pos b.length b T pos r) (v : element_value)
    (hv : slot_holds (pos + table_size T) b.length (store b T pos f x) T pos f (some v)) :
    is_table_in pos (store b T pos f x).length (store b T pos f x) T pos
      (fun g => if f = g then some v else r g) := by
  rw [store_length b T pos f x hf hx hb]
  refine ⟨le_refl _, hb, fun g hg => ?_⟩
  by_cases hgf : f = g
  · subst hgf
    simpa using hv
  · simp only [hgf, if_false]
    exact slot_holds_store_other hf hx hb hg (fun h => hgf h.symm) (h.2.2 g hg)

theorem write_valid_scalar {T : table_def} {f : Nat} {x : Int}
    (h : write_valid T (f, .scalar x) = true) :
    ∃ k, (T[f]? = some (.single (.scalar k)) ∨ T[f]? = some (.single (.enum k))) ∧
      in_range k x := by
  unfold write_valid at h
  split at h
  · next k y h1 h2 => cases h2; exact ⟨k, Or.inl h1, by simpa using h⟩
  · next k y h1 h2 => cases h2; exact ⟨k, Or.inr h1, by simpa using h⟩
  · next h2 => cases h2
  · cases h

theorem write_valid_string {T : table_def} {f : Nat} {x : List Nat}
    (h : write_valid T (f, .string x) = true) : T[f]? = some (.single .string) := by
  unfold write_valid at h
  split at h
  · next h2 => cases h2
  · next h2 => cases h2
  · next h1 h2 => exact h1
  · cases h

theorem run_writes_spec (s : schema) (t pos : Nat) (bnd : binding) (st : List scope) :
    ∀ (ws : List (Nat × element_value)) (b : List Nat) (r : Nat → Option element_value),
      (∀ w ∈ ws, write_valid (s.table t) w = true) →
      pos + table_size (s.table t) ≤ b.length →
      is_table_in pos b.length b (s.table t) pos r →
      (run_writes ws (encoder.mk s b (.table t pos bnd :: st) none)).error = none →
      ∃ b1, run_writes ws (encoder.mk s b (.table t pos bnd :: st) none) =
          encoder.mk s b1 (.table t pos bnd :: st) none ∧
        b1.length = b.length + writes_bytes ws ∧ (b.length < 2 ^ 64 → b1.length < 2 ^ 64) ∧
        agree 0 pos b b1 ∧
        is_table_in pos b1.length b1 (s.table t) pos
          (fun g => ws.foldl (fun r w => if w.1 = g then some w.2 else r) (r g)) := by
  intro ws
  induction ws with
  | nil =>
    intro b r _ _ ht _
    exact ⟨b, rfl, rfl, id, agree_refl _ _ _, ht⟩
  | cons w ws ih =>
    intro b r hv hb ht hok
    have hvw := hv w (List.mem_cons_self _ _)
    have hvs : ∀ w1 ∈ ws, write_valid (s.table t) w1 = true := fun w1 h1 =>
      hv w1 (List.mem_cons_of_mem _ h1)
    have hok1 : (run_write w (encoder.mk s b (.table t pos bnd :: st) none)).error = none :=
      error_none_of (fun e h => run_writes_error h) hok
    obtain ⟨f, v⟩ := w
    change (run_writes ws (run_write (f, v) _)).error = none at hok
    change ∃ b1, run_writes ws (run_write (f, v) _) = _ ∧ _
    cases v with
    | scalar x =>
      obtain ⟨k, hk, _⟩ := write_valid_scalar hvw
      have hft : ∃ ft, (s.table t)[f]? = some ft ∧ (encode_scalar k x).length = slot_size ft := by
        rcases hk with hk | hk
        · exact ⟨_, hk, encode_scalar_length k x⟩
        · exact ⟨_, hk, encode_scalar_length k x⟩
      obtain ⟨ft, hft, hx⟩ := hft
      have he : run_write (f, .scalar x) (encoder.mk s b (.table t pos bnd :: st) none) =
          encoder.mk s (store b (s.table t) pos f (encode_scalar k x))
            (.table t pos bnd :: st) none := field_set_eq s b st t pos bnd f x k hk
      rw [he] at hok ⊢
      have hlen := store_length b (s.table t) pos f _ hft hx hb
      have ht1 := is_table_in_store hft hx hb ht (.scalar x)
        ⟨test_presence_store_same b _ pos f _ hft hx hb, k, hk,
          stored_store_same b _ pos f _ hft hx hb⟩
      obtain ⟨b1, h1, h2, h3, h4, h5⟩ := ih _ _ hvs (by omega) ht1 hok
      refine ⟨b1, h1, by rw [h2, hlen]; rfl, fun h => h3 (by omega), ?_, h5⟩
      exact agree_trans (agree_store b _ pos f _ hft hx hb 0 pos (Or.inl (le_refl _))) h4
    | string x =>
      have hk := write_valid_string hvw
      have hx : (u64 b.length).length = slot_size (.single .string) := u64_length _
      obtain ⟨he, hlt⟩ := field_create_eq s b st t pos bnd f x hk hok1
      have he1 : run_write (f, .string x) (encoder.mk s b (.table t pos bnd :: st) none) = _ := he
      rw [he1] at hok ⊢
      have hb1 : pos + table_size (s.table t) ≤ (b ++ encode_string x).length := by
        simp; omega
      have hlen := store_length (b ++ encode_string x) (s.table t) pos f _ hk hx hb1
      have happ : is_table_in pos (b ++ encode_string x).length (b ++ encode_string x)
          (s.table t) pos r :=
        is_table_in_mono (is_table_in_congr (agree_append pos b _) ht) (le_refl _) (by simp)
      have ht1 := is_table_in_store hk hx hb1 happ (.string x)
        ⟨test_presence_store_same _ _ pos f _ hk hx hb1, hk, b.length,
          stored_store_same _ _ pos f _ hk hx hb1,
          stored_in_congr (agree_store _ _ pos f _ hk hx hb1 _ _ (Or.inr (le_refl _)))
            ⟨hb, by simp, stored_append_right b _⟩⟩
      obtain ⟨b1, h1, h2, h3, h4, h5⟩ := ih _ _ hvs (by omega) ht1 hok
      have hl2 : (b ++ encode_string x).length = b.length + (8 + x.length) := by
        simp [encode_string_length]
      refine ⟨b1, h1, by rw [h2, hlen, hl2]; simp only [writes_bytes]; omega,
        fun _ => h3 (by omega), ?_, h5⟩
      exact agree_trans (agree_trans (agree_mono (agree_append 0 b _) (le_refl _) (by omega))
        (agree_store _ _ pos f _ hk hx hb1 0 pos (Or.inl (le_refl _)))) h4

/-! ## Lemmas on building a vector -/

theorem is_table_in_zeros (b : List Nat) (T : table_def) :
    is_table_in b.length (b ++ List.replicate (table_size T) 0).length
      (b ++ List.replicate (table_size T) 0) T b.length (fun _ => none) :=
  ⟨le_refl _, by simp, fun g _ => test_presence_zeros b _ g⟩

theorem run_element_spec (s : schema) (t : Nat) (ip : Bool) (el : element_build)
    (b : List Nat) (p : Nat) (els : List (List Nat)) (bnd : binding) (st : List scope)
    (ht : t < s.tables.length) (hv : ∀ w ∈ el.writes, write_valid (s.table t) w = true)
    (hb : b.length < 2 ^ 64)
    (hok : (run_element t ip el
      (encoder.mk s b (.vector (.table t) p els bnd :: st) none)).error = none) :
    ∃ b1, run_element t ip el (encoder.mk s b (.vector (.table t) p els bnd :: st) none) =
        encoder.mk s b1
          (.vector (.table t) p (if el.ended then els ++ [u64 b.length] else els) bnd :: st)
          none ∧
      b.length ≤ b1.length ∧ b1.length < 2 ^ 64 ∧ agree 0 b.length b b1 ∧
      (el.ended = true → is_table_in b.length b1.length b1 (s.table t) b.length
        (record_of el.writes)) ∧
      (el.ended = false → b1 = b) ∧
      b1.length ≤ b.length + (table_size (s.table t) + writes_bytes el.writes) := by
  unfold run_element at hok ⊢
  dsimp only at hok ⊢
  have hl : table_start_legal (encoder.mk s b (.vector (.table t) p els bnd :: st) none) t
      (if ip = true then binding.element else binding.standalone) = true := by
    cases ip <;> simp [table_start_legal]
  have hok2 : (run_writes el.writes (table_start t
      (if ip = true then binding.element else binding.standalone)
      (encoder.mk s b (.vector (.table t) p els bnd :: st) none))).error = none := by
    by_cases he : el.ended = true
    · rw [if_pos he] at hok
      by_cases hip : ip = true
      · rw [if_pos hip] at hok
        exact error_none_of (fun e h => table_end_error h) hok
      · rw [if_neg hip] at hok
        exact error_none_of (fun e h => table_end_error h)
          (error_none_of (fun e h => vector_push_offset_error h) hok)
    · rw [if_neg he] at hok
      exact error_none_of (fun e h => table_cancel_error h) hok
  have hok1 := error_none_of (fun e h => run_writes_error h) hok2
  obtain ⟨h1, h1b⟩ := table_start_eq s b _ t _ ht hl hok1
  rw [h1] at hok2 hok ⊢
  obtain ⟨b2, h2, h2a, h2b, h2c, h2d⟩ := run_writes_spec s t b.length _ _ el.writes _ _ hv
    (by simp) (is_table_in_zeros b (s.table t)) hok2
  rw [h2] at hok ⊢
  have hlen : (b ++ List.replicate (table_size (s.table t)) 0).length =
      b.length + table_size (s.table t) := by simp
  have hag : agree 0 b.length b b2 :=
    agree_trans (agree_append 0 b _) h2c
  by_cases he : el.ended = true
  · rw [if_pos he, if_pos he]
    refine ⟨b2, ?_, by omega, h2b (by omega), hag, fun _ => h2d, fun h => ?_, by omega⟩
    · by_cases hip : ip = true
      · rw [if_pos hip, if_pos hip, table_end_element_eq]
      · rw [if_neg hip, if_neg hip, table_end_standalone_eq, vector_push_offset_eq]
        rfl
    · rw [he] at h; cases h
  · rw [if_neg he, if_neg he, table_cancel_eq, take_eq_of_agree hag]
    exact ⟨b, rfl, le_refl _, hb, agree_refl _ _ _, fun h => absurd h he, fun _ => rfl,
      by omega⟩

theorem run_elements_spec (s : schema) (t : Nat) (ip : Bool) (p : Nat) (bnd : binding)
    (st : List scope) (ht : t < s.tables.length) :
    ∀ (elements : List element_build) (b : List Nat) (els : List (List Nat)),
      (∀ el ∈ elements, ∀ w ∈ el.writes, write_valid (s.table t) w = true) →
      b.length < 2 ^ 64 →
      (elements.foldl (fun e el => run_element t ip el e)
        (encoder.mk s b (.vector (.table t) p els bnd :: st) none)).error = none →
      ∃ b1 offs, elements.foldl (fun e el => run_element t ip el e)
          (encoder.mk s b (.vector (.table t) p els bnd :: st) none) =
          encoder.mk s b1 (.vector (.table t) p (els ++ offs.map u64) bnd :: st) none ∧
        b.length ≤ b1.length ∧ b1.length < 2 ^ 64 ∧ agree 0 b.length b b1 ∧
        List.Forall₂ (fun o (x : element_build) =>
          is_table_in b.length b1.length b1 (s.table t) o (record_of x.writes))
          offs (ended_elements elements) ∧
        b1.length ≤ b.length + content_bytes s (.tables t ip elements) := by
  intro elements
  induction elements with
  | nil =>
    intro b els _ hb _
    exact ⟨b, [], by simp, le_refl _, hb, agree_refl _ _ _, by simp [ended_elements],
      by simp [content_bytes]⟩
  | cons el elements ih =>
    intro b els hv hb hok
    rw [List.foldl_cons] at hok ⊢
    have hok1 := error_none_of
      (fun e h => foldl_error (fun e el => run_element t ip el e)
        (fun _ _ h => run_element_error h) elements h) hok
    obtain ⟨b1, h1, h1a, h1b, h1c, h1d, h1e, h1f⟩ := run_element_spec s t ip el b p els bnd
      st ht (hv el (List.mem_cons_self _ _)) hb hok1
    rw [h1] at hok ⊢
    obtain ⟨b2, offs, h2, h2a, h2b, h2c, h2d, h2e⟩ := ih b1 _
      (fun x hx => hv x (List.mem_cons_of_mem _ hx)) h1b hok
    have hbytes : b2.length ≤ b.length + content_bytes s (.tables t ip (el :: elements)) := by
      simp only [content_bytes, List.map_cons, List.sum_cons] at h2e ⊢
      omega
    have hrest : List.Forall₂ (fun o (x : element_build) =>
        is_table_in b.length b2.length b2 (s.table t) o (record_of x.writes))
        offs (ended_elements elements) :=
      h2d.imp (fun _ _ h => is_table_in_mono h h1a (le_refl _))
    by_cases he : el.ended = true
    · refine ⟨b2, b.length :: offs, ?_, by omega, h2b, ?_, ?_, hbytes⟩
      · rw [h2, if_pos he]; simp
      · exact agree_trans h1c (agree_mono h2c (le_refl _) h1a)
      · have : ended_elements (el :: elements) = el :: ended_elements elements := by
          simp [ended_elements, he]
        rw [this]
        refine List.Forall₂.cons ?_ hrest
        exact is_table_in_mono (is_table_in_congr (agree_mono h2c (Nat.zero_le _) (le_refl _))
          (h1d he)) (le_refl _) h2a
    · refine ⟨b2, offs, ?_, by omega, h2b, ?_, ?_, hbytes⟩
      · rw [h2, if_neg he]
      · exact agree_trans h1c (agree_mono h2c (le_refl _) h1a)
      · have : ended_elements (el :: elements) = ended_elements elements := by
          simp [ended_elements, he]
        rw [this]
        exact hrest

theorem vector_push_strings_spec (s : schema) (p : Nat) (bnd : binding) (st : List scope) :
    ∀ (ss : List (List Nat)) (b : List Nat) (els : List (List Nat)),
      b.length < 2 ^ 64 →
      (vector_push_strings ss
        (encoder.mk s b (.vector .string p els bnd :: st) none)).error = none →
      ∃ b1 offs, vector_push_strings ss
          (encoder.mk s b (.vector .string p els bnd :: st) none) =
          encoder.mk s b1 (.vector .string p (els ++ offs.map u64) bnd :: st) none ∧
        b.length ≤ b1.length ∧ b1.length < 2 ^ 64 ∧ agree 0 b.length b b1 ∧
        List.Forall₂ (fun o x => is_string_in b.length b1.length b1 o x) offs ss ∧
        b1.length ≤ b.length + content_bytes s (.strings ss) := by
  intro ss
  induction ss with
  | nil =>
    intro b els hb _
    exact ⟨b, [], by simp [vector_push_strings], le_refl _, hb, agree_refl _ _ _, by simp,
      by simp [content_bytes]⟩
  | cons x ss ih =>
    intro b els hb hok
    unfold vector_push_strings at hok ⊢
    rw [List.foldl_cons] at hok ⊢
    have hok1 := error_none_of
      (fun e h => foldl_error (fun e x => vector_push_string x e)
        (fun _ _ h => vector_push_string_error h) ss h) hok
    obtain ⟨h1, h1b⟩ := vector_push_string_eq s b st p els bnd x hok1
    rw [h1] at hok ⊢
    have hlen : (b ++ encode_string x).length = b.length + (8 + x.length) := by
      simp [encode_string_length]
    obtain ⟨b2, offs, h2, h2a, h2b, h2c, h2d, h2e⟩ := ih (b ++ encode_string x) _ (by omega) hok
    have hbytes : b2.length ≤ b.length + content_bytes s (.strings (x :: ss)) := by
      simp only [content_bytes, List.map_cons, List.sum_cons] at h2e ⊢
      omega
    refine ⟨b2, b.length :: offs, ?_, by omega, h2b, ?_, ?_, hbytes⟩
    · unfold vector_push_strings at h2
      rw [h2]; simp
    · exact agree_trans (agree_append 0 b _) (agree_mono h2c (le_refl _) (by omega))
    · refine List.Forall₂.cons ?_ (h2d.imp (fun _ _ h => stored_in_mono h (by omega) (le_refl _)))
      exact stored_in_mono (stored_in_congr (agree_mono h2c (Nat.zero_le _) (le_refl _))
        ⟨le_refl _, by simp, stored_append_right b _⟩) (le_refl _) (by omega)

theorem vector_push_all_spec (s : schema) (el : element_type) (k : scalar_type)
    (hk : el.scalar_type = some k) (p : Nat) (bnd : binding) (st : List scope) (b : List Nat) :
    ∀ (vs : List Int) (els : List (List Nat)),
      vector_push_all vs (encoder.mk s b (.vector el p els bnd :: st) none) =
        encoder.mk s b (.vector el p (els ++ vs.map (encode_scalar k)) bnd :: st) none := by
  intro vs
  induction vs with
  | nil => intro els; simp [vector_push_all]
  | cons v vs ih =>
    intro els
    unfold vector_push_all at ih ⊢
    rw [List.foldl_cons, vector_push_eq s b st el k hk, ih]
    simp

/-! ## Lemmas on a block and on a session -/

theorem block_valid_fits {s : schema} {blk : block} (h : block_valid s blk = true) :
    ∃ el, (s.table s.root)[blk.field]? = some (.vector el) ∧ content_fits s el blk.content := by
  unfold block_valid at h
  split at h
  · next k vs h1 h2 => exact ⟨_, h1, by rw [h2]; exact ⟨k, rfl⟩⟩
  · next k vs h1 h2 => exact ⟨_, h1, by rw [h2]; exact ⟨k, rfl⟩⟩
  · next ss h1 h2 => exact ⟨_, h1, by rw [h2]; rfl⟩
  · next t1 t ip els h1 h2 =>
    simp only [Bool.and_eq_true, decide_eq_true_eq, List.all_eq_true] at h
    obtain ⟨⟨h3, h4⟩, h5⟩ := h
    subst h3
    exact ⟨_, h1, by rw [h2]; exact ⟨rfl, h4, h5⟩⟩
  · cases h

theorem run_content_spec (s : schema) (el : element_type) (c : content)
    (hfit : content_fits s el c) (b : List Nat) (bnd : binding) (st : List scope)
    (hb : b.length < 2 ^ 64)
    (hok : (run_content c (encoder.mk s b (.vector el b.length [] bnd :: st) none)).error = none) :
    ∃ b1 els, run_content c (encoder.mk s b (.vector el b.length [] bnd :: st) none) =
        encoder.mk s b1 (.vector el b.length els bnd :: st) none ∧
      b.length ≤ b1.length ∧ b1.length < 2 ^ 64 ∧ agree 0 b.length b b1 ∧
      is_vector_in s b.length (b1 ++ (vector_header el els.length ++ els.flatten)).length
        (b1 ++ (vector_header el els.length ++ els.flatten)) el b1.length c ∧
      b1.length ≤ b.length + content_bytes s c ∧
      (vector_header el els.length ++ els.flatten).length = vector_bytes el c ∧
      els.length * element_width el ≤ vector_bytes el c := by
  have hlen8 : ∀ offs : List Nat, ∀ x ∈ offs.map u64, x.length = 8 := by
    intro offs x hx
    obtain ⟨y, _, rfl⟩ := List.mem_map.mp hx
    exact u64_length y
  cases c with
  | scalars vs =>
    obtain ⟨k, hk⟩ := hfit
    have hlenw : ∀ x ∈ vs.map (encode_scalar k), x.length = k.width := by
      intro x hx
      obtain ⟨y, _, rfl⟩ := List.mem_map.mp hx
      exact encode_scalar_length k y
    refine ⟨b, _, vector_push_all_spec s el k hk _ bnd st b vs [], le_refl _, hb,
      agree_refl _ _ _, ⟨k, hk, le_refl _, by simp, ?_⟩, by simp [content_bytes], ?_, ?_⟩
    · simpa using stored_append_right b
        (vector_header el vs.length ++ (vs.map (encode_scalar k)).flatten)
    · rw [List.length_append, vector_header_length_scalar hk, List.nil_append,
        flatten_length_of _ hlenw, List.length_map, vector_bytes, (header_of_scalar hk 0).2]
    · rw [List.nil_append, List.length_map, vector_bytes]; omega
  | strings ss =>
    have hel : el = .string := hfit
    subst hel
    obtain ⟨b1, offs, h1, h2, h3, h4, h5, h6⟩ := vector_push_strings_spec s b.length bnd st ss
      b [] hb hok
    refine ⟨b1, _, h1, h2, h3, h4, ⟨rfl, offs, ?_, ?_⟩, h6, ?_, ?_⟩
    · exact h5.imp (fun _ _ h => stored_in_mono (stored_in_congr
        (agree_mono (agree_append 0 b1 _) (Nat.zero_le _) (le_refl _)) h) (le_refl _) (by simp))
    · simp only [List.nil_append, List.length_map, h5.length_eq]
      exact ⟨h2, by simp, stored_append_right b1 _⟩
    · rw [List.length_append, List.nil_append, flatten_length_of _ (hlen8 offs),
        List.length_map, h5.length_eq]
      simp [vector_header, u64_length, vector_bytes, element_width]
    · rw [List.nil_append, List.length_map, h5.length_eq]
      simp [vector_bytes, element_width]
  | tables t ip elements =>
    obtain ⟨hel, ht, hv⟩ := hfit
    subst hel
    obtain ⟨b1, offs, h1, h2, h3, h4, h5, h6⟩ := run_elements_spec s t ip b.length bnd st ht
      elements b [] hv hb hok
    refine ⟨b1, _, h1, h2, h3, h4, ⟨rfl, offs, ?_, ?_⟩, h6, ?_, ?_⟩
    · exact h5.imp (fun _ _ h => is_table_in_mono (is_table_in_congr
        (agree_mono (agree_append 0 b1 _) (Nat.zero_le _) (le_refl _)) h) (le_refl _) (by simp))
    · simp only [List.nil_append, List.length_map, h5.length_eq]
      exact ⟨h2, by simp, stored_append_right b1 _⟩
    · rw [List.length_append, List.nil_append, flatten_length_of _ (hlen8 offs),
        List.length_map, h5.length_eq]
      simp [vector_header, u64_length, vector_bytes]
    · rw [List.nil_append, List.length_map, h5.length_eq]
      simp [vector_bytes, element_width]

theorem run_block_standalone (f t : Nat) (elements : List element_build) (ended : Bool)
    (e : encoder) :
    run_block ⟨f, .tables t false elements, ended⟩ e =
      if ended = true then
        field_set_offset f
          (vector_end_offset (run_content (.tables t false elements) (vector_start (.table t) e)))
          (vector_end (run_content (.tables t false elements) (vector_start (.table t) e)))
      else vector_cancel (run_content (.tables t false elements) (vector_start (.table t) e)) :=
  rfl

theorem run_block_field (f : Nat) (c : content) (ended : Bool) (e : encoder)
    (hc : ∀ t elements, c ≠ .tables t false elements) :
    run_block ⟨f, c, ended⟩ e =
      if ended = true then vector_end (run_content c (field_vector_start f e))
      else vector_cancel (run_content c (field_vector_start f e)) := by
  cases c with
  | scalars vs => rfl
  | strings ss => rfl
  | tables t ip elements =>
    cases ip with
    | false => exact absurd rfl (hc t elements)
    | true => rfl

theorem run_block_spec (s : schema) (blk : block) (b : List Nat) (w : Nat → Option content)
    (hv : block_valid s blk = true) (hz : table_size (s.table s.root) ≤ b.length)
    (hb : b.length < 2 ^ 64)
    (hw : ∀ f, f < (s.table s.root).length → output_holds s b f (w f))
    (hok : (run_block blk (encoder.mk s b [.table s.root 0 .root] none)).error = none) :
    ∃ b1, run_block blk (encoder.mk s b [.table s.root 0 .root] none) =
        encoder.mk s b1 [.table s.root 0 .root] none ∧
      table_size (s.table s.root) ≤ b1.length ∧ b1.length < 2 ^ 64 ∧
      (∀ f, f < (s.table s.root).length →
        output_holds s b1 f
          (if blk.ended = true ∧ blk.field = f then some blk.content else w f)) ∧
      b1.length ≤ b.length + block_bytes s blk := by
  obtain ⟨el, hel, hfit⟩ := block_valid_fits hv
  have hbb : block_bytes s blk = content_bytes s blk.content + vector_bytes el blk.content := by
    simp [block_bytes, hel]
  have hx : ∀ off, (u64 off).length = slot_size (.vector el) := fun off => u64_length off
  -- the state after the pushes, whichever way the block was started
  have key : ∀ (bnd : binding) (e2 : encoder),
      e2 = run_content blk.content
        (encoder.mk s b [.vector el b.length [] bnd, .table s.root 0 .root] none) →
      e2.error = none →
      ∃ b2 els, e2 = encoder.mk s b2 [.vector el b.length els bnd, .table s.root 0 .root] none ∧
        b.length ≤ b2.length ∧ b2.length < 2 ^ 64 ∧ agree 0 b.length b b2 ∧
        is_vector_in s b.length (b2 ++ (vector_header el els.length ++ els.flatten)).length
          (b2 ++ (vector_header el els.length ++ els.flatten)) el b2.length blk.content ∧
        b2.length ≤ b.length + content_bytes s blk.content ∧
        (vector_header el els.length ++ els.flatten).length = vector_bytes el blk.content ∧
        els.length * element_width el ≤ vector_bytes el blk.content := by
    intro bnd e2 he2 hok2
    subst he2
    exact run_content_spec s el blk.content hfit b bnd _ hb hok2
  -- the end of the block
  have fin : ∀ (b2 : List Nat) (els : List (List Nat)),
      b.length ≤ b2.length → agree 0 b.length b b2 →
      (b2 ++ (vector_header el els.length ++ els.flatten)).length < 2 ^ 64 →
      is_vector_in s b.length (b2 ++ (vector_header el els.length ++ els.flatten)).length
          (b2 ++ (vector_header el els.length ++ els.flatten)) el b2.length blk.content →
      blk.ended = true →
      b2.length ≤ b.length + content_bytes s blk.content →
      (vector_header el els.length ++ els.flatten).length = vector_bytes el blk.content →
      ∃ b1, store (b2 ++ (vector_header el els.length ++ els.flatten)) (s.table s.root) 0
          blk.field (u64 b2.length) = b1 ∧
        table_size (s.table s.root) ≤ b1.length ∧ b1.length < 2 ^ 64 ∧
        (∀ f, f < (s.table s.root).length →
          output_holds s b1 f
            (if blk.ended = true ∧ blk.field = f then some blk.content else w f)) ∧
        b1.length ≤ b.length + block_bytes s blk := by
    intro b2 els h2a h2c hlt hvec hend hcb hvb
    have hz3 : 0 + table_size (s.table s.root) ≤
        (b2 ++ (vector_header el els.length ++ els.flatten)).length := by
      rw [List.length_append]; omega
    have hlen := store_length _ (s.table s.root) 0 blk.field (u64 b2.length) hel (hx _) hz3
    refine ⟨_, rfl, by omega, by omega, fun f hf => ?_, by
      rw [hlen, List.length_append, hvb, hbb]; omega⟩
    by_cases hff : blk.field = f
    · subst hff
      simp only [hend, and_self, if_true]
      refine ⟨test_presence_store_same _ _ 0 _ _ hel (hx _) hz3, el, b2.length, hel, ?_, ?_⟩
      · simpa using stored_store_same _ _ 0 _ _ hel (hx _) hz3
      · rw [hlen]
        exact is_vector_in_mono (is_vector_in_congr
          (agree_store _ _ 0 _ _ hel (hx _) hz3 _ _ (Or.inr (by omega))) hvec) hz (le_refl _)
    · simp only [hff, and_false, if_false]
      refine output_holds_store hel _ (hx _) hf (fun h => hff h.symm) (by omega) ?_
      exact output_holds_extend hf hz
        (agree_trans h2c (agree_mono (agree_append 0 b2 _) (le_refl _) h2a))
        (by rw [List.length_append]; omega) (hw f hf)
  have cancelled : blk.ended ≠ true →
      ∀ f, f < (s.table s.root).length →
        output_holds s b f
          (if blk.ended = true ∧ blk.field = f then some blk.content else w f) := by
    intro hend f hf
    simp only [hend, false_and, if_false]
    exact hw f hf
  obtain ⟨fld, c, ended⟩ := blk
  dsimp only at hel hfit key fin cancelled hbb ⊢
  by_cases hc : ∃ t elements, c = .tables t false elements
  · obtain ⟨t, elements, hc⟩ := hc
    subst hc
    have hel1 : el = .table t := hfit.1
    subst hel1
    rw [run_block_standalone, vector_start_eq] at hok ⊢
    by_cases hend : ended = true
    · simp only [hend, if_true] at hok ⊢
      have hok3 := error_none_of (fun e h => field_set_offset_error h) hok
      have hok2 := error_none_of (fun e h => vector_end_error h) hok3
      obtain ⟨b2, els, h2, h2a, h2b, h2c, h2d, h2e, h2f, _⟩ := key .standalone _ rfl hok2
      rw [h2] at hok3 hok ⊢
      obtain ⟨h3, h3a, _⟩ := vector_end_standalone_eq s b2 _ (.table t) b.length els hok3
      rw [h3, field_set_offset_eq s _ _ s.root 0 .root fld _ (.table t) hel]
      obtain ⟨b1, hb1, r1, r2, r3, r4⟩ := fin b2 els h2a h2c
        (by rw [List.length_append]; exact h3a) h2d hend h2e h2f
      have : vector_end_offset (encoder.mk s b2
          [.vector (.table t) b.length els .standalone, .table s.root 0 .root] none) =
          b2.length := rfl
      rw [this, hb1]
      exact ⟨b1, rfl, r1, r2, by simpa [hend] using r3, r4⟩
    · simp only [hend, if_false] at hok ⊢
      have hok2 := error_none_of (fun e h => vector_cancel_error h) hok
      obtain ⟨b2, els, h2, h2a, h2b, h2c, h2d⟩ := key .standalone _ rfl hok2
      rw [h2, vector_cancel_eq, take_eq_of_agree h2c]
      exact ⟨b, rfl, hz, hb, by simpa [hend] using cancelled hend, by omega⟩
  · have hc1 : ∀ t elements, c ≠ .tables t false elements := fun t elements h =>
      hc ⟨t, elements, h⟩
    rw [run_block_field _ _ _ _ hc1, field_vector_start_eq s b _ s.root 0 .root fld el hel]
      at hok ⊢
    by_cases hend : ended = true
    · simp only [hend, if_true] at hok ⊢
      have hok2 := error_none_of (fun e h => vector_end_error h) hok
      obtain ⟨b2, els, h2, h2a, h2b, h2c, h2d, h2e, h2f, _⟩ := key (.field fld) _ rfl hok2
      rw [h2] at hok ⊢
      obtain ⟨h3, h3a, _⟩ := vector_end_field_eq s b2 _ el b.length els fld s.root 0
        .root hok
      rw [h3]
      obtain ⟨b1, hb1, r1, r2, r3, r4⟩ := fin b2 els h2a h2c
        (by rw [List.length_append]; exact h3a) h2d hend h2e h2f
      rw [hb1]
      exact ⟨b1, rfl, r1, r2, by simpa [hend] using r3, r4⟩
    · simp only [hend, if_false] at hok ⊢
      have hok2 := error_none_of (fun e h => vector_cancel_error h) hok
      obtain ⟨b2, els, h2, h2a, h2b, h2c, h2d⟩ := key (.field fld) _ rfl hok2
      rw [h2, vector_cancel_eq, take_eq_of_agree h2c]
      exact ⟨b, rfl, hz, hb, by simpa [hend] using cancelled hend, by omega⟩

theorem run_blocks_spec (s : schema) :
    ∀ (blocks : List block) (b : List Nat) (w : Nat → Option content),
      (∀ blk ∈ blocks, block_valid s blk = true) →
      table_size (s.table s.root) ≤ b.length → b.length < 2 ^ 64 →
      (∀ f, f < (s.table s.root).length → output_holds s b f (w f)) →
      (blocks.foldl (fun e blk => run_block blk e)
        (encoder.mk s b [.table s.root 0 .root] none)).error = none →
      ∃ b1, blocks.foldl (fun e blk => run_block blk e)
          (encoder.mk s b [.table s.root 0 .root] none) =
          encoder.mk s b1 [.table s.root 0 .root] none ∧
        table_size (s.table s.root) ≤ b1.length ∧ b1.length < 2 ^ 64 ∧
        (∀ f, f < (s.table s.root).length →
          output_holds s b1 f (blocks.foldl
            (fun r blk => if blk.ended = true ∧ blk.field = f then some blk.content else r)
            (w f))) ∧
        b1.length ≤ b.length + (blocks.map (block_bytes s)).sum := by
  intro blocks
  induction blocks with
  | nil =>
    intro b w _ hz hb hw _
    exact ⟨b, rfl, hz, hb, hw, by simp⟩
  | cons blk blocks ih =>
    intro b w hv hz hb hw hok
    rw [List.foldl_cons] at hok ⊢
    have hok1 := error_none_of
      (fun e h => foldl_error (fun e blk => run_block blk e)
        (fun _ _ h => run_block_error h) blocks h) hok
    obtain ⟨b1, h1, h1a, h1b, h1c, h1d⟩ := run_block_spec s blk b w
      (hv blk (List.mem_cons_self _ _)) hz hb hw hok1
    rw [h1] at hok ⊢
    obtain ⟨b2, h2, h2a, h2b, h2c, h2d⟩ := ih b1 _
      (fun x hx => hv x (List.mem_cons_of_mem _ hx)) h1a h1b h1c hok
    exact ⟨b2, h2, h2a, h2b, h2c, by rw [List.map_cons, List.sum_cons]; omega⟩

theorem output_start_eq (s : schema) (hroot : s.root < s.tables.length)
    (hok : (output_start (encoder_create s)).error = none) :
    output_start (encoder_create s) =
      encoder.mk s (List.replicate (table_size (s.table s.root)) 0)
        [.table s.root 0 .root] none := by
  unfold output_start encoder_create at hok ⊢
  obtain ⟨h1, _⟩ := table_start_eq s [] [] s.root .root hroot (by simp [table_start_legal]) hok
  rw [h1]; simp

theorem output_finish_eq (s : schema) (b : List Nat) :
    output_finish (encoder.mk s b [.table s.root 0 .root] none) = encoder.mk s b [] none := by
  simp [output_finish, table_end, encoder.bind]

/-- An encoding session that reports no failure ends idle, and every field
of the output holds what the last ended block on it pushed. -/
theorem session_spec (s : schema) (blocks : List block) (hroot : s.root < s.tables.length)
    (hv : ∀ blk ∈ blocks, block_valid s blk = true)
    (hok : (session s blocks).error = none) :
    ∃ b, session s blocks = encoder.mk s b [] none ∧
      table_size (s.table s.root) ≤ b.length ∧ b.length < 2 ^ 64 ∧
      ∀ f, f < (s.table s.root).length → output_holds s b f (built blocks f) := by
  unfold session at hok ⊢
  have hok2 := error_none_of (fun e h => output_finish_error h) hok
  have hok1 := error_none_of
    (fun e h => foldl_error (fun e blk => run_block blk e)
      (fun _ _ h => run_block_error h) blocks h) hok2
  have h0 := output_start_eq s hroot hok1
  rw [h0] at hok2 ⊢
  have hlt : table_size (s.table s.root) < 2 ^ 64 := by
    have := (table_start_eq s [] [] s.root .root hroot (by simp [table_start_legal]) hok1).2
    simpa using this
  obtain ⟨b1, h1, h1a, h1b, h1c, _⟩ := run_blocks_spec s blocks _ (fun _ => none) hv
    (by simp) (by simpa using hlt)
    (fun f _ => by simpa using test_presence_zeros [] (table_size (s.table s.root)) f) hok2
  rw [h1, output_finish_eq]
  exact ⟨b1, rfl, h1a, h1b, h1c⟩

theorem linearized_eq (s : schema) (b : List Nat) :
    linearized (encoder.mk s b [] none) = some b := by
  simp [linearized]

theorem output_decode_eq (s : schema) (b : List Nat)
    (h : table_size (s.table s.root) ≤ b.length) :
    output_decode s b = some ⟨s, b, s.root, 0⟩ := by
  simp [output_decode, h]

/-! ## Lemmas on what the decoder reads -/

theorem stored_flatten {b : List Nat} {w : Nat} :
    ∀ (L : List (List Nat)) (off : Nat), (∀ x ∈ L, x.length = w) → stored b off L.flatten →
      ∀ i (h : i < L.length), stored b (off + i * w) (L.get ⟨i, h⟩) := by
  intro L
  induction L with
  | nil => intro off _ _ i h; cases h
  | cons x L ih =>
    intro off hw hs i h
    rw [List.flatten_cons, stored_append_iff] at hs
    cases i with
    | zero => simpa using hs.1
    | succ i =>
      have := ih (off + x.length) (fun y hy => hw y (List.mem_cons_of_mem _ hy)) hs.2 i
        (by simpa using h)
      rw [hw x (List.mem_cons_self _ _)] at this
      have e : off + (i + 1) * w = off + w + i * w := by ring
      rw [e]
      simpa using this

theorem string_at_of {lo hi : Nat} {b : List Nat} {off : Nat} {x : List Nat}
    (h : is_string_in lo hi b off x) (hh : hi ≤ 2 ^ 64) : string_at b off = x := by
  obtain ⟨_, h2, h3⟩ := h
  rw [encode_string_length] at h2
  unfold encode_string at h3
  rw [stored_append_iff, u64_length] at h3
  unfold string_at
  rw [read_u64_of_stored h3.1 (by omega)]
  exact read_bytes_of_stored h3.2

theorem foldl_record_mem (g : Nat) :
    ∀ (ws : List (Nat × element_value)) (r : Option element_value) (x : element_value),
      ws.foldl (fun r w => if w.1 = g then some w.2 else r) r = some x →
      r = some x ∨ (g, x) ∈ ws := by
  intro ws
  induction ws with
  | nil => intro r x h; exact Or.inl h
  | cons w ws ih =>
    intro r x h
    rw [List.foldl_cons] at h
    rcases ih _ x h with h1 | h1
    · by_cases hw : w.1 = g
      · rw [if_pos hw] at h1
        right
        have : w = (g, x) := by
          obtain ⟨a, c⟩ := w
          simp only at hw
          simp only [Option.some.injEq] at h1
          rw [hw, h1]
        rw [this]
        exact List.mem_cons_self _ _
      · rw [if_neg hw] at h1
        exact Or.inl h1
    · exact Or.inr (List.mem_cons_of_mem _ h1)

theorem record_of_mem {ws : List (Nat × element_value)} {g : Nat} {x : element_value}
    (h : record_of ws g = some x) : (g, x) ∈ ws := by
  rcases foldl_record_mem g ws none x h with h1 | h1
  · cases h1
  · exact h1

theorem foldl_record_nodup (g : Nat) (x : element_value) :
    ∀ (ws : List (Nat × element_value)) (r : Option element_value),
      (ws.map Prod.fst).Nodup → (g, x) ∈ ws →
      ws.foldl (fun r w => if w.1 = g then some w.2 else r) r = some x := by
  intro ws
  induction ws with
  | nil => intro r _ h; cases h
  | cons w ws ih =>
    intro r hn hm
    rw [List.foldl_cons]
    rw [List.map_cons, List.nodup_cons] at hn
    rcases List.mem_cons.mp hm with h1 | h1
    · subst h1
      simp only [if_true]
      have hnot : ∀ w1 ∈ ws, w1.1 ≠ g := fun w1 hw1 he =>
        hn.1 (List.mem_map.mpr ⟨w1, hw1, he⟩)
      clear ih hm hn
      induction ws with
      | nil => rfl
      | cons w1 ws ih1 =>
        rw [List.foldl_cons, if_neg (hnot w1 (List.mem_cons_self _ _))]
        exact ih1 (fun w2 h2 => hnot w2 (List.mem_cons_of_mem _ h2))
    · exact ih _ hn.2 h1

theorem record_of_nodup {ws : List (Nat × element_value)} {g : Nat} {x : element_value}
    (hn : (ws.map Prod.fst).Nodup) (hm : (g, x) ∈ ws) : record_of ws g = some x :=
  foldl_record_nodup g x ws none hn hm

theorem foldl_built_nodup (blk : block) :
    ∀ (blocks : List block) (r : Option content),
      (blocks.map block.field).Nodup → blk ∈ blocks →
      blocks.foldl (fun r b1 => if b1.ended = true ∧ b1.field = blk.field then some b1.content
        else r) r = if blk.ended = true then some blk.content else r := by
  intro blocks
  induction blocks with
  | nil => intro r _ h; cases h
  | cons b0 blocks ih =>
    intro r hn hm
    rw [List.foldl_cons]
    rw [List.map_cons, List.nodup_cons] at hn
    rcases List.mem_cons.mp hm with h1 | h1
    · subst h1
      have hnot : ∀ b1 ∈ blocks, b1.field ≠ blk.field := fun b1 hb1 he =>
        hn.1 (List.mem_map.mpr ⟨b1, hb1, he⟩)
      have hrest : ∀ (r1 : Option content),
          blocks.foldl (fun r b1 => if b1.ended = true ∧ b1.field = blk.field then
            some b1.content else r) r1 = r1 := by
        clear ih hm hn
        induction blocks with
        | nil => intro r1; rfl
        | cons b1 blocks ih1 =>
          intro r1
          rw [List.foldl_cons, if_neg (fun h => hnot b1 (List.mem_cons_self _ _) h.2)]
          exact ih1 (fun b2 h2 => hnot b2 (List.mem_cons_of_mem _ h2)) r1
      rw [hrest]
      simp
    · have hne : b0.field ≠ blk.field := fun he =>
        hn.1 (List.mem_map.mpr ⟨blk, h1, he.symm⟩)
      rw [if_neg (fun h => hne h.2)]
      exact ih r hn.2 h1

theorem built_nodup {blocks : List block} {blk : block}
    (hn : (blocks.map block.field).Nodup) (hm : blk ∈ blocks) :
    built blocks blk.field = if blk.ended = true then some blk.content else none :=
  foldl_built_nodup blk blocks none hn hm

theorem scalar_type_unique {T : table_def} {g : Nat} {k1 k : scalar_type}
    (h1 : T[g]? = some (.single (.scalar k1)) ∨ T[g]? = some (.single (.enum k1)))
    (h : T[g]? = some (.single (.scalar k)) ∨ T[g]? = some (.single (.enum k))) : k1 = k := by
  rcases h with h | h <;> rcases h1 with h1 | h1 <;> rw [h] at h1 <;>
    simp only [Option.some.injEq, field_type.single.injEq, element_type.scalar.injEq,
      element_type.enum.injEq, reduceCtorEq] at h1 <;>
    exact h1.symm

theorem slot_holds_decodes {s : schema} {b : List Nat} {t pos g lo hi : Nat}
    {r : Option element_value} (hh : hi ≤ 2 ^ 64)
    (h : slot_holds lo hi b (s.table t) pos g r)
    (hr : ∀ x, r = some (.scalar x) → write_valid (s.table t) (g, .scalar x) = true) :
    field_decodes ⟨s, b, t, pos⟩ g r := by
  match r, h with
  | none, h => exact h
  | some (.scalar x), ⟨h1, k, hk, hst⟩ =>
    refine ⟨h1, fun k1 hk1 => ?_⟩
    have hkk : k1 = k := scalar_type_unique hk1 hk
    subst hkk
    obtain ⟨k2, hk2, hrange⟩ := write_valid_scalar (hr x rfl)
    have hk2k : k2 = k1 := scalar_type_unique hk2 hk
    subst hk2k
    unfold view.get_scalar
    have hp : (view.mk s b t pos).present g = true := h1
    rw [if_pos hp]
    have := read_bytes_of_stored hst
    rw [encode_scalar_length] at this
    change decode_scalar k2 (read_bytes b (pos + slot_offset (s.table t) g) k2.width) = x
    rw [this]
    exact decode_encode_scalar k2 x hrange
  | some (.string x), ⟨h1, hk, off, hst, hstr⟩ =>
    refine ⟨h1, ?_⟩
    unfold view.get_string view.get_offset
    have hp : (view.mk s b t pos).present g = true := h1
    rw [if_pos hp, if_pos hp]
    have hoff : off < 2 ^ 64 := by
      have := hstr.2.1
      rw [encode_string_length] at this
      omega
    change string_at b (read_u64 b (pos + slot_offset (s.table t) g)) = x
    rw [read_u64_of_stored hst hoff]
    exact string_at_of hstr hh

theorem block_valid_scalars {s : schema} {f : Nat} {vs : List Int} {e : Bool}
    (hv : block_valid s ⟨f, .scalars vs, e⟩ = true) {el : element_type} {k : scalar_type}
    (hel : (s.table s.root)[f]? = some (.vector el)) (hk : el.scalar_type = some k) :
    ∀ x ∈ vs, in_range k x := by
  unfold block_valid at hv
  simp only [hel] at hv
  cases el with
  | scalar k1 =>
    cases hk
    simpa using hv
  | enum k1 =>
    cases hk
    simpa using hv
  | string => cases hk
  | table t => cases hk

theorem block_valid_tables {s : schema} {f t : Nat} {ip : Bool} {elements : List element_build}
    {e : Bool} (hv : block_valid s ⟨f, .tables t ip elements, e⟩ = true) :
    ∀ x ∈ elements, ∀ w ∈ x.writes, write_valid (s.table t) w = true := by
  obtain ⟨el, _, hfit⟩ := block_valid_fits hv
  exact hfit.2.2

theorem mem_ended_elements {elements : List element_build} {x : element_build}
    (h : x ∈ ended_elements elements) : x ∈ elements ∧ x.ended = true := by
  unfold ended_elements at h
  simpa using h

/-- The decoder reads back from a field of the output what the field
holds. -/
theorem output_holds_decodes {s : schema} {b : List Nat} {f : Nat} {c : content} {e : Bool}
    (hb : b.length < 2 ^ 64) (h : output_holds s b f (some c))
    (hv : block_valid s ⟨f, c, e⟩ = true) :
    (view.mk s b s.root 0).present f = true ∧ vector_decodes ⟨s, b, s.root, 0⟩ f c := by
  obtain ⟨hp, el, off, hel, hst, hvec⟩ := h
  have hpv : (view.mk s b s.root 0).present f = true := hp
  refine ⟨hpv, ?_⟩
  have hslot : (view.mk s b s.root 0).slot f = slot_offset (s.table s.root) f := by
    simp [view.slot, view.table]
  cases c with
  | scalars vs =>
    obtain ⟨k, hk, hlo, hhi, hs⟩ := hvec
    obtain ⟨hhead, hw⟩ := header_of_scalar hk vs.length
    have hlenw : ∀ x ∈ vs.map (encode_scalar k), x.length = k.width := by
      intro x hx
      obtain ⟨y, _, rfl⟩ := List.mem_map.mp hx
      exact encode_scalar_length k y
    have hfl := flatten_length_of (vs.map (encode_scalar k)) hlenw
    rw [List.length_map] at hfl
    rw [hhead] at hs hhi
    simp only [List.length_append, u64_length, hfl] at hhi
    rw [stored_append_iff, stored_append_iff] at hs
    simp only [List.length_append, u64_length] at hs
    obtain ⟨⟨hs1, hs2⟩, hs3⟩ := hs
    have hoff : off < 2 ^ 64 := by omega
    have hgo : (view.mk s b s.root 0).get_offset f = off := by
      unfold view.get_offset
      rw [if_pos hpv, hslot]
      exact read_u64_of_stored hst hoff
    have hkw := width_pos k
    have hn : vs.length ≤ vs.length * k.width := Nat.le_mul_of_pos_right _ hkw
    have hgl : (view.mk s b s.root 0).get_length f = vs.length * k.width := by
      unfold view.get_length
      rw [if_pos hpv, hgo]
      exact read_u64_of_stored hs2 (by omega)
    refine ⟨?_, fun el1 k1 hel1 hk1 => ?_⟩
    · unfold view.get_count
      rw [if_pos hpv, hgo]
      exact read_u64_of_stored hs1 (by omega)
    · have hee : el1 = el := by
        have : (s.table s.root)[f]? = some (.vector el1) := hel1
        rw [hel] at this
        simpa using this.symm
      subst hee
      have hkk : k1 = k := by rw [hk] at hk1; simpa using hk1.symm
      subst hkk
      refine ⟨hgl, ?_, fun i hi => ?_⟩
      · unfold view.get_values
        rw [if_pos hpv, hgo, hgl, ← hfl]
        exact read_bytes_of_stored hs3
      · unfold view.get_at
        rw [hgo]
        have := stored_flatten (vs.map (encode_scalar k1)) (off + (8 + 8)) hlenw hs3 i
          (by simpa using hi)
        have h2 := read_bytes_of_stored this
        simp only [List.get_eq_getElem, List.getElem_map, encode_scalar_length] at h2
        change decode_scalar k1 (read_bytes b (off + 16 + i * k1.width) k1.width) = _
        rw [h2]
        simp only [List.get_eq_getElem]
        exact decode_encode_scalar k1 _ (block_valid_scalars hv hel hk _ (List.getElem_mem _))
  | strings ss =>
    obtain ⟨hes, offs, hf2, hlo, hhi, hs⟩ := hvec
    subst hes
    have hhead : vector_header .string ss.length = u64 ss.length ++ u64 (ss.length * 8) := rfl
    have hlenw : ∀ x ∈ offs.map u64, x.length = 8 := by
      intro x hx
      obtain ⟨y, _, rfl⟩ := List.mem_map.mp hx
      exact u64_length y
    have hfl := flatten_length_of (offs.map u64) hlenw
    rw [List.length_map, hf2.length_eq] at hfl
    rw [hhead] at hs hhi
    simp only [List.length_append, u64_length, hfl] at hhi
    rw [stored_append_iff, stored_append_iff] at hs
    simp only [List.length_append, u64_length] at hs
    obtain ⟨⟨hs1, hs2⟩, hs3⟩ := hs
    have hoff : off < 2 ^ 64 := by omega
    have hgo : (view.mk s b s.root 0).get_offset f = off := by
      unfold view.get_offset
      rw [if_pos hpv, hslot]
      exact read_u64_of_stored hst hoff
    refine ⟨?_, ?_, fun i hi => ?_⟩
    · unfold view.get_count
      rw [if_pos hpv, hgo]
      exact read_u64_of_stored hs1 (by omega)
    · unfold view.get_length
      rw [if_pos hpv, hgo]
      exact read_u64_of_stored hs2 (by omega)
    · unfold view.get_string_at
      rw [hgo]
      have hio : i < offs.length := by rw [hf2.length_eq]; exact hi
      have := stored_flatten (offs.map u64) (off + (8 + 8)) hlenw hs3 i (by simpa using hio)
      simp only [List.get_eq_getElem, List.getElem_map] at this
      have hstr := hf2.get hio hi
      have hlt : offs[i] < 2 ^ 64 := by
        have := hstr.2.1
        rw [encode_string_length] at this
        simp only [List.get_eq_getElem] at this
        omega
      change string_at b (read_u64 b (off + 16 + i * 8)) = _
      rw [read_u64_of_stored this hlt]
      exact string_at_of hstr (by omega)
  | tables t ip elements =>
    obtain ⟨hes, offs, hf2, hlo, hhi, hs⟩ := hvec
    subst hes
    have hhead : vector_header (.table t) (ended_elements elements).length =
        u64 (ended_elements elements).length := rfl
    have hlenw : ∀ x ∈ offs.map u64, x.length = 8 := by
      intro x hx
      obtain ⟨y, _, rfl⟩ := List.mem_map.mp hx
      exact u64_length y
    have hfl := flatten_length_of (offs.map u64) hlenw
    rw [List.length_map, hf2.length_eq] at hfl
    rw [hhead] at hs hhi
    simp only [List.length_append, u64_length, hfl] at hhi
    rw [stored_append_iff] at hs
    simp only [u64_length] at hs
    obtain ⟨hs1, hs3⟩ := hs
    have hoff : off < 2 ^ 64 := by omega
    have hgo : (view.mk s b s.root 0).get_offset f = off := by
      unfold view.get_offset
      rw [if_pos hpv, hslot]
      exact read_u64_of_stored hst hoff
    refine ⟨?_, fun i hi g hg => ?_⟩
    · unfold view.get_count
      rw [if_pos hpv, hgo]
      exact read_u64_of_stored hs1 (by omega)
    · have hio : i < offs.length := by rw [hf2.length_eq]; exact hi
      have := stored_flatten (offs.map u64) (off + 8) hlenw hs3 i (by simpa using hio)
      simp only [List.get_eq_getElem, List.getElem_map] at this
      have htab := hf2.get hio hi
      have hlt : offs[i] < 2 ^ 64 := by
        have := htab.2.1
        simp only [List.get_eq_getElem] at this
        omega
      have hview : (view.mk s b s.root 0).get_table_at f t i = ⟨s, b, t, offs[i]⟩ := by
        unfold view.get_table_at
        rw [hgo]
        change view.mk s b t (read_u64 b (off + 8 + i * 8)) = _
        rw [read_u64_of_stored this hlt]
      rw [hview]
      refine slot_holds_decodes (le_of_lt hb) (htab.2.2 g hg) (fun x hx => ?_)
      have hmem := mem_ended_elements (List.get_mem (ended_elements elements) i hi)
      exact block_valid_tables hv _ hmem.1 _ (record_of_mem hx)

/-! ## Lemmas on sessions that fit: no call fails -/

section
variable (s : schema) (b : List Nat) (st : List scope)

theorem append_ok (x : List Nat) (h : b.length + x.length < 2 ^ 64) :
    ((encoder.mk s b st none).append x).error = none := by
  unfold encoder.append
  dsimp only
  rw [if_neg (by omega)]

theorem table_start_ok (t : Nat) (bnd : binding) (ht : t < s.tables.length)
    (hl : table_start_legal (encoder.mk s b st none) t bnd = true)
    (h : b.length + table_size (s.table t) < 2 ^ 64) :
    (table_start t bnd (encoder.mk s b st none)).error = none := by
  have ha := append_ok s b st (List.replicate (table_size (s.table t)) 0) (by simpa using h)
  unfold table_start
  simp only [ne_eq, not_true_eq_false, if_false, ht, hl, and_self, ha]

theorem field_create_ok (t pos : Nat) (bnd : binding) (f : Nat) (x : List Nat)
    (hk : (s.table t)[f]? = some (.single .string)) (h : b.length + (8 + x.length) < 2 ^ 64) :
    (field_create f x (encoder.mk s b (.table t pos bnd :: st) none)).error = none := by
  have ha := append_ok s b (.table t pos bnd :: st) (encode_string x)
    (by rw [encode_string_length]; exact h)
  unfold field_create
  simp only [ne_eq, not_true_eq_false, if_false, hk, ha]
  exact ha

theorem vector_push_string_ok (p : Nat) (els : List (List Nat)) (bnd : binding) (x : List Nat)
    (h : b.length + (8 + x.length) < 2 ^ 64) :
    (vector_push_string x (encoder.mk s b (.vector .string p els bnd :: st) none)).error =
      none := by
  have ha := append_ok s b (.vector .string p els bnd :: st) (encode_string x)
    (by rw [encode_string_length]; exact h)
  unfold vector_push_string
  simp only [ne_eq, not_true_eq_false, if_false, ha]

theorem vector_end_field_ok (el : element_type) (p : Nat) (els : List (List Nat)) (f : Nat)
    (t pos : Nat) (bnd : binding) (h1 : els.length * element_width el < 2 ^ 64)
    (h2 : b.length + (vector_header el els.length ++ els.flatten).length < 2 ^ 64) :
    (vector_end (encoder.mk s b
      (.vector el p els (.field f) :: .table t pos bnd :: st) none)).error = none := by
  have ha := append_ok s b (.vector el p els (.field f) :: .table t pos bnd :: st) _ h2
  unfold vector_end
  simp only [ne_eq, not_true_eq_false, if_false]
  rw [if_neg (by omega)]
  simp only [ha, not_true_eq_false, if_false]
  rw [(append_eq s b _ _ ha).1]
  rfl

theorem vector_end_standalone_ok (el : element_type) (p : Nat) (els : List (List Nat))
    (h1 : els.length * element_width el < 2 ^ 64)
    (h2 : b.length + (vector_header el els.length ++ els.flatten).length < 2 ^ 64) :
    (vector_end (encoder.mk s b (.vector el p els .standalone :: st) none)).error = none := by
  have ha := append_ok s b (.vector el p els .standalone :: st) _ h2
  unfold vector_end
  simp only [ne_eq, not_true_eq_false, if_false]
  rw [if_neg (by omega)]
  simp only [ha, not_true_eq_false, if_false]
  rw [(append_eq s b _ _ ha).1]
  rfl

end

theorem run_writes_ok (s : schema) (t pos : Nat) (bnd : binding) (st : List scope) :
    ∀ (ws : List (Nat × element_value)) (b : List Nat),
      (∀ w ∈ ws, write_valid (s.table t) w = true) →
      pos + table_size (s.table t) ≤ b.length →
      b.length + writes_bytes ws < 2 ^ 64 →
      (run_writes ws (encoder.mk s b (.table t pos bnd :: st) none)).error = none := by
  intro ws
  induction ws with
  | nil => intro b _ _ _; rfl
  | cons w ws ih =>
    intro b hv hb hlt
    have hvw := hv w (List.mem_cons_self _ _)
    have hvs : ∀ w1 ∈ ws, write_valid (s.table t) w1 = true := fun w1 h1 =>
      hv w1 (List.mem_cons_of_mem _ h1)
    obtain ⟨f, v⟩ := w
    change (run_writes ws (run_write (f, v) _)).error = none
    cases v with
    | scalar x =>
      obtain ⟨k, hk, _⟩ := write_valid_scalar hvw
      have hft : ∃ ft, (s.table t)[f]? = some ft ∧ (encode_scalar k x).length = slot_size ft := by
        rcases hk with hk | hk
        · exact ⟨_, hk, encode_scalar_length k x⟩
        · exact ⟨_, hk, encode_scalar_length k x⟩
      obtain ⟨ft, hft, hx⟩ := hft
      have he : run_write (f, .scalar x) (encoder.mk s b (.table t pos bnd :: st) none) =
          encoder.mk s (store b (s.table t) pos f (encode_scalar k x))
            (.table t pos bnd :: st) none := field_set_eq s b st t pos bnd f x k hk
      rw [he]
      have hlen := store_length b (s.table t) pos f _ hft hx hb
      exact ih _ hvs (by omega) (by rw [hlen]; simpa [writes_bytes] using hlt)
    | string x =>
      have hk := write_valid_string hvw
      have hx : (u64 b.length).length = slot_size (.single .string) := u64_length _
      simp only [writes_bytes] at hlt
      have hok1 := field_create_ok s b st t pos bnd f x hk (by omega)
      obtain ⟨he, _⟩ := field_create_eq s b st t pos bnd f x hk hok1
      have he1 : run_write (f, .string x) (encoder.mk s b (.table t pos bnd :: st) none) = _ := he
      rw [he1]
      have hb1 : pos + table_size (s.table t) ≤ (b ++ encode_string x).length := by
        simp; omega
      have hlen := store_length (b ++ encode_string x) (s.table t) pos f _ hk hx hb1
      have hl2 : (b ++ encode_string x).length = b.length + (8 + x.length) := by
        simp [encode_string_length]
      exact ih _ hvs (by omega) (by omega)

theorem run_element_ok (s : schema) (t : Nat) (ip : Bool) (el : element_build)
    (b : List Nat) (p : Nat) (els : List (List Nat)) (bnd : binding) (st : List scope)
    (ht : t < s.tables.length) (hv : ∀ w ∈ el.writes, write_valid (s.table t) w = true)
    (hlt : b.length + (table_size (s.table t) + writes_bytes el.writes) < 2 ^ 64) :
    (run_element t ip el
      (encoder.mk s b (.vector (.table t) p els bnd :: st) none)).error = none := by
  unfold run_element
  dsimp only
  have hl : table_start_legal (encoder.mk s b (.vector (.table t) p els bnd :: st) none) t
      (if ip = true then binding.element else binding.standalone) = true := by
    cases ip <;> simp [table_start_legal]
  have hok1 := table_start_ok s b (.vector (.table t) p els bnd :: st) t _ ht hl (by omega)
  obtain ⟨h1, _⟩ := table_start_eq s b _ t _ ht hl hok1
  rw [h1]
  have hlen : (b ++ List.replicate (table_size (s.table t)) 0).length =
      b.length + table_size (s.table t) := by simp
  have hok2 := run_writes_ok s t b.length
    (if ip = true then binding.element else binding.standalone)
    (.vector (.table t) p els bnd :: st) el.writes
    (b ++ List.replicate (table_size (s.table t)) 0) hv (by simp) (by rw [hlen]; omega)
  obtain ⟨b2, h2, _⟩ := run_writes_spec s t b.length _ _ el.writes _ _ hv
    (by simp) (is_table_in_zeros b (s.table t)) hok2
  rw [h2]
  by_cases he : el.ended = true
  · rw [if_pos he]
    by_cases hip : ip = true
    · rw [if_pos hip, if_pos hip, table_end_element_eq]
    · rw [if_neg hip, if_neg hip, table_end_standalone_eq, vector_push_offset_eq]
  · rw [if_neg he, table_cancel_eq]

theorem run_elements_ok (s : schema) (t : Nat) (ip : Bool) (p : Nat) (bnd : binding)
    (st : List scope) (ht : t < s.tables.length) :
    ∀ (elements : List element_build) (b : List Nat) (els : List (List Nat)),
      (∀ el ∈ elements, ∀ w ∈ el.writes, write_valid (s.table t) w = true) →
      b.length + content_bytes s (.tables t ip elements) < 2 ^ 64 →
      (elements.foldl (fun e el => run_element t ip el e)
        (encoder.mk s b (.vector (.table t) p els bnd :: st) none)).error = none := by
  intro elements
  induction elements with
  | nil => intro b els _ _; rfl
  | cons el elements ih =>
    intro b els hv hlt
    rw [List.foldl_cons]
    simp only [content_bytes, List.map_cons, List.sum_cons] at hlt
    have hok1 := run_element_ok s t ip el b p els bnd st ht (hv el (List.mem_cons_self _ _))
      (by omega)
    obtain ⟨b1, h1, _, _, _, _, _, h1f⟩ := run_element_spec s t ip el b p els bnd
      st ht (hv el (List.mem_cons_self _ _)) (by omega) hok1
    rw [h1]
    exact ih b1 _ (fun x hx => hv x (List.mem_cons_of_mem _ hx)) (by
      simp only [content_bytes]; omega)

theorem vector_push_strings_ok (s : schema) (p : Nat) (bnd : binding) (st : List scope) :
    ∀ (ss : List (List Nat)) (b : List Nat) (els : List (List Nat)),
      b.length + content_bytes s (.strings ss) < 2 ^ 64 →
      (vector_push_strings ss
        (encoder.mk s b (.vector .string p els bnd :: st) none)).error = none := by
  intro ss
  induction ss with
  | nil => intro b els _; rfl
  | cons x ss ih =>
    intro b els hlt
    unfold vector_push_strings at ih ⊢
    rw [List.foldl_cons]
    simp only [content_bytes, List.map_cons, List.sum_cons] at hlt
    have hok1 := vector_push_string_ok s b st p els bnd x (by omega)
    obtain ⟨h1, _⟩ := vector_push_string_eq s b st p els bnd x hok1
    rw [h1]
    exact ih _ _ (by
      simp only [content_bytes, List.length_append, encode_string_length]; omega)

theorem run_content_ok (s : schema) (el : element_type) (c : content)
    (hfit : content_fits s el c) (b : List Nat) (p : Nat) (bnd : binding) (st : List scope)
    (hlt : b.length + content_bytes s c < 2 ^ 64) :
    (run_content c (encoder.mk s b (.vector el p [] bnd :: st) none)).error = none := by
  cases c with
  | scalars vs =>
    obtain ⟨k, hk⟩ := hfit
    have := vector_push_all_spec s el k hk p bnd st b vs []
    change (vector_push_all vs _).error = none
    rw [this]
  | strings ss =>
    have hel : el = .string := hfit
    subst hel
    exact vector_push_strings_ok s p bnd st ss b [] hlt
  | tables t ip elements =>
    obtain ⟨hel, ht, hv⟩ := hfit
    subst hel
    exact run_elements_ok s t ip p bnd st ht elements b [] hv hlt

theorem run_block_ok (s : schema) (blk : block) (b : List Nat)
    (hv : block_valid s blk = true) (hlt : b.length + block_bytes s blk < 2 ^ 64) :
    (run_block blk (encoder.mk s b [.table s.root 0 .root] none)).error = none := by
  obtain ⟨el, hel, hfit⟩ := block_valid_fits hv
  have hbb : block_bytes s blk = content_bytes s blk.content + vector_bytes el blk.content := by
    simp [block_bytes, hel]
  obtain ⟨fld, c, ended⟩ := blk
  dsimp only at hel hfit hbb
  by_cases hc : ∃ t elements, c = .tables t false elements
  · obtain ⟨t, elements, hc⟩ := hc
    subst hc
    have hel1 : el = .table t := hfit.1
    subst hel1
    rw [run_block_standalone, vector_start_eq]
    have hok2 := run_content_ok s _ _ hfit b b.length .standalone [.table s.root 0 .root]
      (by omega)
    obtain ⟨b2, els, h2, h2a, h2b, h2c, h2d, h2e, h2f, h2g⟩ := run_content_spec s _ _ hfit b
      .standalone [.table s.root 0 .root] (by omega) hok2
    rw [h2]
    by_cases hend : ended = true
    · rw [if_pos hend]
      have hok3 := vector_end_standalone_ok s b2 [.table s.root 0 .root] (.table t) b.length els
        (by omega) (by omega)
      obtain ⟨h3, _⟩ := vector_end_standalone_eq s b2 _ (.table t) b.length els hok3
      rw [h3, field_set_offset_eq s _ _ s.root 0 .root fld _ (.table t) hel]
    · rw [if_neg hend, vector_cancel_eq]
  · have hc1 : ∀ t elements, c ≠ .tables t false elements := fun t elements h =>
      hc ⟨t, elements, h⟩
    rw [run_block_field _ _ _ _ hc1, field_vector_start_eq s b _ s.root 0 .root fld el hel]
    have hok2 := run_content_ok s _ _ hfit b b.length (.field fld) [.table s.root 0 .root]
      (by omega)
    obtain ⟨b2, els, h2, h2a, h2b, h2c, h2d, h2e, h2f, h2g⟩ := run_content_spec s _ _ hfit b
      (.field fld) [.table s.root 0 .root] (by omega) hok2
    rw [h2]
    by_cases hend : ended = true
    · rw [if_pos hend]
      exact vector_end_field_ok s b2 [] el b.length els fld s.root 0 .root (by omega) (by omega)
    · rw [if_neg hend, vector_cancel_eq]

theorem run_blocks_ok (s : schema) :
    ∀ (blocks : List block) (b : List Nat) (w : Nat → Option content),
      (∀ blk ∈ blocks, block_valid s blk = true) →
      table_size (s.table s.root) ≤ b.length →
      (∀ f, f < (s.table s.root).length → output_holds s b f (w f)) →
      b.length + (blocks.map (block_bytes s)).sum < 2 ^ 64 →
      (blocks.foldl (fun e blk => run_block blk e)
        (encoder.mk s b [.table s.root 0 .root] none)).error = none := by
  intro blocks
  induction blocks with
  | nil => intro b w _ _ _ _; rfl
  | cons blk blocks ih =>
    intro b w hv hz hw hlt
    rw [List.foldl_cons]
    rw [List.map_cons, List.sum_cons] at hlt
    have hok1 := run_block_ok s blk b (hv blk (List.mem_cons_self _ _)) (by omega)
    obtain ⟨b1, h1, h1a, h1b, h1c, h1d⟩ := run_block_spec s blk b w
      (hv blk (List.mem_cons_self _ _)) hz (by omega) hw hok1
    rw [h1]
    exact ih b1 _ (fun x hx => hv x (List.mem_cons_of_mem _ hx)) h1a h1c (by omega)

/-- An encoding session whose calls append fewer than 2^64 bytes reports no
failure. -/
theorem session_ok (s : schema) (blocks : List block) (hroot : s.root < s.tables.length)
    (hv : ∀ blk ∈ blocks, block_valid s blk = true)
    (hlt : session_bytes s blocks < 2 ^ 64) : (session s blocks).error = none := by
  unfold session_bytes at hlt
  unfold session
  have hok1 : (output_start (encoder_create s)).error = none := by
    unfold output_start encoder_create
    exact table_start_ok s [] [] s.root .root hroot (by simp [table_start_legal])
      (by simp only [List.length_nil]; omega)
  rw [output_start_eq s hroot hok1]
  have hok2 := run_blocks_ok s blocks (List.replicate (table_size (s.table s.root)) 0)
    (fun _ => none) hv (by simp)
    (fun f _ => by simpa using test_presence_zeros [] (table_size (s.table s.root)) f)
    (by simpa using hlt)
  obtain ⟨b1, h1, _⟩ := run_blocks_spec s blocks _ (fun _ => none) hv (by simp)
    (by simp only [List.length_replicate]; omega)
    (fun f _ => by simpa using test_presence_zeros [] (table_size (s.table s.root)) f) hok2
  rw [h1, output_finish_eq]

/-- An encoding session that fits: no call fails, the session ends with the
linearized buffer, the buffer decodes, and for every block in a session
with one block per field the decoder reports the field absent when the
block was cancelled and reads back the content when it was ended. -/
theorem session_decodes (s : schema) (blocks : List block) (hroot : s.root < s.tables.length)
    (hvalid : ∀ blk ∈ blocks, block_valid s blk = true)
    (hdistinct : (blocks.map block.field).Nodup)
    (hfits : session_bytes s blocks < 2 ^ 64) :
    ∃ buffer v, (session s blocks).rc = 0 ∧ linearized (session s blocks) = some buffer ∧
      output_decode s buffer = some v ∧ v = ⟨s, buffer, s.root, 0⟩ ∧
      ∀ blk ∈ blocks,
        (blk.ended = false → v.present blk.field = false) ∧
        (blk.ended = true → v.present blk.field = true ∧
          vector_decodes v blk.field blk.content) := by
  have hok := session_ok s blocks hroot hvalid hfits
  obtain ⟨b, h1, h2, h3, h4⟩ := session_spec s blocks hroot hvalid hok
  refine ⟨b, ⟨s, b, s.root, 0⟩, ?_, ?_, output_decode_eq s b h2, rfl, fun blk hblk => ?_⟩
  · simp [encoder.rc, hok]
  · rw [h1, linearized_eq]
  · obtain ⟨el, hel, _⟩ := block_valid_fits (hvalid blk hblk)
    have hf := lt_length_of_getElem? hel
    have hb := h4 blk.field hf
    rw [built_nodup hdistinct hblk] at hb
    constructor
    · intro he
      rw [he] at hb
      exact hb
    · intro he
      rw [if_pos he] at hb
      exact output_holds_decodes h3 hb (hvalid blk hblk)

theorem block_valid_of_scalars {s : schema} {f : Nat} {el : element_type} {k : scalar_type}
    {vs : List Int} (hel : (s.table s.root)[f]? = some (.vector el))
    (hk : el.scalar_type = some k) (hr : ∀ x ∈ vs, in_range k x) (e : Bool) :
    block_valid s ⟨f, .scalars vs, e⟩ = true := by
  unfold block_valid
  cases el with
  | scalar k1 => cases hk; simpa [hel] using hr
  | enum k1 => cases hk; simpa [hel] using hr
  | string => cases hk
  | table t => cases hk

theorem block_valid_of_strings {s : schema} {f : Nat} {ss : List (List Nat)}
    (hel : (s.table s.root)[f]? = some (.vector .string)) (e : Bool) :
    block_valid s ⟨f, .strings ss, e⟩ = true := by
  unfold block_valid
  simp [hel]

theorem ended_elements_map_true (tables : List (List (Nat × element_value))) :
    ended_elements (tables.map (fun ws => (⟨ws, true⟩ : element_build))) =
      tables.map (fun ws => ⟨ws, true⟩) := by
  unfold ended_elements
  rw [List.filter_eq_self]
  intro x hx
  obtain ⟨ws, _, rfl⟩ := List.mem_map.mp hx
  rfl


end Runtime

/-! ## Lemmas on the arithmetic of `double` -/

theorem round_half_even_intCast (n : Int) : round_half_even (n : ℚ) = n := by
  unfold round_half_even
  rw [Int.floor_intCast, sub_self, if_pos (by norm_num)]

theorem abs_round_half_even_sub (x : ℚ) : |(round_half_even x : ℚ) - x| ≤ 1 / 2 := by
  have h1 := Int.floor_le x
  have h2 := Int.lt_floor_add_one x
  unfold round_half_even
  rw [abs_le]
  split_ifs with a b c
  · constructor <;> linarith
  · push_cast; constructor <;> linarith
  · constructor <;> linarith
  · push_cast; constructor <;> linarith

theorem binary64_ulp_exponent_le (x : ℚ) (j : Int) (hx : 0 ≤ x) (hj : 0 ≤ j)
    (hlt : x < 2 ^ (j + 1)) : binary64_ulp_exponent x ≤ j - 52 := by
  unfold binary64_ulp_exponent
  rw [abs_of_nonneg hx]
  have hlog : Int.log 2 x ≤ j := by
    rcases eq_or_lt_of_le hx with h0 | hpos
    · rw [← h0, Int.log_of_right_le_zero 2 (le_refl (0 : ℚ))]
      exact hj
    · have := (Int.lt_zpow_iff_log_lt (by norm_num : 1 < 2) hpos).mp
        (by simpa using hlt : x < ((2 : ℕ) : ℚ) ^ (j + 1))
      omega
  have := max_le hlog (by omega : (-1022 : Int) ≤ j)
  omega

theorem binary64_round_error (x : ℚ) :
    |binary64_round x - x| ≤ 2 ^ binary64_ulp_exponent x / 2 := by
  unfold binary64_round
  have hpos : (0 : ℚ) < 2 ^ binary64_ulp_exponent x := zpow_pos (by norm_num) _
  have h := abs_round_half_even_sub (x / 2 ^ binary64_ulp_exponent x)
  have e : (round_half_even (x / 2 ^ binary64_ulp_exponent x) : ℚ) * 2 ^ binary64_ulp_exponent x - x
      = ((round_half_even (x / 2 ^ binary64_ulp_exponent x) : ℚ) - x / 2 ^ binary64_ulp_exponent x)
        * 2 ^ binary64_ulp_exponent x := by
    field_simp
  rw [e, abs_mul, abs_of_pos hpos]
  calc |(round_half_even (x / 2 ^ binary64_ulp_exponent x) : ℚ) - x / 2 ^ binary64_ulp_exponent x|
        * 2 ^ binary64_ulp_exponent x
      ≤ 1 / 2 * 2 ^ binary64_ulp_exponent x := mul_le_mul_of_nonneg_right h (le_of_lt hpos)
    _ = 2 ^ binary64_ulp_exponent x / 2 := by ring

/-- Below 1024 the result of a `double` operation is within 2^-44 of the
exact result. -/
theorem binary64_round_near (x : ℚ) (hx : 0 ≤ x) (hlt : x < 1024) :
    |binary64_round x - x| ≤ 1 / 2 ^ 44 := by
  have hE := binary64_ulp_exponent_le x 9 hx (by norm_num) (by norm_num; exact hlt)
  have h := binary64_round_error x
  have hmono : (2 : ℚ) ^ binary64_ulp_exponent x ≤ 2 ^ (-43 : Int) :=
    zpow_le_zpow_right₀ (by norm_num) (by omega)
  have e : (2 : ℚ) ^ (-43 : Int) / 2 = 1 / 2 ^ 44 := by norm_num
  calc |binary64_round x - x| ≤ 2 ^ binary64_ulp_exponent x / 2 := h
    _ ≤ 2 ^ (-43 : Int) / 2 := div_le_div_of_nonneg_right hmono (by norm_num)
    _ = 1 / 2 ^ 44 := e

/-- A number with at most one binary digit after the point, below 2^20, is
a `double`: rounding leaves it as it is. -/
theorem binary64_round_half (a : Int) (ha : 0 ≤ a) (hlt : a < 2 ^ 21) :
    binary64_round ((a : ℚ) / 2) = (a : ℚ) / 2 := by
  have hx : (0 : ℚ) ≤ (a : ℚ) / 2 := by positivity
  have hxlt : (a : ℚ) / 2 < 2 ^ ((19 : Int) + 1) := by
    have : (a : ℚ) < 2 ^ 21 := by exact_mod_cast hlt
    norm_num at this ⊢
    linarith
  have hE := binary64_ulp_exponent_le _ 19 hx (by norm_num) hxlt
  unfold binary64_round
  generalize binary64_ulp_exponent ((a : ℚ) / 2) = E at hE
  obtain ⟨n, hn⟩ : ∃ n : ℕ, E = -(n + 1 : ℕ) := ⟨(-E - 1).toNat, by omega⟩
  subst hn
  have e : (a : ℚ) / 2 / 2 ^ (-((n + 1 : ℕ) : Int)) = ((a * 2 ^ n : Int) : ℚ) := by
    rw [zpow_neg, zpow_natCast]
    push_cast
    rw [pow_succ]
    field_simp
    ring
  rw [e, round_half_even_intCast, zpow_neg, zpow_natCast]
  push_cast
  rw [pow_succ]
  field_simp
  ring

theorem binary64_round_intCast (u : Int) (h0 : 0 ≤ u) (h1 : u < 2 ^ 20) :
    binary64_round (u : ℚ) = (u : ℚ) := by
  have h := binary64_round_half (2 * u) (by omega) (by omega)
  have e : ((2 * u : Int) : ℚ) / 2 = (u : ℚ) := by push_cast; ring
  rw [e] at h
  exact h

theorem double_to_int_eq (x : ℚ) (z : Int) (h0 : 0 ≤ x) (hl : (z : ℚ) ≤ x)
    (hu : x < (z : ℚ) + 1) : double_to_int x = z := by
  unfold double_to_int
  rw [if_pos h0]
  exact Int.floor_eq_iff.mpr ⟨hl, hu⟩

/-- The millisecond field before the carry is the number of microseconds
rounded to the nearest millisecond, halves up: the rounding errors of the
`double` operations do not reach the next integer. -/
theorem debug_milliseconds_eq (u : Int) (h0 : 0 ≤ u) (h1 : u ≤ 999999) :
    debug_milliseconds u = (u + 500) / 1000 := by
  unfold debug_milliseconds
  rw [binary64_round_intCast u h0 (by omega)]
  obtain ⟨k, r, hu, hr0, hr1, hk0, hk1⟩ : ∃ k r : Int, u = 1000 * k + r ∧ 0 ≤ r ∧ r < 1000 ∧
      0 ≤ k ∧ k ≤ 999 := ⟨u / 1000, u % 1000, by omega, by omega, by omega, by omega, by omega⟩
  have hq : (u : ℚ) / 1000 = (k : ℚ) + (r : ℚ) / 1000 := by
    rw [hu]; push_cast; ring
  have hkq0 : (0 : ℚ) ≤ (k : ℚ) := by exact_mod_cast hk0
  have hkq1 : (k : ℚ) ≤ 999 := by exact_mod_cast hk1
  have hrq0 : (0 : ℚ) ≤ (r : ℚ) := by exact_mod_cast hr0
  have hrq1 : (r : ℚ) ≤ 999 := by exact_mod_cast (by omega : r ≤ 999)
  by_cases h500 : r = 500
  · subst h500
    have hres : (u + 500) / 1000 = k + 1 := by omega
    have e1 : (u : ℚ) / 1000 = ((2 * k + 1 : Int) : ℚ) / 2 := by
      rw [hq]; push_cast; ring
    have e2 : ((2 * k + 1 : Int) : ℚ) / 2 + 1 / 2 = ((2 * (k + 1) : Int) : ℚ) / 2 := by
      push_cast; ring
    rw [hres, e1, binary64_round_half _ (by omega) (by omega), e2,
      binary64_round_half _ (by omega) (by omega)]
    apply double_to_int_eq
    · push_cast; linarith
    · push_cast; linarith
    · push_cast; linarith
  · have hqb0 : (0 : ℚ) ≤ (u : ℚ) / 1000 := by rw [hq]; positivity
    have hqb1 : (u : ℚ) / 1000 < 1024 := by rw [hq]; linarith
    have hd1 := binary64_round_near _ hqb0 hqb1
    rw [abs_le] at hd1
    have heps : (1 : ℚ) / 2 ^ 44 < 1 / 4000 := by norm_num
    have hs0 : (0 : ℚ) ≤ binary64_round ((u : ℚ) / 1000) + 1 / 2 := by linarith
    have hs1 : binary64_round ((u : ℚ) / 1000) + 1 / 2 < 1024 := by linarith
    have hd2 := binary64_round_near _ hs0 hs1
    rw [abs_le] at hd2
    rcases lt_or_gt_of_ne h500 with hlt | hgt
    · have hres : (u + 500) / 1000 = k := by omega
      have hrb : (r : ℚ) ≤ 499 := by exact_mod_cast (by omega : r ≤ 499)
      rw [hres]
      apply double_to_int_eq <;> linarith
    · have hres : (u + 500) / 1000 = k + 1 := by omega
      have hrb : (501 : ℚ) ≤ (r : ℚ) := by exact_mod_cast (by omega : 501 ≤ r)
      rw [hres]
      apply double_to_int_eq
      · linarith
      · push_cast; linarith
      · push_cast; linarith

/-! ## The claims -/

section
variable {S : Type}

/-- C1: when help is not taken, `main` returns 0 exactly when a schema path
and an output path were supplied, at least one of pretty / encoder / decoder
/ jsonify is enabled, pretty is not combined with one of the other three,
the language names an entry of the generator table, `schema_parse_file`
returns a schema, `schema_set_namespace` (when a namespace was supplied)
returns 0, the output stream could be opened, and every emitter call of the
run returned 0; in every other case `main` returns -1. -/
theorem C1_main_returns_zero_iff (env : Env S) (argv : List String) (o : Options)
    (h : parse_options argv = some o) :
    ((main env argv).rc = 0 ↔
      ∃ schema_path output parsed,
        o.option_schema = some schema_path ∧ o.option_output = some output ∧
        (o.option_pretty ≠ 0 ∨ o.option_encoder ≠ 0 ∨ o.option_decoder ≠ 0 ∨
          o.option_jsonify ≠ 0) ∧
        ¬ (o.option_pretty ≠ 0 ∧
          (o.option_encoder ≠ 0 ∨ o.option_decoder ≠ 0 ∨ o.option_jsonify ≠ 0)) ∧
        (∃ g ∈ generators, g.language = o.option_language) ∧
        env.schema_parse_file schema_path = some parsed ∧
        (∀ name, o.option_namespace = some name →
          (env.schema_set_namespace parsed name).1 = 0) ∧
        (output = "stdout" ∨ output = "stderr" ∨ env.fopen output = true) ∧
        (∀ c ∈ emitter_calls (main env argv).trace, c.rc = 0)) ∧
    ((main env argv).rc = 0 ∨ (main env argv).rc = -1) := by
  have hmain : main env argv = main_body env o := by simp [main, h]
  rw [hmain]
  refine ⟨?_, main_body_rc env o⟩
  unfold main_body
  cases hs : o.option_schema with
  | none => simp
  | some schema_path =>
  cases ho : o.option_output with
  | none => simp
  | some output =>
  simp only []
  by_cases hnothing : o.option_pretty = 0 ∧ o.option_encoder = 0 ∧ o.option_decoder = 0 ∧
      o.option_jsonify = 0
  · rw [if_pos hnothing]
    obtain ⟨h1, h2, h3, h4⟩ := hnothing
    simp [h1, h2, h3, h4]
  rw [if_neg hnothing]
  have hsome : o.option_pretty ≠ 0 ∨ o.option_encoder ≠ 0 ∨ o.option_decoder ≠ 0 ∨
      o.option_jsonify ≠ 0 := by
    by_contra hc
    apply hnothing
    simp only [not_or, not_not] at hc
    exact hc
  by_cases hmix : o.option_pretty ≠ 0 ∧
      (o.option_encoder ≠ 0 ∨ o.option_decoder ≠ 0 ∨ o.option_jsonify ≠ 0)
  · rw [if_pos hmix]
    constructor
    · intro h0; simp at h0
    · rintro ⟨_, _, _, _, _, _, hno, _⟩
      exact absurd hmix hno
  rw [if_neg hmix]
  cases hg : find_generator generators o.option_language with
  | none =>
    have hl := (find_generator_none _).1 hg
    constructor
    · intro h0; simp at h0
    · rintro ⟨_, _, _, _, _, _, _, ⟨g, hgm, hgl⟩, _⟩
      simp only [generators, List.mem_cons, List.mem_singleton, List.not_mem_nil,
        or_false] at hgm
      rcases hgm with rfl | rfl
      · exact absurd hgl.symm hl.1
      · exact absurd hgl.symm hl.2
  | some g =>
  have hgen : ∃ g ∈ generators, g.language = o.option_language :=
    ⟨g, (find_generator_some _ _).1 hg⟩
  cases hp : env.schema_parse_file schema_path with
  | none =>
    constructor
    · intro h0; simp at h0
    · rintro ⟨sp, _, pa, hsp, _, _, _, _, hpa, _⟩
      cases hsp
      rw [hp] at hpa
      cases hpa
  | some parsed =>
  cases hn : o.option_namespace with
  | none =>
    simp only []
    rw [open_output_rc_zero_iff _ _ _ _ _ _ (by simp [Event.as_call])]
    constructor
    · rintro ⟨hout, hcalls⟩
      exact ⟨schema_path, output, parsed, rfl, rfl, hsome, hmix, hgen, hp, by simp, hout, hcalls⟩
    · rintro ⟨sp, out, pa, hsp, hout, _, _, _, hpa, _, hopen, hcalls⟩
      cases hsp; cases hout
      rw [hp] at hpa
      cases hpa
      exact ⟨hopen, hcalls⟩
  | some name =>
    simp only []
    by_cases hrc : (env.schema_set_namespace parsed name).1 = 0
    · rw [if_neg (by simpa using hrc)]
      rw [open_output_rc_zero_iff _ _ _ _ _ _ (by simp [Event.as_call])]
      constructor
      · rintro ⟨hout, hcalls⟩
        refine ⟨schema_path, output, parsed, rfl, rfl, hsome, hmix, hgen, hp, ?_, hout, hcalls⟩
        intro n hn'
        cases hn'
        exact hrc
      · rintro ⟨sp, out, pa, hsp, hout, _, _, _, hpa, _, hopen, hcalls⟩
        cases hsp; cases hout
        rw [hp] at hpa
        cases hpa
        exact ⟨hopen, hcalls⟩
    · rw [if_pos (by simpa using hrc)]
      constructor
      · intro h0; simp at h0
      · rintro ⟨sp, out, pa, hsp, hout, _, _, _, hpa, hns, _⟩
        cases hsp
        rw [hp] at hpa
        cases hpa
        exact absurd (hns name rfl) hrc

/-- C1, at an instance: the sample invocation in the sample environment with
no failing emitter returns 0. -/
theorem C1_main_returns_zero_iff_witness :
    parse_options sample_argv = some sample_options ∧
      (main (sample_env []) sample_argv).rc = 0 :=
  ⟨by decide,
    ((C1_main_returns_zero_iff (sample_env []) sample_argv sample_options
      (by decide)).1).2
      ⟨"a.lbs", "out.c", "ns0", by decide, by decide, by decide, by decide, by decide,
        by decide, by decide, by decide, by decide⟩⟩

/-- C2: for each of the six Boolean options, an argument that is one of
`t`, `true`, `y`, `yes`, `1` written in any mix of upper and lower case sets
the option to 1, and one that is one of `f`, `false`, `n`, `no`, `0` sets it
to 0: in the `switch` from any state of the option variables, and for the
invocation with the option in its long or its short form. -/
theorem C2_boolean_option_words (a : String) (v : Int)
    (h : (v = 1 ∧ ∃ w ∈ ["t", "true", "y", "yes", "1"], a.data ∈ case_spellings w.data) ∨
      (v = 0 ∧ ∃ w ∈ ["f", "false", "n", "no", "0"], a.data ∈ case_spellings w.data)) :
    (∀ o : Options,
      option_switch o (.arg 'p' a) = some { o with option_pretty := v } ∧
      option_switch o (.arg 'e' a) = some { o with option_encoder := v } ∧
      option_switch o (.arg 'i' a) = some { o with option_encoder_include_library := v } ∧
      option_switch o (.arg 'd' a) = some { o with option_decoder := v } ∧
      option_switch o (.arg 'm' a) = some { o with option_decoder_use_memcpy := v } ∧
      option_switch o (.arg 'j' a) = some { o with option_jsonify := v }) ∧
    (parse_options ["prog", "--pretty", a] =
        some { default_options with option_pretty := v } ∧
      parse_options ["prog", "--encoder", a] =
        some { default_options with option_encoder := v } ∧
      parse_options ["prog", "--encoder-include-library", a] =
        some { default_options with option_encoder_include_library := v } ∧
      parse_options ["prog", "--decoder", a] =
        some { default_options with option_decoder := v } ∧
      parse_options ["prog", "--decoder-use-memcpy", a] =
        some { default_options with option_decoder_use_memcpy := v } ∧
      parse_options ["prog", "--jsonify", a] =
        some { default_options with option_jsonify := v }) ∧
    (parse_options ["prog", "-p", a] =
        some { default_options with option_pretty := v } ∧
      parse_options ["prog", "-e", a] =
        some { default_options with option_encoder := v } ∧
      parse_options ["prog", "-i", a] =
        some { default_options with option_encoder_include_library := v } ∧
      parse_options ["prog", "-d", a] =
        some { default_options with option_decoder := v } ∧
      parse_options ["prog", "-m", a] =
        some { default_options with option_decoder_use_memcpy := v } ∧
      parse_options ["prog", "-j", a] =
        some { default_options with option_jsonify := v }) := by
  have hb : bool_option a = v := by
    rcases h with ⟨rfl, w, hw, ha⟩ | ⟨rfl, w, hw, ha⟩
    · exact bool_option_true_words w hw a.data ha
    · exact bool_option_false_words w hw a.data ha
  subst hb
  exact ⟨fun o => ⟨rfl, rfl, rfl, rfl, rfl, rfl⟩, ⟨rfl, rfl, rfl, rfl, rfl, rfl⟩,
    ⟨rfl, rfl, rfl, rfl, rfl, rfl⟩⟩

/-- C2, at an instance: `--decoder TrUe` enables the decoder. -/
theorem C2_boolean_option_words_witness :
    parse_options ["prog", "--decoder", "TrUe"] =
      some { default_options with option_decoder := 1 } :=
  (C2_boolean_option_words "TrUe" 1
    (Or.inl ⟨rfl, "true", by decide, by decide⟩)).2.1.2.2.2.1

/-- C3: the long option `--namespace` is not in the table handed to
`getopt_long`, so it is reported as unrecognised whatever follows it; the
invocation `--namespace ns` leaves the namespace option NULL, where
`-n ns` sets it to `ns`. -/
theorem C3_long_namespace_unrecognised :
    (∀ next : Option String,
      process_long_option optstring.data options "namespace".data next =
        (getopt_error, false)) ∧
    (∀ p ∈ options, p.val ≠ 'n') ∧
    parse_options ["prog", "--namespace", "ns"] = some default_options ∧
    parse_options ["prog", "-n", "ns"] =
      some { default_options with option_namespace := some "ns" } ∧
    (main (sample_env [])
      ["prog", "-s", "a.lbs", "-o", "stdout", "-e", "1", "--namespace", "ns"]).trace =
      [Event.schema_parse_file "a.lbs" (some "ns0"),
        Event.call .schema_generate_c_encoder "ns0" .stdout (some 0) 0,
        Event.schema_destroy "ns0"] ∧
    (main (sample_env [])
      ["prog", "-s", "a.lbs", "-o", "stdout", "-e", "1", "-n", "ns"]).trace =
      [Event.schema_parse_file "a.lbs" (some "ns0"),
        Event.schema_set_namespace "ns0" "ns" 0,
        Event.call .schema_generate_c_encoder "ns" .stdout (some 0) 0,
        Event.schema_destroy "ns"] := by
  refine ⟨fun next => rfl, by decide, by decide, by decide, by decide, by decide⟩

/-- C4: a run that fails after it opened an output file (so the path is
neither `stdout` nor `stderr`, and some emitter returned non-zero) returns -1
and ends, after its diagnostic, by closing that file, calling `unlink` on
the output path and destroying the schema; the opening comes before. -/
theorem C4_failed_emission_unlinks_output (env : Env S) (argv : List String) (path : String)
    (hopen : Event.fopen path true ∈ (main env argv).trace)
    (hfail : (main env argv).rc ≠ 0) :
    (main env argv).rc = -1 ∧ path ≠ "stdout" ∧ path ≠ "stderr" ∧
    (∃ c ∈ emitter_calls (main env argv).trace, c.rc ≠ 0) ∧
    ∃ before format schema,
      (main env argv).trace = before ++
        [Event.fprintf_stderr format [path], Event.fclose (.opened path),
          Event.unlink path, Event.schema_destroy schema] ∧
      Event.fopen path true ∈ before := by
  unfold main at hopen hfail ⊢
  cases hparse : parse_options argv with
  | none => simp [hparse] at hfail
  | some o =>
  simp only [hparse] at hopen hfail ⊢
  have hp := main_body_path env o
  generalize main_body env o = r at hp hopen hfail
  cases hp with
  | no_schema hs =>
    exfalso
    cases ho : o.option_output <;> simp [bail, ho, not_standard] at hopen
  | no_output sp hs ho => simp at hopen
  | nothing sp out hs ho h1 => simp at hopen
  | mixed sp out hs ho h2 => simp at hopen
  | bad_language sp out hs ho h1 h2 hg => simp at hopen
  | parse_failed sp out g hs ho h1 h2 hg hpf => simp at hopen
  | namespace_failed sp out g parsed name hs ho h1 h2 hg hpf hn hrc => simp at hopen
  | open_failed sp out g parsed schema tn hs ho h1 h2 hg hpf hn e1 e2 e3 =>
    exfalso
    rcases hn with ⟨_, _, rfl⟩ | ⟨name, _, _, _, rfl⟩ <;> simp at hopen
  | emission sp out g parsed schema fp tn tf hs ho h1 h2 hg hpf hn hst =>
    cases hff : first_failure env schema fp (emission_steps o g) with
    | none => simp [run_steps_eq, hff, finish] at hfail
    | some st =>
      have hr : run_steps env out schema fp (emission_steps o g)
          ([Event.schema_parse_file sp (some parsed)] ++ tn ++ tf) =
          emit_failed st.format out schema fp
            ([Event.schema_parse_file sp (some parsed)] ++ tn ++ tf ++
              (executed env schema fp (emission_steps o g)).map (Step.event env schema fp)) := by
        rw [run_steps_eq, hff]
      rw [hr] at hopen ⊢
      simp only [emit_failed] at hopen ⊢
      obtain ⟨before, after, e1, e2, e3, e4⟩ := executed_of_failure env schema fp _ st hff
      have htf : Event.fopen path true ∈ tf := by
        have hb := fopen_not_mem_bail path true (some fp) (some out) (some schema)
        have hm := fopen_not_mem_steps env schema fp path true
          (executed env schema fp (emission_steps o g))
        have hn' : Event.fopen path true ∉ tn := by
          rcases hn with ⟨_, _, rfl⟩ | ⟨name, _, _, _, rfl⟩ <;> simp
        simpa [hb, hm, hn'] using hopen
      rcases hst with ⟨_, _, rfl⟩ | ⟨_, _, rfl⟩ | ⟨n1, n2, hfo, rfl, rfl⟩
      · simp at htf
      · simp at htf
      · have htf' : path = out := by simpa using htf
        subst htf'
        refine ⟨trivial, n1, n2, ?_, ?_⟩
        · refine ⟨⟨st.f, schema, .opened path, st.x, env.call st.f schema (.opened path) st.x⟩,
            ?_, e4⟩
          simp [e2, Step.event, Event.as_call, emitter_calls, List.filterMap_append]
        · refine ⟨[Event.schema_parse_file sp (some parsed)] ++ tn ++
              [Event.unlink path, Event.fopen path true] ++
              (executed env schema (.opened path) (emission_steps o g)).map
                (Step.event env schema (.opened path)), st.format, schema, ?_, ?_⟩
          · simp [bail, not_standard]
          · simp

/-- C4, at an instance: the sample invocation with a failing jsonify
emitter. -/
theorem C4_failed_emission_unlinks_output_witness :
    Event.fopen "out.c" true ∈
        (main (sample_env [.schema_generate_c_jsonify]) sample_argv).trace ∧
      (main (sample_env [.schema_generate_c_jsonify]) sample_argv).rc = -1 ∧
      ∃ before format schema,
        (main (sample_env [.schema_generate_c_jsonify]) sample_argv).trace = before ++
          [Event.fprintf_stderr format ["out.c"], Event.fclose (.opened "out.c"),
            Event.unlink "out.c", Event.schema_destroy schema] ∧
        Event.fopen "out.c" true ∈ before :=
  ⟨by decide,
    (C4_failed_emission_unlinks_output (sample_env [.schema_generate_c_jsonify]) sample_argv
      "out.c" (by decide) (by decide)).1,
    (C4_failed_emission_unlinks_output (sample_env [.schema_generate_c_jsonify]) sample_argv
      "out.c" (by decide) (by decide)).2.2.2.2⟩

/-- C5: for the option variables the option loop ends with (help not taken):
when pretty is enabled together with at least one of encoder, decoder or
jsonify, `main` returns -1 and no emitter is called; when pretty is enabled
and these three are not (whatever encoder-include-library and
decoder-use-memcpy are), the diagnostic of this check is not printed. -/
theorem C5_pretty_excludes_the_generators (env : Env S) (argv : List String) (o : Options)
    (h : parse_options argv = some o) :
    (o.option_pretty ≠ 0 ∧
        (o.option_encoder ≠ 0 ∨ o.option_decoder ≠ 0 ∨ o.option_jsonify ≠ 0) →
      (main env argv).rc = -1 ∧ emitter_calls (main env argv).trace = []) ∧
    (o.option_pretty ≠ 0 ∧ o.option_encoder = 0 ∧ o.option_decoder = 0 ∧
        o.option_jsonify = 0 →
      ∀ d ∈ diagnostics (main env argv).trace,
        d.1 ≠ "pretty and (encoder | decoder | jsonify) are different things\n") := by
  have hmain : main env argv = main_body env o := by simp [main, h]
  rw [hmain]
  have hp := main_body_path env o
  generalize main_body env o = r at hp
  constructor
  · intro hmix
    cases hp with
    | no_schema hs => simp [Event.as_call]
    | no_output sp hs ho => simp [Event.as_call]
    | nothing sp out hs ho h1 => simp [Event.as_call]
    | mixed sp out hs ho h2 => simp [Event.as_call]
    | bad_language sp out hs ho h1 h2 hg => exact absurd hmix h2
    | parse_failed sp out g hs ho h1 h2 hg hpf => exact absurd hmix h2
    | namespace_failed sp out g parsed name hs ho h1 h2 hg hpf hn hrc => exact absurd hmix h2
    | open_failed sp out g parsed schema tn hs ho h1 h2 hg hpf hn e1 e2 e3 =>
      exact absurd hmix h2
    | emission sp out g parsed schema fp tn tf hs ho h1 h2 hg hpf hn hst =>
      exact absurd hmix h2
  · rintro ⟨hpre, he, hd, hj⟩ d hdm
    cases hp with
    | no_schema hs =>
      simp [Event.as_diagnostic] at hdm
      subst hdm; simp
    | no_output sp hs ho =>
      simp [Event.as_diagnostic] at hdm
      subst hdm; simp
    | nothing sp out hs ho h1 => exact absurd h1.1 hpre
    | mixed sp out hs ho h2 =>
      exfalso
      rcases h2.2 with h2 | h2 | h2
      · exact h2 he
      · exact h2 hd
      · exact h2 hj
    | bad_language sp out hs ho h1 h2 hg =>
      simp [Event.as_diagnostic] at hdm
      subst hdm; simp
    | parse_failed sp out g hs ho h1 h2 hg hpf =>
      simp [Event.as_diagnostic] at hdm
      subst hdm; simp
    | namespace_failed sp out g parsed name hs ho h1 h2 hg hpf hn hrc =>
      simp [Event.as_diagnostic] at hdm
      subst hdm; simp
    | open_failed sp out g parsed schema tn hs ho h1 h2 hg hpf hn e1 e2 e3 =>
      rcases hn with ⟨_, _, rfl⟩ | ⟨name, _, _, _, rfl⟩ <;>
        simp [Event.as_diagnostic] at hdm <;> subst hdm <;> simp
    | emission sp out g parsed schema fp tn tf hs ho h1 h2 hg hpf hn hst =>
      have htn : diagnostics tn = [] := by
        rcases hn with ⟨_, _, rfl⟩ | ⟨name, _, _, _, rfl⟩ <;> simp [Event.as_diagnostic]
      have htf : diagnostics tf = [] := by
        rcases hst with ⟨_, _, rfl⟩ | ⟨_, _, rfl⟩ | ⟨_, _, _, _, rfl⟩ <;>
          simp [Event.as_diagnostic]
      rw [diagnostics_run_steps] at hdm
      simp only [diagnostics_append, diagnostics_cons, diagnostics_nil, htn, htf,
        Event.as_diagnostic, Option.toList, List.append_nil, List.nil_append,
        emission_steps, pretty_steps, encoder_steps, decoder_steps, jsonify_steps,
        hpre, he, hd, hj, ne_eq, not_false_eq_true, not_true_eq_false, if_true, if_false,
        first_failure] at hdm
      split_ifs at hdm with hc
      · simp at hdm
      · simp at hdm
        subst hdm; simp

/-- C5, at an instance: pretty together with encoder. -/
theorem C5_pretty_excludes_the_generators_witness :
    parse_options ["prog", "-s", "a.lbs", "-o", "out.c", "-p", "1", "-e", "1"] =
        some { default_options with
          option_schema := some "a.lbs", option_output := some "out.c",
          option_pretty := 1, option_encoder := 1 } ∧
      (main (sample_env []) ["prog", "-s", "a.lbs", "-o", "out.c", "-p", "1", "-e", "1"]).rc
        = -1 ∧
      emitter_calls
        (main (sample_env [])
          ["prog", "-s", "a.lbs", "-o", "out.c", "-p", "1", "-e", "1"]).trace = [] :=
  ⟨by decide,
    (C5_pretty_excludes_the_generators (sample_env [])
      ["prog", "-s", "a.lbs", "-o", "out.c", "-p", "1", "-e", "1"]
      { default_options with
        option_schema := some "a.lbs", option_output := some "out.c",
        option_pretty := 1, option_encoder := 1 }
      (by decide)).1 (by decide)⟩

/-- C6, as stated, fails: in the sample invocation (encoder and jsonify
enabled) with a failing encoder emitter, the run reaches the emission with
jsonify enabled and the decoder emitter is not called. -/
theorem C6_counterexample :
    parse_options sample_argv = some sample_options ∧
      reaches_emission (sample_env [.schema_generate_c_encoder]) sample_options ∧
      sample_options.option_jsonify ≠ 0 ∧
      Event.fopen "out.c" true ∈
        (main (sample_env [.schema_generate_c_encoder]) sample_argv).trace ∧
      (emitter_calls (main (sample_env [.schema_generate_c_encoder]) sample_argv).trace).map
        Call.f = [.schema_generate_c_encoder] :=
  ⟨by decide,
    ⟨"a.lbs", "out.c", "ns0", by decide, by decide, by decide, by decide, by decide,
      by decide, by decide, by decide⟩,
    by decide, by decide, by decide⟩

/-- C6, amended: in a run that reaches the emission with jsonify enabled and
in which the encoder emitter, if called, returned 0, the decoder emitter of
the selected generator is called exactly once, with the decoder-use-memcpy
setting, whether or not the decoder option is enabled; the emitter calls of
the run are the encoder call (if enabled), that decoder call, and after it
the jsonify call when the decoder returned 0. -/
theorem C6_jsonify_calls_decoder (env : Env S) (argv : List String) (o : Options)
    (g : generator) (h : parse_options argv = some o) (hr : reaches_emission env o)
    (hg : g ∈ generators ∧ g.language = o.option_language)
    (hj : o.option_jsonify ≠ 0)
    (henc : ∀ c ∈ emitter_calls (main env argv).trace, c.f = g.encoder → c.rc = 0) :
    ∃ schema fp,
      (emitter_calls (main env argv).trace).filter (fun c => decide (c.f = g.decoder)) =
        [⟨g.decoder, schema, fp, some o.option_decoder_use_memcpy,
          env.call g.decoder schema fp (some o.option_decoder_use_memcpy)⟩] ∧
      emitter_calls (main env argv).trace =
        (if o.option_encoder ≠ 0 then
          [⟨g.encoder, schema, fp, some o.option_encoder_include_library, 0⟩] else []) ++
        [⟨g.decoder, schema, fp, some o.option_decoder_use_memcpy,
          env.call g.decoder schema fp (some o.option_decoder_use_memcpy)⟩] ++
        (if env.call g.decoder schema fp (some o.option_decoder_use_memcpy) = 0 then
          [⟨g.jsonify, schema, fp, none, env.call g.jsonify schema fp none⟩] else []) := by
  have hmain : main env argv = main_body env o := by simp [main, h]
  obtain ⟨sp, out, g', parsed, schema, fp, tn, tf, hs, ho, hg', hpf, hn, hst, hrun⟩ :=
    main_body_of_reaches_emission env o hr
  have hgg := generator_unique g' g _ hg' hg
  subst hgg
  rw [hmain, hrun] at henc ⊢
  rw [emitter_calls_run_steps, emitter_calls_prelude env o sp out parsed schema fp tn tf hn hst]
    at henc ⊢
  have hpz : o.option_pretty = 0 := by
    obtain ⟨_, _, _, _, _, _, hmix, _⟩ := hr
    by_contra hne
    exact hmix ⟨hne, Or.inr (Or.inr hj)⟩
  refine ⟨schema, fp, ?_⟩
  have hgm := hg'.1
  simp only [generators, List.mem_cons, List.mem_singleton, List.not_mem_nil, or_false] at hgm
  by_cases he : o.option_encoder = 0 <;> by_cases hd : o.option_decoder = 0 <;>
    rcases hgm with rfl | rfl <;>
    simp [emission_steps, pretty_steps, encoder_steps, decoder_steps, jsonify_steps, hpz, he, hd,
      hj, executed] at henc ⊢
  all_goals (split_ifs at henc ⊢ <;> simp_all)

/-- C6 amended, at an instance: the sample invocation (encoder and jsonify,
decoder not enabled) with no failing emitter. -/
theorem C6_jsonify_calls_decoder_witness :
    parse_options sample_argv = some sample_options ∧
      reaches_emission (sample_env []) sample_options ∧
      ∃ schema fp,
        (emitter_calls (main (sample_env []) sample_argv).trace).filter
            (fun c => decide (c.f = .schema_generate_c_decoder)) =
          [⟨.schema_generate_c_decoder, schema, fp, some 0, 0⟩] :=
  ⟨by decide,
    ⟨"a.lbs", "out.c", "ns0", by decide, by decide, by decide, by decide, by decide,
      by decide, by decide, by decide⟩,
    (C6_jsonify_calls_decoder (sample_env []) sample_argv sample_options
      ⟨"c", .schema_generate_c_encoder, .schema_generate_c_decoder, .schema_generate_c_jsonify⟩
      (by decide)
      ⟨"a.lbs", "out.c", "ns0", by decide, by decide, by decide, by decide, by decide,
        by decide, by decide, by decide⟩
      (by decide) (by decide) (by decide)).imp
      (fun _ hx => hx.imp (fun _ hy => hy.1))⟩

/-- C8: in a run whose option loop ends without the help case, when a
namespace was supplied and the schema parsed, the trace begins
with the call of `schema_parse_file` followed at once by the one call of
`schema_set_namespace`, on the parsed schema with the supplied name (so
before any `unlink`, `fopen` or emitter call), no other such call follows,
and the emitters receive the schema as `schema_set_namespace` left it; when
no namespace was supplied `schema_set_namespace` is never called and the
emitters receive the parsed schema. -/
theorem C8_namespace_set_after_parse (env : Env S) (argv : List String) (o : Options)
    (h : parse_options argv = some o) :
    (∀ name sp parsed, o.option_namespace = some name →
      Event.schema_parse_file sp (some parsed) ∈ (main env argv).trace →
      ∃ rest, (main env argv).trace =
          [Event.schema_parse_file sp (some parsed),
            Event.schema_set_namespace parsed name (env.schema_set_namespace parsed name).1] ++
            rest ∧
        (∀ s n rc, Event.schema_set_namespace s n rc ∉ rest) ∧
        (∀ c ∈ emitter_calls (main env argv).trace,
          c.schema = (env.schema_set_namespace parsed name).2)) ∧
    (o.option_namespace = none →
      (∀ s n rc, Event.schema_set_namespace s n rc ∉ (main env argv).trace) ∧
      ∀ sp parsed, Event.schema_parse_file sp (some parsed) ∈ (main env argv).trace →
        ∀ c ∈ emitter_calls (main env argv).trace, c.schema = parsed) := by
  have hmain : main env argv = main_body env o := by simp [main, h]
  rw [hmain]
  have hp := main_body_path env o
  generalize main_body env o = r at hp
  cases hp with
  | no_schema hs =>
    cases ho : o.option_output <;> simp [bail, not_standard, Event.as_call]
  | no_output sp hs ho => simp [Event.as_call]
  | nothing sp out hs ho h1 => simp [Event.as_call]
  | mixed sp out hs ho h2 => simp [Event.as_call]
  | bad_language sp out hs ho h1 h2 hg => simp [Event.as_call]
  | parse_failed sp out g hs ho h1 h2 hg hpf => simp [Event.as_call]
  | namespace_failed sp out g parsed name hs ho h1 h2 hg hpf hn hrc =>
    constructor
    · intro name' sp' parsed' hn' hmem
      rw [hn] at hn'; cases hn'
      simp at hmem
      obtain ⟨rfl, rfl⟩ := hmem
      exact ⟨_, rfl, by simp, by simp [Event.as_call]⟩
    · intro hn'
      rw [hn] at hn'; cases hn'
  | open_failed sp out g parsed schema tn hs ho h1 h2 hg hpf hn e1 e2 e3 =>
    rcases hn with ⟨hn, rfl, rfl⟩ | ⟨name, hn, hz, rfl, rfl⟩
    · constructor
      · intro name' sp' parsed' hn' hmem
        rw [hn] at hn'; cases hn'
      · intro _
        simp [Event.as_call]
    · constructor
      · intro name' sp' parsed' hn' hmem
        rw [hn] at hn'; cases hn'
        simp at hmem
        obtain ⟨rfl, rfl⟩ := hmem
        exact ⟨_, by rw [hz]; rfl, by simp, by simp [Event.as_call]⟩
      · intro hn'
        rw [hn] at hn'; cases hn'
  | emission sp out g parsed schema fp tn tf hs ho h1 h2 hg hpf hn hst =>
    obtain ⟨calls, closing, htr, hcalls, hclosing⟩ := run_steps_trace env out schema fp
      (emission_steps o g) ([Event.schema_parse_file sp (some parsed)] ++ tn ++ tf)
    have hec := emitter_calls_run_steps env out schema fp (emission_steps o g)
      ([Event.schema_parse_file sp (some parsed)] ++ tn ++ tf)
    rw [emitter_calls_prelude env o sp out parsed schema fp tn tf hn hst] at hec
    have hschema : ∀ c ∈ emitter_calls (run_steps env out schema fp (emission_steps o g)
        ([Event.schema_parse_file sp (some parsed)] ++ tn ++ tf)).trace, c.schema = schema := by
      intro c hc
      rw [hec] at hc
      simp only [List.nil_append, List.mem_map] at hc
      obtain ⟨st, _, rfl⟩ := hc
      rfl
    have hns_tf : ∀ s n rc, Event.schema_set_namespace s n rc ∉ tf := by
      intro s n rc
      rcases hst with ⟨_, _, rfl⟩ | ⟨_, _, rfl⟩ | ⟨_, _, _, _, rfl⟩ <;> simp
    have hns_calls : ∀ s n rc, Event.schema_set_namespace s n rc ∉ calls := by
      intro s n rc hm
      obtain ⟨f, x, rc', he⟩ := hcalls _ hm
      cases he
    have hns_closing : ∀ s n rc, Event.schema_set_namespace s n rc ∉ closing := by
      intro s n rc
      rcases hclosing with ⟨_, rfl⟩ | ⟨_, format, rfl⟩ <;>
        by_cases hstd : not_standard (some fp) = true <;> simp [hstd]
    have hpf_tf : ∀ s r, Event.schema_parse_file s r ∉ tf := by
      intro s r
      rcases hst with ⟨_, _, rfl⟩ | ⟨_, _, rfl⟩ | ⟨_, _, _, _, rfl⟩ <;> simp
    have hpf_calls : ∀ s r, Event.schema_parse_file s r ∉ calls := by
      intro s r hm
      obtain ⟨f, x, rc', he⟩ := hcalls _ hm
      cases he
    have hpf_closing : ∀ s r, Event.schema_parse_file s r ∉ closing := by
      intro s r
      rcases hclosing with ⟨_, rfl⟩ | ⟨_, format, rfl⟩ <;>
        by_cases hstd : not_standard (some fp) = true <;> simp [hstd]
    rw [htr] at *
    rcases hn with ⟨hn, hsch, rfl⟩ | ⟨name, hn, hz, hsch, rfl⟩
    · constructor
      · intro name' sp' parsed' hn' hmem
        rw [hn] at hn'; cases hn'
      · intro _
        constructor
        · intro s n rc
          simp [hns_tf, hns_calls, hns_closing]
        · intro sp' parsed' hmem
          have : sp' = sp ∧ parsed' = parsed := by
            simpa [hpf_tf, hpf_calls, hpf_closing] using hmem
          obtain ⟨rfl, rfl⟩ := this
          intro c hc
          rw [hschema c hc, hsch]
    · constructor
      · intro name' sp' parsed' hn' hmem
        rw [hn] at hn'; cases hn'
        have : sp' = sp ∧ parsed' = parsed := by
          simpa [hpf_tf, hpf_calls, hpf_closing] using hmem
        obtain ⟨rfl, rfl⟩ := this
        refine ⟨tf ++ calls ++ closing, by rw [hz]; simp, ?_,
          fun c hc => by rw [hschema c hc, hsch]⟩
        intro s n rc
        simp [hns_tf, hns_calls, hns_closing]
      · intro hn'
        rw [hn] at hn'; cases hn'

/-- C8, at an instance: the sample invocation with `-n ns`. -/
theorem C8_namespace_set_after_parse_witness :
    parse_options (sample_argv ++ ["-n", "ns"]) =
        some { sample_options with option_namespace := some "ns" } ∧
      ∃ rest, (main (sample_env []) (sample_argv ++ ["-n", "ns"])).trace =
          [Event.schema_parse_file "a.lbs" (some "ns0"),
            Event.schema_set_namespace "ns0" "ns" 0] ++ rest ∧
        (∀ s n rc, Event.schema_set_namespace s n rc ∉ rest) ∧
        (∀ c ∈ emitter_calls (main (sample_env []) (sample_argv ++ ["-n", "ns"])).trace,
          c.schema = "ns") :=
  ⟨by decide,
    (C8_namespace_set_after_parse (sample_env []) (sample_argv ++ ["-n", "ns"])
      { sample_options with option_namespace := some "ns" } (by decide)).1
      "ns" "a.lbs" "ns0" (by decide) (by decide)⟩

/-- C9: in a run that reaches the emission (its option loop ends without the
help case) the stream is chosen by comparing the output value: with `stdout` every emitter call gets the standard output,
with `stderr` the standard error, and in both cases the run calls neither
`unlink` nor `fopen` nor `fclose`; with any other value the run calls
`unlink` on it and then `fopen`, once, before any emitter call, every emitter
call gets the opened stream, and a successful run ends by closing that stream
(and destroying the schema) without another `unlink`. -/
theorem C9_output_destination (env : Env S) (argv : List String) (o : Options)
    (output : String) (h : parse_options argv = some o) (hr : reaches_emission env o)
    (ho : o.option_output = some output) :
    (output = "stdout" →
      (∀ c ∈ emitter_calls (main env argv).trace, c.fp = .stdout) ∧
      (∀ e ∈ (main env argv).trace,
        (∀ p, e ≠ Event.unlink p) ∧ (∀ p ok, e ≠ Event.fopen p ok) ∧
          (∀ fp, e ≠ Event.fclose fp))) ∧
    (output = "stderr" →
      (∀ c ∈ emitter_calls (main env argv).trace, c.fp = .stderr) ∧
      (∀ e ∈ (main env argv).trace,
        (∀ p, e ≠ Event.unlink p) ∧ (∀ p ok, e ≠ Event.fopen p ok) ∧
          (∀ fp, e ≠ Event.fclose fp))) ∧
    (output ≠ "stdout" → output ≠ "stderr" →
      (∀ c ∈ emitter_calls (main env argv).trace, c.fp = .opened output) ∧
      ∃ before after,
        (main env argv).trace =
          before ++ [Event.unlink output, Event.fopen output true] ++ after ∧
        emitter_calls before = [] ∧
        (∀ p ok, Event.fopen p ok ∉ before ++ after) ∧
        ((main env argv).rc = 0 →
          (∀ p, Event.unlink p ∉ after) ∧
          ∃ calls schema, after = calls ++
            [Event.fclose (.opened output), Event.schema_destroy schema])) := by
  have hmain : main env argv = main_body env o := by simp [main, h]
  obtain ⟨sp, out, g, parsed, schema, fp, tn, tf, hs, ho', hg, hpf, hn, hst, hrun⟩ :=
    main_body_of_reaches_emission env o hr
  rw [ho] at ho'
  cases ho'
  rw [hmain, hrun]
  obtain ⟨calls, closing, htr, hcalls, hclosing⟩ := run_steps_trace env output schema fp
    (emission_steps o g) ([Event.schema_parse_file sp (some parsed)] ++ tn ++ tf)
  have hec := emitter_calls_run_steps env output schema fp (emission_steps o g)
    ([Event.schema_parse_file sp (some parsed)] ++ tn ++ tf)
  rw [emitter_calls_prelude env o sp output parsed schema fp tn tf hn hst] at hec
  have hfp : ∀ c ∈ emitter_calls (run_steps env output schema fp (emission_steps o g)
      ([Event.schema_parse_file sp (some parsed)] ++ tn ++ tf)).trace, c.fp = fp := by
    intro c hc
    rw [hec] at hc
    simp only [List.nil_append, List.mem_map] at hc
    obtain ⟨st, _, rfl⟩ := hc
    rfl
  have htn : ∀ e ∈ tn, (∀ p, e ≠ Event.unlink p) ∧ (∀ p ok, e ≠ Event.fopen p ok) ∧
      (∀ fp, e ≠ Event.fclose fp) := by
    intro e he
    rcases hn with ⟨_, _, rfl⟩ | ⟨name, _, _, _, rfl⟩
    · simp at he
    · simp at he; subst he; simp
  have hcl : ∀ e ∈ calls, (∀ p, e ≠ Event.unlink p) ∧ (∀ p ok, e ≠ Event.fopen p ok) ∧
      (∀ fp, e ≠ Event.fclose fp) := by
    intro e he
    obtain ⟨f, x, rc, rfl⟩ := hcalls e he
    simp
  have hstd : ∀ e ∈ (run_steps env output schema fp (emission_steps o g)
      ([Event.schema_parse_file sp (some parsed)] ++ tn ++ tf)).trace,
      tf = [] → not_standard (some fp) = false →
      (∀ p, e ≠ Event.unlink p) ∧ (∀ p ok, e ≠ Event.fopen p ok) ∧
        (∀ fp, e ≠ Event.fclose fp) := by
    intro e he htf hns
    rw [htr, htf] at he
    simp only [List.append_nil, List.mem_append, List.mem_singleton] at he
    rcases he with ((he | he) | he) | he
    · subst he; simp
    · exact htn e he
    · exact hcl e he
    · rcases hclosing with ⟨_, rfl⟩ | ⟨_, format, rfl⟩
      · simp [hns] at he; subst he; simp
      · simp [hns] at he
        rcases he with rfl | rfl <;> simp
  refine ⟨?_, ?_, ?_⟩
  · intro e1
    rcases hst with ⟨_, rfl, rfl⟩ | ⟨e2, _, _⟩ | ⟨n1, _, _, _, _⟩
    · exact ⟨hfp, fun e he => hstd e he rfl rfl⟩
    · rw [e1] at e2; exact absurd e2 (by decide)
    · exact absurd e1 n1
  · intro e1
    rcases hst with ⟨e2, _, _⟩ | ⟨_, rfl, rfl⟩ | ⟨_, n2, _, _, _⟩
    · rw [e1] at e2; exact absurd e2 (by decide)
    · exact ⟨hfp, fun e he => hstd e he rfl rfl⟩
    · exact absurd e1 n2
  · intro n1 n2
    rcases hst with ⟨e2, _, _⟩ | ⟨e2, _, _⟩ | ⟨_, _, hfo, rfl, rfl⟩
    · exact absurd e2 n1
    · exact absurd e2 n2
    · refine ⟨hfp, [Event.schema_parse_file sp (some parsed)] ++ tn, calls ++ closing,
        by rw [htr]; simp, ?_, ?_, ?_⟩
      · rcases hn with ⟨_, _, rfl⟩ | ⟨name, _, _, _, rfl⟩ <;> simp [Event.as_call]
      · intro p ok hm
        simp only [List.mem_append, List.mem_singleton] at hm
        rcases hm with (hm | hm) | hm | hm
        · cases hm
        · exact (htn _ hm).2.1 p ok rfl
        · exact (hcl _ hm).2.1 p ok rfl
        · rcases hclosing with ⟨_, rfl⟩ | ⟨_, format, rfl⟩ <;>
            simp [not_standard] at hm
      · intro hrc
        rcases hclosing with ⟨_, rfl⟩ | ⟨hneg, _⟩
        · refine ⟨?_, calls, schema, by simp [not_standard]⟩
          intro p hm
          simp only [List.mem_append] at hm
          rcases hm with hm | hm
          · exact (hcl _ hm).1 p rfl
          · simp [not_standard] at hm
        · rw [hneg] at hrc
          exact absurd hrc (by decide)

/-- C9, at an instance: the sample invocation writes to the file `out.c`. -/
theorem C9_output_destination_witness :
    parse_options sample_argv = some sample_options ∧
      reaches_emission (sample_env []) sample_options ∧
      sample_options.option_output = some "out.c" ∧
      ∀ c ∈ emitter_calls (main (sample_env []) sample_argv).trace,
        c.fp = .opened "out.c" :=
  ⟨by decide,
    ⟨"a.lbs", "out.c", "ns0", by decide, by decide, by decide, by decide, by decide,
      by decide, by decide, by decide⟩,
    rfl,
    ((C9_output_destination (sample_env []) sample_argv sample_options "out.c" (by decide)
      ⟨"a.lbs", "out.c", "ns0", by decide, by decide, by decide, by decide, by decide,
        by decide, by decide, by decide⟩
      rfl).2.2 (by decide) (by decide)).1⟩

/-- C10, as stated, fails: with a schema path, an output path, a language and
a namespace all supplied but nothing to generate, the run returns -1 and its
one diagnostic line is a fixed text that carries none of these inputs. -/
theorem C10_counterexample :
    (main (sample_env [])
        ["prog", "-s", "a.lbs", "-o", "out.c", "-l", "c", "-n", "ns"]).rc = -1 ∧
      diagnostics (main (sample_env [])
        ["prog", "-s", "a.lbs", "-o", "out.c", "-l", "c", "-n", "ns"]).trace =
        [("nothing to generate\n", [])] := by
  decide

/-- C10, amended: a successful run prints no diagnostic line of its own; a
failing run prints exactly one, which tells the failing phase: each cause of
a failure has its own text.  In the order of the checks of `main`: no schema
path, no output path, nothing to generate, and pretty combined with a
generator give a fixed text without argument; an unknown language gives the
language; a schema that cannot be read gives the schema path; a namespace
that cannot be set gives the namespace; an output that cannot be created
gives the output path; and when an emitter fails (it is the last emitter
call of the run) the text tells which of pretty, encoder, decoder and
jsonify it was and gives the output path. -/
theorem C10_one_diagnostic (env : Env S) (argv : List String) :
    ((main env argv).rc = 0 → diagnostics (main env argv).trace = []) ∧
    ((main env argv).rc ≠ 0 →
      ∃ o, parse_options argv = some o ∧
        ((o.option_schema = none ∧
            diagnostics (main env argv).trace = [("schema file is invalid\n", [])]) ∨
          (o.option_schema ≠ none ∧ o.option_output = none ∧
            diagnostics (main env argv).trace = [("output file is invalid\n", [])]) ∨
          (o.option_schema ≠ none ∧ o.option_output ≠ none ∧
            (o.option_pretty = 0 ∧ o.option_encoder = 0 ∧ o.option_decoder = 0 ∧
              o.option_jsonify = 0) ∧
            diagnostics (main env argv).trace = [("nothing to generate\n", [])]) ∨
          (o.option_schema ≠ none ∧ o.option_output ≠ none ∧
            (o.option_pretty ≠ 0 ∧
              (o.option_encoder ≠ 0 ∨ o.option_decoder ≠ 0 ∨ o.option_jsonify ≠ 0)) ∧
            diagnostics (main env argv).trace =
              [("pretty and (encoder | decoder | jsonify) are different things\n", [])]) ∨
          (∃ schema_path output, arguments_pass o schema_path output ∧
            find_generator generators o.option_language = none ∧
            diagnostics (main env argv).trace =
              [("language: %s is invalid\n", [o.option_language])]) ∨
          (∃ schema_path output g, arguments_pass o schema_path output ∧
            find_generator generators o.option_language = some g ∧
            env.schema_parse_file schema_path = none ∧
            diagnostics (main env argv).trace =
              [("can not read schema file: %s\n", [schema_path])]) ∨
          (∃ schema_path output g parsed name, arguments_pass o schema_path output ∧
            find_generator generators o.option_language = some g ∧
            env.schema_parse_file schema_path = some parsed ∧
            o.option_namespace = some name ∧
            (env.schema_set_namespace parsed name).1 ≠ 0 ∧
            diagnostics (main env argv).trace =
              [("can not set schema namespace: %s\n", [name])]) ∨
          (∃ schema_path output g parsed schema tn, arguments_pass o schema_path output ∧
            find_generator generators o.option_language = some g ∧
            env.schema_parse_file schema_path = some parsed ∧
            namespace_step env o parsed schema tn ∧
            output ≠ "stdout" ∧ output ≠ "stderr" ∧ env.fopen output = false ∧
            diagnostics (main env argv).trace = [("can not create file: %s\n", [output])]) ∨
          (∃ schema_path output g parsed schema tn fp tf c,
            arguments_pass o schema_path output ∧
            find_generator generators o.option_language = some g ∧
            env.schema_parse_file schema_path = some parsed ∧
            namespace_step env o parsed schema tn ∧
            stream_step env output fp tf ∧
            (emitter_calls (main env argv).trace).getLast? = some c ∧
            c.schema = schema ∧ c.fp = fp ∧ c.rc = env.call c.f schema fp c.x ∧ c.rc ≠ 0 ∧
            ((c.f = .schema_generate_pretty ∧ diagnostics (main env argv).trace =
                [("can not generate schema file: %s\n", [output])]) ∨
              (c.f = g.encoder ∧ diagnostics (main env argv).trace =
                [("can not generate encoder file: %s\n", [output])]) ∨
              (c.f = g.decoder ∧ diagnostics (main env argv).trace =
                [("can not generate decoder file: %s\n", [output])]) ∨
              (c.f = g.jsonify ∧ diagnostics (main env argv).trace =
                [("can not generate jsonify file: %s\n", [output])]))))) := by
  unfold main
  cases hparse : parse_options argv with
  | none => simp [Event.as_diagnostic]
  | some o =>
  simp only []
  have hp := main_body_path env o
  generalize main_body env o = r at hp
  cases hp with
  | no_schema hs =>
    refine ⟨by simp, fun _ => ⟨o, rfl, Or.inl ⟨hs, ?_⟩⟩⟩
    cases o.option_output <;> simp [diagnostics, Event.as_diagnostic, bail, not_standard]
  | no_output sp hs ho =>
    refine ⟨by simp, fun _ => ⟨o, rfl, Or.inr (Or.inl ⟨by simp [hs], ho, ?_⟩)⟩⟩
    simp [diagnostics, Event.as_diagnostic]
  | nothing sp out hs ho h1 =>
    refine ⟨by simp, fun _ => ⟨o, rfl, Or.inr (Or.inr (Or.inl
      ⟨by simp [hs], by simp [ho], h1, ?_⟩))⟩⟩
    simp [diagnostics, Event.as_diagnostic]
  | mixed sp out hs ho h2 =>
    refine ⟨by simp, fun _ => ⟨o, rfl, Or.inr (Or.inr (Or.inr (Or.inl
      ⟨by simp [hs], by simp [ho], h2, ?_⟩)))⟩⟩
    simp [diagnostics, Event.as_diagnostic]
  | bad_language sp out hs ho h1 h2 hg =>
    refine ⟨by simp, fun _ => ⟨o, rfl, Or.inr (Or.inr (Or.inr (Or.inr (Or.inl
      ⟨sp, out, ⟨hs, ho, h1, h2⟩, hg, ?_⟩))))⟩⟩
    simp [diagnostics, Event.as_diagnostic]
  | parse_failed sp out g hs ho h1 h2 hg hpf =>
    refine ⟨by simp, fun _ => ⟨o, rfl, Or.inr (Or.inr (Or.inr (Or.inr (Or.inr (Or.inl
      ⟨sp, out, g, ⟨hs, ho, h1, h2⟩, hg, hpf, ?_⟩)))))⟩⟩
    simp [diagnostics, Event.as_diagnostic]
  | namespace_failed sp out g parsed name hs ho h1 h2 hg hpf hn hrc =>
    refine ⟨by simp, fun _ => ⟨o, rfl, Or.inr (Or.inr (Or.inr (Or.inr (Or.inr (Or.inr (Or.inl
      ⟨sp, out, g, parsed, name, ⟨hs, ho, h1, h2⟩, hg, hpf, hn, hrc, ?_⟩))))))⟩⟩
    simp [diagnostics, Event.as_diagnostic]
  | open_failed sp out g parsed schema tn hs ho h1 h2 hg hpf hn e1 e2 e3 =>
    refine ⟨by simp, fun _ => ⟨o, rfl, Or.inr (Or.inr (Or.inr (Or.inr (Or.inr (Or.inr (Or.inr
      (Or.inl ⟨sp, out, g, parsed, schema, tn, ⟨hs, ho, h1, h2⟩, hg, hpf, hn, e1, e2, e3,
        ?_⟩)))))))⟩⟩
    rcases hn with ⟨_, _, rfl⟩ | ⟨name, _, _, _, rfl⟩ <;>
      simp [diagnostics, Event.as_diagnostic]
  | emission sp out g parsed schema fp tn tf hs ho h1 h2 hg hpf hn hst =>
    have hd := diagnostics_run_steps env out schema fp (emission_steps o g)
      ([Event.schema_parse_file sp (some parsed)] ++ tn ++ tf)
    rw [diagnostics_prelude env o sp out parsed schema fp tn tf hn hst] at hd
    cases hff : first_failure env schema fp (emission_steps o g) with
    | none =>
      rw [hff] at hd
      refine ⟨fun _ => by simpa using hd, fun hne => ?_⟩
      rw [run_steps_eq, hff] at hne
      exact absurd rfl hne
    | some st =>
      rw [hff] at hd
      simp only [List.nil_append] at hd
      refine ⟨fun hz => ?_, fun _ => ⟨o, rfl, ?_⟩⟩
      · rw [run_steps_eq, hff] at hz
        simp [emit_failed] at hz
      · obtain ⟨before, after, e1, _, _, hfail⟩ :=
          executed_of_failure env schema fp _ st hff
        have hmem : st ∈ emission_steps o g := by rw [e1]; simp
        have hlast := last_call_of_failure env out schema fp (emission_steps o g)
          ([Event.schema_parse_file sp (some parsed)] ++ tn ++ tf) st
          (emitter_calls_prelude env o sp out parsed schema fp tn tf hn hst) hff
        refine Or.inr (Or.inr (Or.inr (Or.inr (Or.inr (Or.inr (Or.inr (Or.inr
          ⟨sp, out, g, parsed, schema, tn, fp, tf, _, ⟨hs, ho, h1, h2⟩, hg, hpf, hn, hst,
            hlast, rfl, rfl, rfl, hfail, ?_⟩)))))))
        rw [hd]
        rcases emission_steps_emitter o g st hmem with ⟨a, b⟩ | ⟨a, b⟩ | ⟨a, b⟩ | ⟨a, b⟩
        · exact Or.inl ⟨a, by rw [b]⟩
        · exact Or.inr (Or.inl ⟨a, by rw [b]⟩)
        · exact Or.inr (Or.inr (Or.inl ⟨a, by rw [b]⟩))
        · exact Or.inr (Or.inr (Or.inr ⟨a, by rw [b]⟩))

/-- C10 amended, at an instance: a run without arguments prints the line for
the missing schema path. -/
theorem C10_one_diagnostic_witness :
    (main (sample_env []) ["prog"]).rc ≠ 0 ∧
      diagnostics (main (sample_env []) ["prog"]).trace =
        [("schema file is invalid\n", [])] := by
  refine ⟨by decide, ?_⟩
  obtain ⟨o, hp, h⟩ := (C10_one_diagnostic (sample_env []) ["prog"]).2 (by decide)
  have hd : parse_options ["prog"] = some default_options := by decide
  rw [hd] at hp
  cases hp
  rcases h with ⟨_, h⟩ | ⟨h, _⟩ | ⟨h, _⟩ | ⟨h, _⟩ | ⟨_, _, ⟨h, _⟩, _⟩ | ⟨_, _, _, ⟨h, _⟩, _⟩ |
    ⟨_, _, _, _, _, ⟨h, _⟩, _⟩ | ⟨_, _, _, _, _, _, ⟨h, _⟩, _⟩ |
    ⟨_, _, _, _, _, _, _, _, _, ⟨h, _⟩, _⟩
  · exact h
  all_goals first
    | exact absurd rfl h
    | exact absurd h (by simp [default_options])

/-- C11: `linearbuffers_debug_level_from_string` maps each of the six names
`silent`, `error`, `warning`, `notice`, `info`, `debug` and each alias `s`,
`e`, `w`, `n`, `i`, `d` to the level of that name, and every other string
(such as `DEBUG` or `Silent`) and the NULL pointer to the error level. -/
theorem C11_level_from_string :
    linearbuffers_debug_level_from_string none = .error ∧
    (linearbuffers_debug_level_from_string (some "silent") = .silent ∧
      linearbuffers_debug_level_from_string (some "error") = .error ∧
      linearbuffers_debug_level_from_string (some "warning") = .warning ∧
      linearbuffers_debug_level_from_string (some "notice") = .notice ∧
      linearbuffers_debug_level_from_string (some "info") = .info ∧
      linearbuffers_debug_level_from_string (some "debug") = .debug) ∧
    (linearbuffers_debug_level_from_string (some "s") = .silent ∧
      linearbuffers_debug_level_from_string (some "e") = .error ∧
      linearbuffers_debug_level_from_string (some "w") = .warning ∧
      linearbuffers_debug_level_from_string (some "n") = .notice ∧
      linearbuffers_debug_level_from_string (some "i") = .info ∧
      linearbuffers_debug_level_from_string (some "d") = .debug) ∧
    (∀ string : String,
      string ∉ ["silent", "error", "warning", "notice", "info", "debug",
        "s", "e", "w", "n", "i", "d"] →
      linearbuffers_debug_level_from_string (some string) = .error) ∧
    linearbuffers_debug_level_from_string (some "DEBUG") = .error ∧
    linearbuffers_debug_level_from_string (some "Silent") = .error := by
  refine ⟨rfl, by decide, by decide, ?_, by decide, by decide⟩
  intro string h
  simp only [List.mem_cons, List.mem_singleton, List.not_mem_nil, or_false, not_or] at h
  obtain ⟨h1, h2, h3, h4, h5, h6, h7, h8, h9, h10, h11, h12⟩ := h
  simp [linearbuffers_debug_level_from_string, strcmp_eq_zero, h1, h2, h3, h4, h5, h6, h7, h8,
    h9, h10, h11, h12]

/-- C11, at an instance: `verbose` is no level name. -/
theorem C11_level_from_string_witness :
    linearbuffers_debug_level_from_string (some "verbose") = .error :=
  C11_level_from_string.2.2.2.1 "verbose" (by decide)

/-- C12: when `getopt_long` returns the help option at some point of the
option loop (whatever comes before or after it on the command line, and
whether or not the required options are there), `main` returns 0 and the
whole run is the one call of `print_help` on the program name: no
diagnostic, no `schema_parse_file`, no `unlink`, no `fopen`, no emitter call;
what is written to the standard output is the usage text: the program name,
the heading, and one line for each option with its values and its default.
The arguments `-h` and `--help` in option position make `getopt_long` return
the help option. -/
theorem C12_help_returns_at_once (env : Env S) (argv : List String)
    (h : getopt_ret.flag 'h' ∈ getopt_long optstring.data options false argv.tail) :
    (∃ name rest, argv = name :: rest ∧
      main env argv = ⟨0, [Event.print_help (some name)]⟩ ∧
      stdout_lines (main env argv).trace =
        [ name ++ ":\n",
          "\n",
          "options:\n",
          "  -s, --schema   : schema file (default: (null))\n",
          "  -o, --output   : output file (default: (null))\n",
          "  -p, --pretty   : generate pretty (values: \x7b 0, 1 \x7d, default: 0)\n",
          "  -l, --language : generate language (values: \x7b c, js \x7d, default: c)\n",
          "  -e, --encoder: generate encoder (values: \x7b 0, 1 \x7d, default: 0)\n",
          "  -i, --encoder-include-library: generate encoder with builtin library(values: \x7b 0, 1 \x7d, default: 0)\n",
          "  -d, --decoder  : generate decoder (values: \x7b 0, 1 \x7d, default: 0)\n",
          "  -m, --decoder-use-memcpy: decode using memcpy, rather than casting (values: \x7b 0, 1 \x7d, default: 0)\n",
          "  -j, --jsonify  : generate jsonify (values: \x7b 0, 1 \x7d, default: 0)\n",
          "  -n, --namespace: namespace (default: (null))\n",
          "  -h, --help     : this text\n" ]) ∧
    (∀ rest : List String,
      getopt_long optstring.data options false ("-h" :: rest) =
        .flag 'h' :: getopt_long optstring.data options false rest ∧
      getopt_long optstring.data options false ("--help" :: rest) =
        .flag 'h' :: getopt_long optstring.data options false rest) := by
  refine ⟨?_, fun rest => ⟨rfl, rfl⟩⟩
  cases argv with
  | nil => simp [getopt_long] at h
  | cons name rest =>
    have hp : parse_options (name :: rest) = none := option_loop_help _ _ h
    refine ⟨name, rest, rfl, ?_, ?_⟩
    · simp [main, hp]
    · simp [main, hp, stdout_lines, print_help]

/-- C12, at an instance: help between other options, without a schema. -/
theorem C12_help_returns_at_once_witness :
    main (sample_env []) ["prog", "-e", "1", "--help", "-o", "out.c"] =
      ⟨0, [Event.print_help (some "prog")]⟩ := by
  obtain ⟨name, rest, h1, h2, _⟩ := (C12_help_returns_at_once (sample_env [])
    ["prog", "-e", "1", "--help", "-o", "out.c"] (by decide)).1
  cases h1
  exact h2

namespace Runtime

section
variable (s : schema)

/-- C13: vector round trip.  For a vector field `f` of the output whose
elements are scalars or enums of type `k` (any of int8/16/32/64,
uint8/16/32/64) and every list `vs` of values of that type, the session
`output_start; create (vs); output_finish` reports no failure when it fits,
its linearized buffer decodes, and the decoder returns `get_count = n`,
`get_length = n * width`, `get_values` equal to the little-endian bytes of
the input array, and `get_at i = vs[i]` for every `i < n`.  For a string
vector field and every list `ss` of strings, `get_count = n` and `get_at i`
is the `i`-th string. -/
theorem C13_vector_create_round_trip (f : Nat) (hroot : s.root < s.tables.length) :
    (∀ (el : element_type) (k : scalar_type) (vs : List Int),
      (s.table s.root)[f]? = some (.vector el) → el.scalar_type = some k →
      (∀ x ∈ vs, in_range k x) →
      table_size (s.table s.root) + (16 + vs.length * k.width) < 2 ^ 64 →
      ∃ buffer v,
        (output_finish (field_vector_create f vs (output_start (encoder_create s)))).rc = 0 ∧
        linearized (output_finish (field_vector_create f vs (output_start (encoder_create s)))) =
          some buffer ∧
        output_decode s buffer = some v ∧
        v.get_count f = vs.length ∧
        v.get_length f = vs.length * k.width ∧
        v.get_values f = (vs.map (encode_scalar k)).flatten ∧
        ∀ i (h : i < vs.length), v.get_at f k i = vs.get ⟨i, h⟩) ∧
    (∀ (ss : List (List Nat)),
      (s.table s.root)[f]? = some (.vector .string) →
      table_size (s.table s.root) +
        ((ss.map (fun x => 8 + x.length)).sum + (16 + ss.length * 8)) < 2 ^ 64 →
      ∃ buffer v,
        (output_finish (field_strings_create f ss (output_start (encoder_create s)))).rc = 0 ∧
        linearized (output_finish (field_strings_create f ss (output_start (encoder_create s)))) =
          some buffer ∧
        output_decode s buffer = some v ∧
        v.get_count f = ss.length ∧
        ∀ i (h : i < ss.length), v.get_string_at f i = ss.get ⟨i, h⟩) := by
  constructor
  · intro el k vs hel hk hr hlt
    have hv : ∀ blk ∈ [(⟨f, .scalars vs, true⟩ : block)], block_valid s blk = true := by
      intro blk hblk
      rw [List.mem_singleton.mp hblk]
      exact block_valid_of_scalars hel hk hr true
    have hfits : session_bytes s [⟨f, .scalars vs, true⟩] < 2 ^ 64 := by
      have hbytes : session_bytes s [⟨f, .scalars vs, true⟩] =
          table_size (s.table s.root) + (16 + vs.length * element_width el) := by
        simp [session_bytes, block_bytes, hel, content_bytes, vector_bytes]
      rw [hbytes, (header_of_scalar hk 0).2]
      exact hlt
    obtain ⟨buffer, v, h1, h2, h3, h4, h5⟩ := session_decodes s _ hroot hv (by simp) hfits
    obtain ⟨_, hdec⟩ := (h5 _ (List.mem_singleton.mpr rfl)).2 rfl
    obtain ⟨hc, hrest⟩ := hdec
    have hvt : v.table[f]? = some (.vector el) := by rw [h4]; exact hel
    obtain ⟨hl, hvals, hat⟩ := hrest el k hvt hk
    exact ⟨buffer, v, h1, h2, h3, hc, hl, hvals, hat⟩
  · intro ss hel hlt
    have hv : ∀ blk ∈ [(⟨f, .strings ss, true⟩ : block)], block_valid s blk = true := by
      intro blk hblk
      rw [List.mem_singleton.mp hblk]
      exact block_valid_of_strings hel true
    have hfits : session_bytes s [⟨f, .strings ss, true⟩] < 2 ^ 64 := by
      have hbytes : session_bytes s [⟨f, .strings ss, true⟩] =
          table_size (s.table s.root) +
            ((ss.map (fun x => 8 + x.length)).sum + (16 + ss.length * 8)) := by
        simp [session_bytes, block_bytes, hel, content_bytes, vector_bytes]
      rw [hbytes]
      exact hlt
    obtain ⟨buffer, v, h1, h2, h3, h4, h5⟩ := session_decodes s _ hroot hv (by simp) hfits
    obtain ⟨_, hdec⟩ := (h5 _ (List.mem_singleton.mpr rfl)).2 rfl
    obtain ⟨hc, _, hat⟩ := hdec
    exact ⟨buffer, v, h1, h2, h3, hc, hat⟩

/-- C13, at an instance: the field `int16s` of the sample schema with four
values. -/
theorem C13_vector_create_round_trip_witness :
    ∃ buffer v,
      (output_finish (field_vector_create 1 [0, -1, 2, -3]
        (output_start (encoder_create sample_schema)))).rc = 0 ∧
      linearized (output_finish (field_vector_create 1 [0, -1, 2, -3]
        (output_start (encoder_create sample_schema)))) = some buffer ∧
      output_decode sample_schema buffer = some v ∧
      v.get_count 1 = [(0 : Int), -1, 2, -3].length ∧
      v.get_length 1 = [(0 : Int), -1, 2, -3].length * scalar_type.int16.width ∧
      v.get_values 1 = ([(0 : Int), -1, 2, -3].map (encode_scalar .int16)).flatten ∧
      ∀ i (h : i < [(0 : Int), -1, 2, -3].length),
        v.get_at 1 .int16 i = [(0 : Int), -1, 2, -3].get ⟨i, h⟩ :=
  (C13_vector_create_round_trip sample_schema 1 (by decide)).1 (.scalar .int16) .int16
    [0, -1, 2, -3] rfl rfl (by decide) (by decide)

/-- C14: cancel makes the field absent.  In a session on the output with
one `start; push x n; end` or `start; push x n; cancel` block per vector
field, with any pushed values, that fits: no call fails, the buffer
decodes, every field whose block was cancelled is reported not present, and
every field whose block was ended is present and decodes to exactly what
was pushed. -/
theorem C14_cancel_leaves_field_absent (blocks : List block)
    (hroot : s.root < s.tables.length)
    (hvalid : ∀ blk ∈ blocks, block_valid s blk = true)
    (hdistinct : (blocks.map block.field).Nodup)
    (hfits : session_bytes s blocks < 2 ^ 64) :
    ∃ buffer v, (session s blocks).rc = 0 ∧ linearized (session s blocks) = some buffer ∧
      output_decode s buffer = some v ∧
      ∀ blk ∈ blocks,
        (blk.ended = false → v.present blk.field = false) ∧
        (blk.ended = true → v.present blk.field = true ∧
          vector_decodes v blk.field blk.content) := by
  obtain ⟨buffer, v, h1, h2, h3, _, h5⟩ := session_decodes s blocks hroot hvalid hdistinct hfits
  exact ⟨buffer, v, h1, h2, h3, h5⟩

/-- C14, at an instance: the session of `test/10.c` on the sample schema. -/
theorem C14_cancel_leaves_field_absent_witness :
    ∃ buffer v, (session sample_schema sample_blocks_10).rc = 0 ∧
      linearized (session sample_schema sample_blocks_10) = some buffer ∧
      output_decode sample_schema buffer = some v ∧
      ∀ blk ∈ sample_blocks_10,
        (blk.ended = false → v.present blk.field = false) ∧
        (blk.ended = true → v.present blk.field = true ∧
          vector_decodes v blk.field blk.content) :=
  C14_cancel_leaves_field_absent sample_schema sample_blocks_10 (by decide) (by decide)
    (by decide) (by decide)

/-- C15: table vector with cancelled elements.  In a session that fits, for
a table vector field `f` whose elements are built in place, each closed
by end or by cancel: the decoded count is the number of elements closed
with end, and the `k`-th decoded element carries for every field what
the `k`-th ended element was given, in the original order. -/
theorem C15_table_vector_with_cancelled_elements (blocks : List block) (f t : Nat)
    (elements : List element_build)
    (hroot : s.root < s.tables.length)
    (hvalid : ∀ blk ∈ blocks, block_valid s blk = true)
    (hdistinct : (blocks.map block.field).Nodup)
    (hfits : session_bytes s blocks < 2 ^ 64)
    (hmem : (⟨f, .tables t true elements, true⟩ : block) ∈ blocks) :
    ∃ buffer v, (session s blocks).rc = 0 ∧ linearized (session s blocks) = some buffer ∧
      output_decode s buffer = some v ∧
      v.get_count f = (elements.filter (fun el => el.ended)).length ∧
      ∀ k (h : k < (elements.filter (fun el => el.ended)).length) g, g < (s.table t).length →
        field_decodes (v.get_table_at f t k) g
          (record_of ((elements.filter (fun el => el.ended)).get ⟨k, h⟩).writes g) := by
  obtain ⟨buffer, v, h1, h2, h3, h4, h5⟩ := session_decodes s blocks hroot hvalid hdistinct hfits
  obtain ⟨_, hc, hat⟩ := (h5 _ hmem).2 rfl
  refine ⟨buffer, v, h1, h2, h3, hc, fun k h g hg => ?_⟩
  have hvs : v.schema = s := by rw [h4]
  exact hat k h g (by rw [hvs]; exact hg)

/-- C15, at an instance: the session of `test/10.c` on the sample schema: four
elements, the odd-indexed ones cancelled. -/
theorem C15_table_vector_with_cancelled_elements_witness :
    ∃ buffer v, (session sample_schema sample_blocks_10).rc = 0 ∧
      linearized (session sample_schema sample_blocks_10) = some buffer ∧
      output_decode sample_schema buffer = some v ∧
      v.get_count 10 = 2 ∧
      ∀ k (h : k < 2) g, g < (sample_schema.table 1).length →
        field_decodes (v.get_table_at 10 1 k) g
          (record_of (([⟨sample_writes 0, true⟩, ⟨sample_writes 2, true⟩] :
            List element_build).get ⟨k, h⟩).writes g) :=
  C15_table_vector_with_cancelled_elements sample_schema sample_blocks_10 10 1
    [⟨sample_writes 0, true⟩, ⟨sample_writes 1, false⟩, ⟨sample_writes 2, true⟩,
      ⟨sample_writes 3, false⟩] (by decide) (by decide) (by decide) (by decide) (by decide)

/-- C16: table element round trip.  In a session that fits, for a list of
tables each built on its own with `a_table_start`, one call per field (set
for scalars and enums, create for the string) and `a_table_end`, whose
offsets are pushed into a table vector started on its own and given to the
field `f` of the output: the decoded count is the number of tables pushed,
and for every index `i` the accessor of every field that was given a value
on the `i`-th table reports the field present and returns that value. -/
theorem C16_table_element_round_trip (blocks : List block) (f t : Nat)
    (tables : List (List (Nat × element_value)))
    (hroot : s.root < s.tables.length)
    (hvalid : ∀ blk ∈ blocks, block_valid s blk = true)
    (hdistinct : (blocks.map block.field).Nodup)
    (hfits : session_bytes s blocks < 2 ^ 64)
    (hone : ∀ ws ∈ tables, (ws.map Prod.fst).Nodup)
    (hmem : (⟨f, .tables t false (tables.map (fun ws => ⟨ws, true⟩)), true⟩ : block) ∈ blocks) :
    ∃ buffer v, (session s blocks).rc = 0 ∧ linearized (session s blocks) = some buffer ∧
      output_decode s buffer = some v ∧
      v.get_count f = tables.length ∧
      ∀ i (h : i < tables.length) g x, (g, x) ∈ tables.get ⟨i, h⟩ →
        field_decodes (v.get_table_at f t i) g (some x) := by
  obtain ⟨buffer, v, h1, h2, h3, h4, h5⟩ := session_decodes s blocks hroot hvalid hdistinct hfits
  obtain ⟨_, hc, hat⟩ := (h5 _ hmem).2 rfl
  have hee := ended_elements_map_true tables
  refine ⟨buffer, v, h1, h2, h3, ?_, fun i h g x hx => ?_⟩
  · rw [hc, hee, List.length_map]
  · have hvs : v.schema = s := by rw [h4]
    have hvalid1 := block_valid_tables (hvalid _ hmem)
    have hws : tables.get ⟨i, h⟩ ∈ tables := List.get_mem _ _ _
    have hg : g < (s.table t).length := by
      have hw := hvalid1 ⟨tables.get ⟨i, h⟩, true⟩
        (List.mem_map.mpr ⟨_, hws, rfl⟩) (g, x) hx
      cases x with
      | scalar y =>
        obtain ⟨k, hk, _⟩ := write_valid_scalar hw
        rcases hk with hk | hk <;> exact lt_length_of_getElem? hk
      | string y => exact lt_length_of_getElem? (write_valid_string hw)
    have hi : i < (ended_elements (tables.map (fun ws => (⟨ws, true⟩ : element_build)))).length := by
      rw [hee, List.length_map]; exact h
    have := hat i hi g (by rw [hvs]; exact hg)
    have hget : ((ended_elements (tables.map (fun ws => (⟨ws, true⟩ : element_build)))).get
        ⟨i, hi⟩).writes = tables.get ⟨i, h⟩ := by
      simp only [List.get_eq_getElem, hee, List.getElem_map]
    rw [hget, record_of_nodup (hone _ hws) hx] at this
    exact this

/-- C16, at an instance: the session of `test/09.c` on the sample schema with four
tables. -/
theorem C16_table_element_round_trip_witness :
    ∃ buffer v, (session sample_schema sample_blocks_09).rc = 0 ∧
      linearized (session sample_schema sample_blocks_09) = some buffer ∧
      output_decode sample_schema buffer = some v ∧
      v.get_count 10 = sample_tables_09.length ∧
      ∀ i (h : i < sample_tables_09.length) g x, (g, x) ∈ sample_tables_09.get ⟨i, h⟩ →
        field_decodes (v.get_table_at 10 1 i) g (some x) :=
  C16_table_element_round_trip sample_schema sample_blocks_09 10 1 sample_tables_09
    (by decide) (by decide) (by decide) (by decide) (by decide) (by decide)

end

end Runtime

/-- C17: with `stdout` or `stderr` as the output, a run that fails before the
stream is chosen (nothing to generate, unknown language, unreadable schema)
calls `unlink` on the path `stdout` resp. `stderr`; a run that fails in the
emission does not. -/
theorem C17_unlink_of_stdout :
    (main (sample_env []) ["prog", "-s", "a.lbs", "-o", "stdout"]).trace =
      [Event.fprintf_stderr "nothing to generate\n" [], Event.unlink "stdout"] ∧
    (main (sample_env []) ["prog", "-s", "a.lbs", "-o", "stderr", "-e", "1", "-l", "C"]).trace =
      [Event.fprintf_stderr "language: %s is invalid\n" ["C"], Event.unlink "stderr"] ∧
    (main (sample_env []) ["prog", "-s", "missing.lbs", "-o", "stdout", "-e", "1"]).trace =
      [Event.schema_parse_file "missing.lbs" none,
        Event.fprintf_stderr "can not read schema file: %s\n" ["missing.lbs"],
        Event.unlink "stdout"] ∧
    (main (sample_env [.schema_generate_c_encoder])
        ["prog", "-s", "a.lbs", "-o", "stdout", "-e", "1"]).trace =
      [Event.schema_parse_file "a.lbs" (some "ns0"),
        Event.call .schema_generate_c_encoder "ns0" .stdout (some 0) 1,
        Event.fprintf_stderr "can not generate encoder file: %s\n" ["stdout"],
        Event.schema_destroy "ns0"] := by
  decide

/-- C18: when the option loop ends (help not taken) with the schema path
missing, the output path missing, none of pretty / encoder / decoder /
jsonify enabled, pretty combined with one of the other three, or a language
that is neither `c` nor `js`, `main` returns -1 and its run has no call of
`schema_parse_file`, no `fopen` and no emitter call. -/
theorem C18_validation_precedes_work (env : Env S) (argv : List String) (o : Options)
    (h : parse_options argv = some o)
    (hrej : o.option_schema = none ∨ o.option_output = none ∨
      (o.option_pretty = 0 ∧ o.option_encoder = 0 ∧ o.option_decoder = 0 ∧
        o.option_jsonify = 0) ∨
      (o.option_pretty ≠ 0 ∧
        (o.option_encoder ≠ 0 ∨ o.option_decoder ≠ 0 ∨ o.option_jsonify ≠ 0)) ∨
      (o.option_language ≠ "c" ∧ o.option_language ≠ "js")) :
    (main env argv).rc = -1 ∧
    (∀ path ret, Event.schema_parse_file path ret ∉ (main env argv).trace) ∧
    (∀ path ok, Event.fopen path ok ∉ (main env argv).trace) ∧
    emitter_calls (main env argv).trace = [] := by
  have hmain : main env argv = main_body env o := by simp [main, h]
  rw [hmain]
  have hcontra : ∀ sp out g, o.option_schema = some sp → o.option_output = some out →
      ¬ (o.option_pretty = 0 ∧ o.option_encoder = 0 ∧ o.option_decoder = 0 ∧
        o.option_jsonify = 0) →
      ¬ (o.option_pretty ≠ 0 ∧
        (o.option_encoder ≠ 0 ∨ o.option_decoder ≠ 0 ∨ o.option_jsonify ≠ 0)) →
      find_generator generators o.option_language = some g → False := by
    intro sp out g hs ho h1 h2 hg
    rcases hrej with hr | hr | hr | hr | hr
    · rw [hs] at hr; cases hr
    · rw [ho] at hr; cases hr
    · exact h1 hr
    · exact h2 hr
    · have := (find_generator_none o.option_language).2 hr
      rw [hg] at this
      cases this
  have hp := main_body_path env o
  generalize main_body env o = r at hp
  cases hp with
  | no_schema hs =>
    cases ho : o.option_output <;> simp [bail, not_standard, Event.as_call]
  | no_output sp hs ho => simp [Event.as_call]
  | nothing sp out hs ho h1 => simp [Event.as_call]
  | mixed sp out hs ho h2 => simp [Event.as_call]
  | bad_language sp out hs ho h1 h2 hg => simp [Event.as_call]
  | parse_failed sp out g hs ho h1 h2 hg hpf => exact (hcontra sp out g hs ho h1 h2 hg).elim
  | namespace_failed sp out g parsed name hs ho h1 h2 hg hpf hn hrc =>
    exact (hcontra sp out g hs ho h1 h2 hg).elim
  | open_failed sp out g parsed schema tn hs ho h1 h2 hg hpf hn e1 e2 e3 =>
    exact (hcontra sp out g hs ho h1 h2 hg).elim
  | emission sp out g parsed schema fp tn tf hs ho h1 h2 hg hpf hn hst =>
    exact (hcontra sp out g hs ho h1 h2 hg).elim

/-- C18, at an instance: no schema path. -/
theorem C18_validation_precedes_work_witness :
    parse_options ["prog", "-o", "out.c", "-e", "1"] =
        some { default_options with option_output := some "out.c", option_encoder := 1 } ∧
      (main (sample_env []) ["prog", "-o", "out.c", "-e", "1"]).rc = -1 ∧
      emitter_calls (main (sample_env []) ["prog", "-o", "out.c", "-e", "1"]).trace = [] :=
  ⟨by decide,
    (C18_validation_precedes_work (sample_env []) ["prog", "-o", "out.c", "-e", "1"]
      { default_options with option_output := some "out.c", option_encoder := 1 }
      (by decide) (Or.inl rfl)).1,
    (C18_validation_precedes_work (sample_env []) ["prog", "-o", "out.c", "-e", "1"]
      { default_options with option_output := some "out.c", option_encoder := 1 }
      (by decide) (Or.inl rfl)).2.2.2⟩

/-- C19: in a run whose option loop ends without the help case, the emitters
called are, in this order and each at most once, among pretty, encoder,
decoder, jsonify of the selected generator; all calls get the same stream
and the same schema; a call that returns non-zero is the last one, and the
run returns -1. -/
theorem C19_emitters_in_fixed_order (env : Env S) (argv : List String) (o : Options)
    (h : parse_options argv = some o) :
    (∀ g ∈ generators, g.language = o.option_language →
      ((emitter_calls (main env argv).trace).map Call.f).Sublist
        [.schema_generate_pretty, g.encoder, g.decoder, g.jsonify]) ∧
    (emitter_calls (main env argv).trace ≠ [] →
      ∃ g ∈ generators, g.language = o.option_language) ∧
    (∀ c ∈ emitter_calls (main env argv).trace,
      ∀ c' ∈ emitter_calls (main env argv).trace, c.fp = c'.fp ∧ c.schema = c'.schema) ∧
    (∀ pre c post, emitter_calls (main env argv).trace = pre ++ c :: post → c.rc ≠ 0 →
      post = [] ∧ (main env argv).rc = -1) := by
  have hmain : main env argv = main_body env o := by simp [main, h]
  rw [hmain]
  have hp := main_body_path env o
  generalize main_body env o = r at hp
  cases hp with
  | no_schema hs => simp [Event.as_call]
  | no_output sp hs ho => simp [Event.as_call]
  | nothing sp out hs ho h1 => simp [Event.as_call]
  | mixed sp out hs ho h2 => simp [Event.as_call]
  | bad_language sp out hs ho h1 h2 hg => simp [Event.as_call]
  | parse_failed sp out g hs ho h1 h2 hg hpf => simp [Event.as_call]
  | namespace_failed sp out g parsed name hs ho h1 h2 hg hpf hn hrc => simp [Event.as_call]
  | open_failed sp out g parsed schema tn hs ho h1 h2 hg hpf hn e1 e2 e3 =>
    rcases hn with ⟨_, _, rfl⟩ | ⟨name, _, _, _, rfl⟩ <;> simp [Event.as_call]
  | emission sp out g parsed schema fp tn tf hs ho h1 h2 hg hpf hn hst =>
    have hgm := (find_generator_some _ _).1 hg
    have hec := emitter_calls_run_steps env out schema fp (emission_steps o g)
      ([Event.schema_parse_file sp (some parsed)] ++ tn ++ tf)
    rw [emitter_calls_prelude env o sp out parsed schema fp tn tf hn hst,
      List.nil_append] at hec
    refine ⟨?_, fun _ => ⟨g, hgm⟩, ?_, ?_⟩
    · intro g' hg' hl'
      have := generator_unique g g' _ hgm ⟨hg', hl'⟩
      subst this
      rw [hec, List.map_map]
      have h1 : (Call.f ∘ fun st : Step =>
          (⟨st.f, schema, fp, st.x, env.call st.f schema fp st.x⟩ : Call S)) = Step.f := rfl
      rw [h1]
      exact ((executed_sublist env schema fp _).map Step.f).trans
        (emission_steps_sublist o g hg')
    · intro c hc c' hc'
      rw [hec] at hc hc'
      simp only [List.mem_map] at hc hc'
      obtain ⟨st, _, rfl⟩ := hc
      obtain ⟨st', _, rfl⟩ := hc'
      exact ⟨rfl, rfl⟩
    · intro pre c post hsplit hc
      rw [hec] at hsplit
      refine ⟨executed_stops_at_failure env schema fp _ pre post c hsplit hc, ?_⟩
      rcases run_steps_rc env out schema fp (emission_steps o g)
        ([Event.schema_parse_file sp (some parsed)] ++ tn ++ tf) with h0 | h0
      · exfalso
        have hz := (run_steps_rc_zero_iff env out schema fp (emission_steps o g)
          ([Event.schema_parse_file sp (some parsed)] ++ tn ++ tf)
          (by rw [emitter_calls_prelude env o sp out parsed schema fp tn tf hn hst]; simp)).1 h0
        apply hc
        apply hz
        rw [hec, hsplit]
        simp
      · exact h0

/-- C19, at an instance: the sample invocation with a failing decoder. -/
theorem C19_emitters_in_fixed_order_witness :
    parse_options sample_argv = some sample_options ∧
      emitter_calls (main (sample_env [.schema_generate_c_decoder]) sample_argv).trace =
        [⟨.schema_generate_c_encoder, "ns0", .opened "out.c", some 0, 0⟩] ++
          ⟨.schema_generate_c_decoder, "ns0", .opened "out.c", some 0, 1⟩ :: [] ∧
      (main (sample_env [.schema_generate_c_decoder]) sample_argv).rc = -1 :=
  ⟨by decide, by decide,
    ((C19_emitters_in_fixed_order (sample_env [.schema_generate_c_decoder]) sample_argv
      sample_options (by decide)).2.2.2
      [⟨.schema_generate_c_encoder, "ns0", .opened "out.c", some 0, 0⟩]
      ⟨.schema_generate_c_decoder, "ns0", .opened "out.c", some 0, 1⟩ []
      (by decide) (by decide)).2⟩

/-- C20: an argument of a Boolean option is never refused.  For an argument
that is none of `t`, `true`, `y`, `yes`, `f`, `false`, `n`, `no` in any mix
of upper and lower case, each of the six options becomes 1 when `atoi` of
the argument is non-zero and 0 otherwise, in the `switch` from any state and
for the invocation with the option in long form; so `2` and `-1` give 1,
and `on`, `enabled` and the empty string give 0. -/
theorem C20_other_arguments_by_atoi (a : String)
    (h : ∀ w ∈ ["t", "true", "y", "yes", "f", "false", "n", "no"],
      a.data ∉ case_spellings w.data) :
    (∀ o : Options,
      option_switch o (.arg 'p' a) =
        some { o with option_pretty := if atoi a ≠ 0 then 1 else 0 } ∧
      option_switch o (.arg 'e' a) =
        some { o with option_encoder := if atoi a ≠ 0 then 1 else 0 } ∧
      option_switch o (.arg 'i' a) =
        some { o with option_encoder_include_library := if atoi a ≠ 0 then 1 else 0 } ∧
      option_switch o (.arg 'd' a) =
        some { o with option_decoder := if atoi a ≠ 0 then 1 else 0 } ∧
      option_switch o (.arg 'm' a) =
        some { o with option_decoder_use_memcpy := if atoi a ≠ 0 then 1 else 0 } ∧
      option_switch o (.arg 'j' a) =
        some { o with option_jsonify := if atoi a ≠ 0 then 1 else 0 }) ∧
    (parse_options ["prog", "--pretty", a] =
        some { default_options with option_pretty := if atoi a ≠ 0 then 1 else 0 } ∧
      parse_options ["prog", "--encoder", a] =
        some { default_options with option_encoder := if atoi a ≠ 0 then 1 else 0 } ∧
      parse_options ["prog", "--encoder-include-library", a] =
        some { default_options with
          option_encoder_include_library := if atoi a ≠ 0 then 1 else 0 } ∧
      parse_options ["prog", "--decoder", a] =
        some { default_options with option_decoder := if atoi a ≠ 0 then 1 else 0 } ∧
      parse_options ["prog", "--decoder-use-memcpy", a] =
        some { default_options with
          option_decoder_use_memcpy := if atoi a ≠ 0 then 1 else 0 } ∧
      parse_options ["prog", "--jsonify", a] =
        some { default_options with option_jsonify := if atoi a ≠ 0 then 1 else 0 }) ∧
    (bool_option "2" = 1 ∧ bool_option "-1" = 1 ∧ bool_option "on" = 0 ∧
      bool_option "enabled" = 0 ∧ bool_option "" = 0) := by
  rw [← bool_option_of_no_word a h]
  exact ⟨fun o => ⟨rfl, rfl, rfl, rfl, rfl, rfl⟩, ⟨rfl, rfl, rfl, rfl, rfl, rfl⟩, by decide⟩

set_option maxRecDepth 100000 in
/-- C20, at an instance: `--encoder -1` enables the encoder. -/
theorem C20_other_arguments_by_atoi_witness :
    parse_options ["prog", "--encoder", "-1"] =
      some { default_options with option_encoder := 1 } := by
  have h := (C20_other_arguments_by_atoi "-1" (by decide)).2.1.2.1
  have e : atoi "-1" = -1 := by decide
  rw [e] at h
  exact h

section
variable {A : Type}

/-- C21: level names round-trip.  For each of the six levels,
`linearbuffers_debug_level_from_string` gives the level back from the name
`linearbuffers_debug_level_to_string` gives it, so the names of two of the
six levels are equal only when the levels are; for a value that is none of
the six enumerators `to_string` returns `unknown`, which `from_string` maps
to the error level. -/
theorem C21_level_names_round_trip :
    (∀ l ∈ [linearbuffers_debug_level.silent, .error, .warning, .notice, .info, .debug],
      linearbuffers_debug_level_from_string (some (linearbuffers_debug_level_to_string l)) = l) ∧
    (∀ l1 ∈ [linearbuffers_debug_level.silent, .error, .warning, .notice, .info, .debug],
      ∀ l2 ∈ [linearbuffers_debug_level.silent, .error, .warning, .notice, .info, .debug],
        linearbuffers_debug_level_to_string l1 = linearbuffers_debug_level_to_string l2 →
        l1 = l2) ∧
    (∀ value : Int,
      linearbuffers_debug_level_to_string (.other value) = "unknown" ∧
      linearbuffers_debug_level_from_string
        (some (linearbuffers_debug_level_to_string (.other value))) = .error) := by
  refine ⟨by decide, by decide, fun value => ⟨rfl, ?_⟩⟩
  have h : linearbuffers_debug_level_from_string (some "unknown") = .error := by decide
  exact h

/-- C21, at an instance: the level `notice`. -/
theorem C21_level_names_round_trip_witness :
    linearbuffers_debug_level_from_string
      (some (linearbuffers_debug_level_to_string .notice)) = .notice :=
  C21_level_names_round_trip.1 .notice (by decide)

/-- C22: on every path through `linearbuffers_debug_printf` the mutex is
locked exactly once and unlocked exactly once, it is not held when the
function returns, every `vasprintf` and `fprintf` call is made while it is
held, and `vasprintf` is called once.  When `vasprintf` fails (returns a
negative value) the function returns -1 and writes nothing; otherwise it
returns 0 and writes exactly one line to the standard error stream; so it
returns -1 without a write exactly when the formatting fails. -/
theorem C22_mutex_around_format_and_write (env : DebugEnv A)
    (level : linearbuffers_debug_level) (name function file : String) (line : Int)
    (fmt : String) (ap : A) :
    (linearbuffers_debug_printf env level name function file line fmt ap).trace.count .lock = 1 ∧
    (linearbuffers_debug_printf env level name function file line fmt ap).trace.count .unlock
      = 1 ∧
    mutex_held false
      (linearbuffers_debug_printf env level name function file line fmt ap).trace = false ∧
    guarded false
      (linearbuffers_debug_printf env level name function file line fmt ap).trace = true ∧
    (linearbuffers_debug_printf env level name function file line fmt ap).trace.count
      (.vasprintf fmt) = 1 ∧
    ((env.vasprintf fmt ap).1 < 0 →
      (linearbuffers_debug_printf env level name function file line fmt ap).rc = -1 ∧
      stderr_writes (linearbuffers_debug_printf env level name function file line fmt ap).trace
        = []) ∧
    (¬ (env.vasprintf fmt ap).1 < 0 →
      (linearbuffers_debug_printf env level name function file line fmt ap).rc = 0 ∧
      (stderr_writes
        (linearbuffers_debug_printf env level name function file line fmt ap).trace).length
        = 1) ∧
    (((linearbuffers_debug_printf env level name function file line fmt ap).rc = -1 ∧
      stderr_writes (linearbuffers_debug_printf env level name function file line fmt ap).trace
        = []) ↔ (env.vasprintf fmt ap).1 < 0) := by
  unfold linearbuffers_debug_printf
  by_cases h : (env.vasprintf fmt ap).1 < 0
  · simp only [h, if_true]
    cases hs : (env.vasprintf fmt ap).2 <;>
      simp [free_str, mutex_held, guarded, stderr_writes, List.count_cons]
  · simp only [h, if_false]
    cases hs : (env.vasprintf fmt ap).2 <;>
      simp [free_str, mutex_held, guarded, stderr_writes, List.count_cons]

/-- C23: timestamp rounding in `linearbuffers_debug_printf`.  For every
`tv_sec` and every `tv_usec` from 0 to 999999, the millisecond field after
the carry lies between 0 and 999, seconds and milliseconds after the carry
are the time rounded to the nearest millisecond with halves rounded up
(`seconds * 1000 + milliseconds` is the floor of
`(tv_sec * 1000000 + tv_usec + 500) / 1000`), the seconds are incremented
exactly when `tv_usec` is at least 999500, and these are the seconds given
to `localtime` and the milliseconds written in the line. -/
theorem C23_timestamp_rounding (tv_sec tv_usec : Int) (h0 : 0 ≤ tv_usec)
    (h1 : tv_usec ≤ 999999) :
    (0 ≤ (debug_timestamp tv_sec tv_usec).2 ∧ (debug_timestamp tv_sec tv_usec).2 ≤ 999) ∧
    (debug_timestamp tv_sec tv_usec).1 * 1000 + (debug_timestamp tv_sec tv_usec).2 =
      (tv_sec * 1000000 + tv_usec + 500) / 1000 ∧
    ((debug_timestamp tv_sec tv_usec).1 = tv_sec + 1 ↔ 999500 ≤ tv_usec) ∧
    ((debug_timestamp tv_sec tv_usec).1 = tv_sec ↔ tv_usec < 999500) ∧
    (∀ (env : DebugEnv A) (level : linearbuffers_debug_level) (name function file : String)
      (line : Int) (fmt : String) (ap : A),
      env.gettimeofday = (tv_sec, tv_usec) → ¬ (env.vasprintf fmt ap).1 < 0 →
      debug_event.localtime (debug_timestamp tv_sec tv_usec).1 ∈
        (linearbuffers_debug_printf env level name function file line fmt ap).trace ∧
      stderr_writes (linearbuffers_debug_printf env level name function file line fmt ap).trace =
        [debug_line (env.date (debug_timestamp tv_sec tv_usec).1)
          (debug_timestamp tv_sec tv_usec).2 name level
          ((env.vasprintf fmt ap).2.getD "(null)") function file line]) := by
  have hms := debug_milliseconds_eq tv_usec h0 h1
  have hts : debug_timestamp tv_sec tv_usec =
      if 999500 ≤ tv_usec then (tv_sec + 1, 0) else (tv_sec, (tv_usec + 500) / 1000) := by
    unfold debug_timestamp
    rw [hms]
    by_cases hc : 999500 ≤ tv_usec
    · rw [if_pos hc, if_pos (by omega)]
      congr 1
      omega
    · rw [if_neg hc, if_neg (by omega)]
  refine ⟨?_, ?_, ?_, ?_, ?_⟩
  · rw [hts]; split_ifs <;> constructor <;> simp only <;> omega
  · rw [hts]; split_ifs <;> simp only <;> omega
  · rw [hts]
    split_ifs with hc
    · exact ⟨fun _ => hc, fun _ => rfl⟩
    · exact ⟨fun h => absurd h (by simp), fun h => absurd h hc⟩
  · rw [hts]
    split_ifs with hc
    · exact ⟨fun h => absurd h (by simp), fun h => absurd hc (by omega)⟩
    · exact ⟨fun _ => by omega, fun _ => rfl⟩
  · intro env level name function file line fmt ap hg hv
    unfold linearbuffers_debug_printf
    simp only [hv, if_false, hg]
    cases (env.vasprintf fmt ap).2 <;> simp [free_str, stderr_writes]

/-- C23, at an instance: 12 s and 999600 microseconds are written as 13 s
and 0 ms, in the sample environment. -/
theorem C23_timestamp_rounding_witness :
    (debug_timestamp 12 999600).1 * 1000 + (debug_timestamp 12 999600).2 =
      (12 * 1000000 + 999600 + 500) / 1000 ∧
    ((debug_timestamp 12 999600).1 = 12 + 1 ↔ (999500 : Int) ≤ 999600) ∧
    stderr_writes
        (linearbuffers_debug_printf sample_debug_env .info "n" "f" "a.c" 7 "hello" ()).trace =
      [debug_line (sample_debug_env.date (debug_timestamp 12 999600).1)
        (debug_timestamp 12 999600).2 "n" .info
        ((sample_debug_env.vasprintf "hello" ()).2.getD "(null)") "f" "a.c" 7] :=
  ⟨(@C23_timestamp_rounding Unit 12 999600 (by decide) (by decide)).2.1,
    (@C23_timestamp_rounding Unit 12 999600 (by decide) (by decide)).2.2.1,
    ((@C23_timestamp_rounding Unit 12 999600 (by decide) (by decide)).2.2.2.2
      sample_debug_env .info "n" "f" "a.c" 7 "hello" () rfl (by decide)).2⟩

end

end

end Linearbuffers
